import Mathlib

/-! # arenaAllocator: the bump region and the expression pipeline

A shallow embedding of `src/arena.cpp`, followed by the properties of the
region (`Arena`), of the lexer (`generateNextToken`), of the parser
(`parseLine`) and of the evaluator (`evaluate`).

Conventions of the embedding.

* The target is a 64-bit one: `uintptr_t` and `uint64_t` are 64 bits wide,
  `int` and `uint32_t` are 32 bits wide and `sizeof(void*)` is 8.  Machine
  integers are natural numbers or integers, and every C operation that can wrap
  is written with its explicit `% 2 ^ 64` (or `% 2 ^ 32` for `uint32_t`).
* A pointer into the arena is the natural number of its address; `NULL` is `0`.
* `malloc`, `memset` and `atoi` belong to the C library.  The address `malloc`
  hands back is an argument of `initArena`, `NULL` when it fails; `memset` is
  the byte loop of its definition in the C standard, undefined when the bytes it
  is asked to write do not all lie in the buffer; `atoi` is its digit loop,
  undefined beyond `INT_MAX` as the standard has it.
* A `char*` is the list of the bytes it points to.
* A run of the expression pipeline ends in a value or in a `Fault`: behaviour
  the C standard leaves undefined, a dereferenced `NULL`, or the exhaustion of
  the iteration bound the embedding gives to a parser loop.
* An `ASTNode*` is the tree it points to.  What freshly allocated storage
  holds before the parser writes to it is an argument (`fresh`) of the parser.
* The arithmetic of `float` and `double` is an argument (`Arith`) of the parser
  and of the evaluator, so what is proved holds for every arithmetic; where a
  statement needs numbers to come out exactly, it says what it asks of the
  arithmetic (`ExactOnSmallNats`).
-/

namespace ArenaAllocator

/-! ## Arena library -/

/-- The ways a run leaves defined behaviour (behaviour the C standard leaves
undefined, a dereferenced `NULL`), and the exhaustion of the fuel the embedding
gives to the parser loops. -/
inductive Fault where
  | undefinedBehaviour
  | nullDereference
  | outOfFuel
deriving DecidableEq, Repr

/-- Macro `#define DEFAULT_ALIGNMENT (2*sizeof(void *))`. -/
def DEFAULT_ALIGNMENT : Nat := 2 * 8

/-- Macro `#define KB 1024`. -/
def KB : Nat := 1024

/-- Macro `#define MB KB * 1024`. -/
def MB : Nat := KB * 1024

/-- Macro `#define GB MB * 1024`. -/
def GB : Nat := MB * 1024

/-- Macro `#define DEFAULT_SIZE 4 * MB`. -/
def DEFAULT_SIZE : Nat := 4 * MB

/-- Type `struct Arena`: the buffer address and three `uint64_t` fields. -/
structure Arena where
  memory : Nat
  index : Nat
  previousIndex : Nat
  size : Nat
deriving DecidableEq, Repr

/-- Function `initArena(memorySize)`.  `buffer` is the address returned by
`malloc(memorySize)`. -/
def initArena (buffer : Nat) (memorySize : Nat) : Arena :=
  Arena.mk buffer 0 0 memorySize

/-- Function `clearArena`: both indices go back to 0, the buffer and the size stay. -/
def clearArena (arena : Arena) : Arena :=
  Arena.mk arena.memory 0 0 arena.size

/-- The local `currentAddr` of `arenaAllocAligned`:
`(uintptr_t)arena->memory + arena->index`. -/
def currentAddr (arena : Arena) : Nat :=
  (arena.memory + arena.index) % 2 ^ 64

/-- The `uint32_t` value `align - 1`. -/
def alignMinusOne (align : Nat) : Nat :=
  (align + 2 ^ 32 - 1) % 2 ^ 32

/-- The local `alignedAddr` of `arenaAllocAligned`:
`(currentAddr + (align - 1)) & ~(uint64_t)(align - 1)`; the complement of a
64-bit value `m` is `2 ^ 64 - 1 - m`. -/
def alignedAddr (arena : Arena) (align : Nat) : Nat :=
  ((currentAddr arena + alignMinusOne align) % 2 ^ 64) &&&
    (2 ^ 64 - 1 - alignMinusOne align)

/-- The local `padding` of `arenaAllocAligned`: `alignedAddr - currentAddr`
in `uint64_t`. -/
def padding (arena : Arena) (align : Nat) : Nat :=
  (alignedAddr arena align + 2 ^ 64 - currentAddr arena) % 2 ^ 64

/-- Function `arenaAllocAligned(arena, size, align)`: the returned pointer and the arena
afterwards.  The guard and the update are computed in `uint64_t`, in the
order the C expression evaluates them. -/
def arenaAllocAligned (arena : Arena) (size align : Nat) : Nat × Arena :=
  if ((arena.index + padding arena align) % 2 ^ 64 + size) % 2 ^ 64 > arena.size then
    (0, arena)
  else
    (alignedAddr arena align,
      Arena.mk arena.memory
        ((arena.index + (padding arena align + size) % 2 ^ 64) % 2 ^ 64)
        arena.previousIndex arena.size)

/-- Function `arenaAlloc(arena, size)`. -/
def arenaAlloc (arena : Arena) (size : Nat) : Nat × Arena :=
  arenaAllocAligned arena size DEFAULT_ALIGNMENT

/-- The bytes of the address space: address to byte value. -/
abbrev Memory := Nat → Nat

/-- The byte loop of `memset`: the bytes at `ptr`, ..., `ptr + n - 1` are set to `c`,
one at a time. -/
def memsetLoop (mem : Memory) (ptr c : Nat) : Nat → Memory
  | 0 => mem
  | n + 1 => fun a => if a = ptr + n then c else memsetLoop mem ptr c n a

/-- Function `memset(ptr, c, n)` of the C library, called with a pointer into the object
that `malloc` gave at `base` with `len` bytes (no object when `base` is `NULL`).
The call is defined when the `n` bytes from `ptr` all lie in that object, which
lies in the 64-bit address space; then they are set to `c`.  Any other call,
such as one whose range runs past the end of the object, has undefined
behaviour. -/
def memset (base len : Nat) (mem : Memory) (ptr c n : Nat) : Except Fault Memory :=
  if base ≠ 0 ∧ base + len ≤ 2 ^ 64 ∧ base ≤ ptr ∧ ptr + n ≤ base + len then
    Except.ok (memsetLoop mem ptr c n)
  else Except.error Fault.undefinedBehaviour

/-- Function `arenaAllocAlignedZero(arena, size, align)`: pointer, arena and memory
afterwards.  The object `memset` writes into is the buffer of the arena,
`arena->size` bytes at `arena->memory`. -/
def arenaAllocAlignedZero (arena : Arena) (mem : Memory) (size align : Nat) :
    Except Fault (Nat × Arena × Memory) :=
  let result := arenaAllocAligned arena size align
  if result.1 ≠ 0 then
    match memset arena.memory arena.size mem result.1 0 size with
    | Except.error e => Except.error e
    | Except.ok mem1 => Except.ok (result.1, result.2, mem1)
  else
    Except.ok (result.1, result.2, mem)

/-- Function `arenaAllocZero(arena, size)`. -/
def arenaAllocZero (arena : Arena) (mem : Memory) (size : Nat) :
    Except Fault (Nat × Arena × Memory) :=
  arenaAllocAlignedZero arena mem size DEFAULT_ALIGNMENT

/-- Function `arenaGetPos`. -/
def arenaGetPos (arena : Arena) : Nat := arena.index

/-- Function `arenaGetMemoryUsed`. -/
def arenaGetMemoryUsed (arena : Arena) : Nat := arena.index

/-- Function `arenaGetMemoryLeft`: `arena->size - arena->index` in `uint64_t`. -/
def arenaGetMemoryLeft (arena : Arena) : Nat :=
  (arena.size + 2 ^ 64 - arena.index) % 2 ^ 64

/-- A run of `arenaAllocAligned` calls, one per request `(size, align)`: the
list of `(pointer, size, align)` in call order and the arena at the end. -/
def allocAll : Arena → List (Nat × Nat) → List (Nat × Nat × Nat) × Arena
  | arena, [] => ([], arena)
  | arena, (size, align) :: rest =>
    let r := arenaAllocAligned arena size align
    let tail := allocAll r.2 rest
    ((r.1, size, align) :: tail.1, tail.2)

/-- No step of the run wraps the 64-bit sum `index + padding + size` that the
guard of `arenaAllocAligned` compares with the capacity. -/
def NoWrap : Arena → List (Nat × Nat) → Prop
  | _, [] => True
  | arena, (size, align) :: rest =>
    arena.index + padding arena align + size < 2 ^ 64 ∧
      NoWrap (arenaAllocAligned arena size align).2 rest

/-- The two blocks `[p, p + n)` and `[q, q + m)` have no address in common. -/
def Disjoint (b c : Nat × Nat × Nat) : Prop :=
  ∀ x, ¬ (b.1 ≤ x ∧ x < b.1 + b.2.1 ∧ c.1 ≤ x ∧ x < c.1 + c.2.1)

/-! ## String library

A `char*` is the list of the bytes it points to; a read at or past the end of
the list gives the NUL byte, so a list without a 0 stands for a string whose
terminator comes right after it. -/

/-- Type `struct String`: the characters and the `uint32_t` length. -/
structure String where
  text : List Nat
  length : Nat
deriving DecidableEq

/-- The read `text[i]`. -/
def charAt (text : List Nat) (i : Nat) : Nat :=
  text.getD i 0

/-- The function `string(text, size)`. -/
def string (text : List Nat) (size : Nat) : String :=
  String.mk text size

/-- The loop of `cStringToString`, with `m` iterations left and the counter at
`i`: `some` of the string up to the first NUL, or `none` when the loop ends
without finding one and `result` is returned as it was declared,
uninitialised. -/
def cStringToStringLoop (text : List Nat) : Nat → Nat → Option String
  | 0, _ => none
  | m + 1, i =>
    if charAt text i = 0 then some (string text i)
    else cStringToStringLoop text m (i + 1)

/-- Function `cStringToString(text, size)`. -/
def cStringToString (text : List Nat) (size : Nat) : Option String :=
  cStringToStringLoop text size 0

/-- The macro `stringCArr(text)` on an array of `sizeofText` bytes:
`cStringToString((char*)text, sizeof(text) - 1)`. -/
def stringCArr (text : List Nat) (sizeofText : Nat) : Option String :=
  cStringToString text (sizeofText - 1)

/-- Function `charIsDigit(c)`. -/
def charIsDigit (c : Nat) : Bool :=
  decide (c ≥ 48) && decide (c ≤ 57)

/-- The digit loop of the C library `atoi`, on a buffer that starts with a
digit: the decimal value of the leading run of digits. -/
def atoiLoop : List Nat → Nat → Nat
  | [], acc => acc
  | c :: cs, acc => if charIsDigit c then atoiLoop cs (acc * 10 + (c - 48)) else acc

/-- Constant `INT_MAX` of a 32-bit `int`. -/
def INT_MAX : Nat := 2147483647

/-- Function `atoi(text)` of the C library, for a buffer that starts with a digit; the
C standard leaves the behaviour undefined when the value does not fit `int`,
which is `none` here. -/
def atoi (text : List Nat) : Option Int :=
  if atoiLoop text 0 ≤ INT_MAX then some (Int.ofNat (atoiLoop text 0)) else none

/-! ## Expression parsing library -/

/-- Type `enum TokenType`. -/
inductive TokenType where
  | TOKEN_NUMBER
  | TOKEN_OPEN_BRACKET
  | TOKEN_CLOSED_BRACKET
  | TOKEN_PLUS
  | TOKEN_MINUS
  | TOKEN_STAR
  | TOKEN_SLASH
  | TOKEN_EOF
deriving DecidableEq, Repr

/-- The anonymous union of `struct Token`: `int number` or `String character`. -/
inductive TokenValue where
  | number (n : Int)
  | character (s : String)
deriving DecidableEq

/-- Type `struct Token`. -/
structure Token where
  type : TokenType
  value : TokenValue
deriving DecidableEq

/-- The read `token.number`.  Every token `generateNextToken` builds with type
`TOKEN_NUMBER` holds the `number` member, and the parser reads `number` of no
other token; for the other member the read is given as 0. -/
def Token.number (t : Token) : Int :=
  match t.value with
  | TokenValue.number n => n
  | TokenValue.character _ => 0

/-- Type `struct Lexer`.  `pos` is a `uint32_t`; the inputs are shorter than
`2 ^ 32` bytes, the range of `String.length`, so it does not wrap. -/
structure Lexer where
  str : String
  pos : Nat
deriving DecidableEq

/-- The first loop of `generateNextToken`: `while(text[pos] == ' ') pos++`.
The first argument bounds the iterations; the length of `text` is enough,
since reads past it give NUL. -/
def skipSpaces (text : List Nat) : Nat → Nat → Nat
  | 0, pos => pos
  | fuel + 1, pos =>
    if charAt text pos = 32 then skipSpaces text fuel (pos + 1) else pos

/-- The second loop of `generateNextToken`: the digits copied into `value` and
the position after them.  The first argument bounds the iterations as in
`skipSpaces`. -/
def readDigits (text : List Nat) : Nat → Nat → List Nat → Nat × List Nat
  | 0, pos, value => (pos, value)
  | fuel + 1, pos, value =>
    if charIsDigit (charAt text pos) then
      readDigits text fuel (pos + 1) (value ++ [charAt text pos])
    else (pos, value)

/-- The `switch(c)` of `generateNextToken`, starting from `Token token = {}`,
that is type `TOKEN_NUMBER` (the enumerator 0) and number 0; a byte with no
`case` leaves the token so. -/
def switchToken (c : Nat) : Token :=
  if c = 40 then Token.mk TokenType.TOKEN_OPEN_BRACKET (TokenValue.character (string [40, 0] 1))
  else if c = 41 then
    Token.mk TokenType.TOKEN_CLOSED_BRACKET (TokenValue.character (string [41, 0] 1))
  else if c = 43 then Token.mk TokenType.TOKEN_PLUS (TokenValue.character (string [43, 0] 1))
  else if c = 45 then Token.mk TokenType.TOKEN_MINUS (TokenValue.character (string [45, 0] 1))
  else if c = 47 then Token.mk TokenType.TOKEN_SLASH (TokenValue.character (string [47, 0] 1))
  else if c = 42 then Token.mk TokenType.TOKEN_STAR (TokenValue.character (string [42, 0] 1))
  else if c = 0 then
    Token.mk TokenType.TOKEN_EOF (TokenValue.character (string [69, 79, 70, 0] 3))
  else Token.mk TokenType.TOKEN_NUMBER (TokenValue.number 0)

/-- Function `generateNextToken(lexer)`: the token and the lexer afterwards.  `value` is
an array of 64 bytes: a run of 64 or more digits writes past it, a run of 63
leaves no NUL among the 63 bytes `stringCArr` looks at, so `atoi` is handed
the pointer of an uninitialised `String`, and a value above `INT_MAX` is
outside what `atoi` defines; all three are `undefinedBehaviour`. -/
def generateNextToken (lexer : Lexer) : Except Fault (Token × Lexer) :=
  let text := lexer.str.text
  let pos1 := skipSpaces text text.length lexer.pos
  let digits := readDigits text text.length pos1 []
  if digits.2.length > 0 then
    if digits.2.length ≥ 64 then Except.error Fault.undefinedBehaviour
    else
      match stringCArr (digits.2 ++ [0]) 64 with
      | none => Except.error Fault.undefinedBehaviour
      | some s =>
        match atoi s.text with
        | none => Except.error Fault.undefinedBehaviour
        | some n =>
          Except.ok (Token.mk TokenType.TOKEN_NUMBER (TokenValue.number n),
            Lexer.mk lexer.str digits.1)
  else
    Except.ok (switchToken (charAt text digits.1), Lexer.mk lexer.str (digits.1 + 1))

/-- Type `enum ASTNodeType`. -/
inductive ASTNodeType where
  | ASTNODE_NUMBER
  | ASTNODE_OPERATION
deriving DecidableEq, Repr

/-- The value of an `ASTNode*`: `NULL`, or the node it points to.  A node is
a number node holding a `float` (type `F`), an operation node, or storage
whose `type` field holds neither enumerator. -/
inductive ASTNode (F : Type) where
  | null
  | number (number : F)
  | operation (left right : ASTNode F) (op : TokenType)
  | unknown (tag : Nat)

/-- The arithmetic of the C types `float` (`F`) and `double` (`D`) that the
parser and the evaluator use: the conversions `int` to `float` (the assignment
`node->number = token.number`) and `float` to `double` (`return root->number`),
the `double` 0 and the four `double` operations. -/
structure Arith (F D : Type) where
  intToFloat : Int → F
  floatToDouble : F → D
  zero : D
  add : D → D → D
  sub : D → D → D
  mul : D → D → D
  div : D → D → D

/-- Constant `sizeof(ASTNode)` on the 64-bit target: the 4-byte tag, 4 bytes of
padding and the 24-byte union. -/
def sizeofASTNode : Nat := 32

/-- What the parser works on: the arena, the lexer and the global `token`. -/
structure Parser where
  arena : Arena
  l : Lexer
  token : Token

/-- The loop of `parseNumber`.  `ptr` is the address `arenaAllocStruct`
returned and `node` what the storage holds. -/
def parseNumberLoop {F D : Type} (A : Arith F D) (ptr : Nat) :
    Nat → ASTNode F → Lexer → Token → Except Fault (ASTNode F × Lexer × Token)
  | 0, _, _, _ => Except.error Fault.outOfFuel
  | fuel + 1, node, l, token =>
    if token.type = TokenType.TOKEN_NUMBER then
      if ptr = 0 then Except.error Fault.nullDereference
      else
        match generateNextToken l with
        | Except.error e => Except.error e
        | Except.ok (next, l1) =>
          parseNumberLoop A ptr fuel (ASTNode.number (A.intToFloat token.number)) l1 next
    else Except.ok (node, l, token)

/-- Function `parseNumber(arena, l)`.  `fresh p` is what the arena storage at address
`p` holds, read as a node, before the parser writes to it. -/
def parseNumber {F D : Type} (A : Arith F D) (fresh : Nat → ASTNode F) (fuel : Nat)
    (s : Parser) : Except Fault (ASTNode F × Parser) :=
  let r := arenaAlloc s.arena sizeofASTNode
  let node := if r.1 = 0 then ASTNode.null else fresh r.1
  match parseNumberLoop A r.1 fuel node s.l s.token with
  | Except.error e => Except.error e
  | Except.ok (node1, l1, token1) => Except.ok (node1, Parser.mk r.2 l1 token1)

/-- The loop of `parseFactor`. -/
def parseFactorLoop {F D : Type} (A : Arith F D) (fresh : Nat → ASTNode F) (inner : Nat) :
    Nat → ASTNode F → Parser → Except Fault (ASTNode F × Parser)
  | 0, _, _ => Except.error Fault.outOfFuel
  | fuel + 1, left, s =>
    if s.token.type = TokenType.TOKEN_STAR ∨ s.token.type = TokenType.TOKEN_SLASH then
      let r := arenaAlloc s.arena sizeofASTNode
      if r.1 = 0 then Except.error Fault.nullDereference
      else
        match generateNextToken s.l with
        | Except.error e => Except.error e
        | Except.ok (next, l1) =>
          match parseNumber A fresh inner (Parser.mk r.2 l1 next) with
          | Except.error e => Except.error e
          | Except.ok (right, s1) =>
            parseFactorLoop A fresh inner fuel (ASTNode.operation left right s.token.type) s1
    else Except.ok (left, s)

/-- Function `parseFactor(arena, l)`. -/
def parseFactor {F D : Type} (A : Arith F D) (fresh : Nat → ASTNode F) (fuel : Nat)
    (s : Parser) : Except Fault (ASTNode F × Parser) :=
  match parseNumber A fresh fuel s with
  | Except.error e => Except.error e
  | Except.ok (left, s1) => parseFactorLoop A fresh fuel fuel left s1

/-- The loop of `parseExpression`. -/
def parseExpressionLoop {F D : Type} (A : Arith F D) (fresh : Nat → ASTNode F)
    (inner : Nat) : Nat → ASTNode F → Parser → Except Fault (ASTNode F × Parser)
  | 0, _, _ => Except.error Fault.outOfFuel
  | fuel + 1, left, s =>
    if s.token.type = TokenType.TOKEN_PLUS ∨ s.token.type = TokenType.TOKEN_MINUS then
      let r := arenaAlloc s.arena sizeofASTNode
      if r.1 = 0 then Except.error Fault.nullDereference
      else
        match generateNextToken s.l with
        | Except.error e => Except.error e
        | Except.ok (next, l1) =>
          match parseFactor A fresh inner (Parser.mk r.2 l1 next) with
          | Except.error e => Except.error e
          | Except.ok (right, s1) =>
            parseExpressionLoop A fresh inner fuel
              (ASTNode.operation left right s.token.type) s1
    else Except.ok (left, s)

/-- Function `parseExpression(arena, l)`. -/
def parseExpression {F D : Type} (A : Arith F D) (fresh : Nat → ASTNode F) (fuel : Nat)
    (s : Parser) : Except Fault (ASTNode F × Parser) :=
  match parseFactor A fresh fuel s with
  | Except.error e => Except.error e
  | Except.ok (left, s1) => parseExpressionLoop A fresh fuel fuel left s1

/-- Function `parseLine(arena, line)`: the root and the parser state at the end.  Every
iteration of a parser loop takes a token from the lexer, and the lexer reaches
the NUL after at most `length + 1` tokens, so each loop is given
`length + 2` iterations. -/
def parseLine {F D : Type} (A : Arith F D) (fresh : Nat → ASTNode F) (arena : Arena)
    (line : String) : Except Fault (ASTNode F × Parser) :=
  let l := Lexer.mk line 0
  let root := arenaAlloc arena sizeofASTNode
  match generateNextToken l with
  | Except.error e => Except.error e
  | Except.ok (token, l1) =>
    parseExpression A fresh (line.text.length + 2) (Parser.mk root.2 l1 token)

/-- Function `evaluate(root)`. -/
def evaluate {F D : Type} (A : Arith F D) : ASTNode F → Except Fault D
  | ASTNode.null => Except.error Fault.nullDereference
  | ASTNode.number v => Except.ok (A.floatToDouble v)
  | ASTNode.operation left right op =>
    match evaluate A left with
    | Except.error e => Except.error e
    | Except.ok l =>
      match evaluate A right with
      | Except.error e => Except.error e
      | Except.ok r =>
        if op = TokenType.TOKEN_PLUS then Except.ok (A.add l r)
        else if op = TokenType.TOKEN_MINUS then Except.ok (A.sub l r)
        else if op = TokenType.TOKEN_STAR then Except.ok (A.mul l r)
        else if op = TokenType.TOKEN_SLASH then Except.ok (A.div l r)
        else Except.ok A.zero
  | ASTNode.unknown _ => Except.ok A.zero

/-- The bytes of a list of characters followed by the terminating NUL. -/
def cstr (cs : List Char) : List Nat :=
  cs.map Char.toNat ++ [0]

/-! ## Vocabulary of the statements about the expression pipeline -/

/-- The decimal value of a list of digit bytes. -/
def decimalValue (ds : List Nat) : Nat :=
  ds.foldl (fun acc c => acc * 10 + (c - 48)) 0

/-- The bytes of `seg` are what `text` holds from position `pos` on. -/
def SegAt (text : List Nat) (pos : Nat) (seg : List Nat) : Prop :=
  ∀ i, i < seg.length → charAt text (pos + i) = seg.getD i 0

/-- The lexer started at `l` produces the tokens `ts`, in order, without fault. -/
def Lexes : Lexer → List Token → Prop
  | _, [] => True
  | l, t :: ts => ∃ l1, generateNextToken l = Except.ok (t, l1) ∧ Lexes l1 ts

/-- The parser state has `t` as current token and the lexer produces `ts` next. -/
def Feeds (s : Parser) : List Token → Prop
  | [] => False
  | t :: ts => s.token = t ∧ Lexes s.l ts

/-- The arena is a real buffer with room for `k` more nodes, each with its
worst-case padding. -/
def Room (arena : Arena) (k : Nat) : Prop :=
  arena.memory ≠ 0 ∧ arena.memory + arena.size < 2 ^ 64 ∧
    arena.index + (sizeofASTNode + 15) * k ≤ arena.size

/-- The `NUMBER` token with payload `n`. -/
def numberToken (n : Int) : Token :=
  Token.mk TokenType.TOKEN_NUMBER (TokenValue.number n)

/-- The token `generateNextToken` builds for a byte of kind `op`: the operator
or parenthesis itself, the NUL for `EOF`, and for `TOKEN_NUMBER` a byte that has
no `case` in the `switch`. -/
def operatorToken (op : TokenType) : Token :=
  match op with
  | TokenType.TOKEN_PLUS => switchToken 43
  | TokenType.TOKEN_MINUS => switchToken 45
  | TokenType.TOKEN_STAR => switchToken 42
  | TokenType.TOKEN_SLASH => switchToken 47
  | TokenType.TOKEN_OPEN_BRACKET => switchToken 40
  | TokenType.TOKEN_CLOSED_BRACKET => switchToken 41
  | TokenType.TOKEN_EOF => switchToken 0
  | TokenType.TOKEN_NUMBER => switchToken 1

/-- Tokens of `(('*' | '/') NUMBER)*`. -/
def factorTokens : List (TokenType × Int) → List Token
  | [] => []
  | (op, n) :: fs => operatorToken op :: numberToken n :: factorTokens fs

/-- The tree of `atom (('*' | '/') atom)*` grown leftwards from `left`. -/
def factorTree {F D : Type} (A : Arith F D) (left : ASTNode F) :
    List (TokenType × Int) → ASTNode F
  | [] => left
  | (op, n) :: fs =>
    factorTree A (ASTNode.operation left (ASTNode.number (A.intToFloat n)) op) fs

/-- Tokens of `(('+' | '-') factor)*`. -/
def expressionTokens : List (TokenType × Int × List (TokenType × Int)) → List Token
  | [] => []
  | (op, n, fs) :: es =>
    operatorToken op :: numberToken n :: (factorTokens fs ++ expressionTokens es)

/-- The tree of `factor (('+' | '-') factor)*` grown leftwards from `left`. -/
def expressionTree {F D : Type} (A : Arith F D) (left : ASTNode F) :
    List (TokenType × Int × List (TokenType × Int)) → ASTNode F
  | [] => left
  | (op, n, fs) :: es =>
    expressionTree A
      (ASTNode.operation left (factorTree A (ASTNode.number (A.intToFloat n)) fs) op) es

/-- Nodes the parser allocates for `(('+' | '-') factor)*`. -/
def expressionNodes : List (TokenType × Int × List (TokenType × Int)) → Nat
  | [] => 0
  | (_, _, fs) :: es => 2 + 2 * fs.length + expressionNodes es

/-- The composition `evaluate(parseLine(arena, line))` of the demo driver. -/
def evaluateLine {F D : Type} (A : Arith F D) (fresh : Nat → ASTNode F) (arena : Arena)
    (line : String) : Except Fault D :=
  match parseLine A fresh arena line with
  | Except.error e => Except.error e
  | Except.ok (root, _) => evaluate A root

/-- The `String` of a literal, as the macro `string(text)` builds it: the bytes
with their NUL and the length without it. -/
def line (cs : List Char) : String :=
  string (cstr cs) cs.length

/-- The `String` whose characters are the given bytes, followed by the NUL. -/
def lineOfBytes (bytes : List Nat) : String :=
  string (bytes ++ [0]) bytes.length

/-- The `double` an `int` payload becomes on its way through the `float` field
of a number node. -/
def Arith.ofInt {F D : Type} (A : Arith F D) (n : Int) : D :=
  A.floatToDouble (A.intToFloat n)

/-- What IEEE-754 arithmetic guarantees on small natural numbers.  A natural
number up to `2 ^ 24` is a `float` and a `double`, so `A.ofInt` does not round
it; and the `double` sum, difference, product or quotient of two such numbers,
when its exact value is again such a number, is that number. -/
structure ExactOnSmallNats {F D : Type} (A : Arith F D) : Prop where
  add_exact : ∀ a b : Nat, a ≤ 2 ^ 24 → b ≤ 2 ^ 24 → a + b ≤ 2 ^ 24 →
    A.add (A.ofInt (Int.ofNat a)) (A.ofInt (Int.ofNat b)) = A.ofInt (Int.ofNat (a + b))
  sub_exact : ∀ a b : Nat, a ≤ 2 ^ 24 → b ≤ a →
    A.sub (A.ofInt (Int.ofNat a)) (A.ofInt (Int.ofNat b)) = A.ofInt (Int.ofNat (a - b))
  mul_exact : ∀ a b : Nat, a ≤ 2 ^ 24 → b ≤ 2 ^ 24 → a * b ≤ 2 ^ 24 →
    A.mul (A.ofInt (Int.ofNat a)) (A.ofInt (Int.ofNat b)) = A.ofInt (Int.ofNat (a * b))
  div_exact : ∀ a b q : Nat, a ≤ 2 ^ 24 → b ≤ 2 ^ 24 → b ≠ 0 → a = q * b →
    A.div (A.ofInt (Int.ofNat a)) (A.ofInt (Int.ofNat b)) = A.ofInt (Int.ofNat q)

/-- The number of halvings that bring `m` below `2 ^ 24`, counted with at most
the given number of steps. -/
def floatExponent : Nat → Nat → Nat
  | 0, _ => 0
  | fuel + 1, m => if m < 2 ^ 24 then 0 else 1 + floatExponent fuel (m / 2)

/-- Rounding of a natural number below `2 ^ 64` to the 24 significant bits of
an IEEE-754 binary32 `float`, to nearest with ties to even. -/
def roundToFloat (m : Nat) : Nat :=
  if m ≤ 2 ^ 24 then m
  else
    let e := floatExponent 64 m
    let q := m / 2 ^ e
    let r := m % 2 ^ e
    if r > 2 ^ (e - 1) ∨ (r = 2 ^ (e - 1) ∧ q % 2 = 1) then (q + 1) * 2 ^ e else q * 2 ^ e

/-- The conversion `int` to `float`, as a rational number. -/
def floatOfInt (n : Int) : ℚ :=
  if n < 0 then - ((roundToFloat n.natAbs : Nat) : ℚ) else ((roundToFloat n.natAbs : Nat) : ℚ)

/-- The arithmetic the concrete examples are evaluated with: the `int` to `float`
conversion rounds as IEEE-754 binary32 does, and the `double` operations are
those of the rational numbers, with which IEEE-754 binary64 agrees whenever the
exact result is representable, as it is at every step of the examples. -/
def exactArith : Arith ℚ ℚ :=
  Arith.mk floatOfInt (fun x => x) 0 (fun x y => x + y) (fun x y => x - y)
    (fun x y => x * y) (fun x y => x / y)

/-- The reading of zero-filled arena storage as a node: tag 0, which is
`ASTNODE_NUMBER`, and number `0.0`. -/
def zeroFresh : Nat → ASTNode ℚ :=
  fun _ => ASTNode.number 0

/-- A decimal literal the lexer accepts: a non-empty run of at most 62 digits
whose value fits `int`. -/
def IsLiteral (ds : List Nat) : Prop :=
  ds ≠ [] ∧ (∀ c ∈ ds, charIsDigit c = true) ∧ ds.length ≤ 62 ∧ decimalValue ds ≤ INT_MAX

/-- The tokens of the first `n` calls of `generateNextToken`. -/
def lexRun : Nat → Lexer → Except Fault (List Token)
  | 0, _ => Except.ok []
  | n + 1, l =>
    match generateNextToken l with
    | Except.error e => Except.error e
    | Except.ok (t, l1) =>
      match lexRun n l1 with
      | Except.error e => Except.error e
      | Except.ok ts => Except.ok (t :: ts)

/-- The loop "call `generateNextToken` until it returns `EOF`": the tokens in
order, the `EOF` token last. -/
def lexUntilEOF : Nat → Lexer → Except Fault (List Token)
  | 0, _ => Except.error Fault.outOfFuel
  | fuel + 1, l =>
    match generateNextToken l with
    | Except.error e => Except.error e
    | Except.ok (t, l1) =>
      if t.type = TokenType.TOKEN_EOF then Except.ok [t]
      else
        match lexUntilEOF fuel l1 with
        | Except.error e => Except.error e
        | Except.ok ts => Except.ok (t :: ts)

/-- What the specification says of a token: a `NUMBER` with its value, or just
a kind. -/
inductive RefToken where
  | number (n : Int)
  | kind (k : TokenType)
deriving DecidableEq, Repr

/-- The specification's view of a token of the code. -/
def Token.view (t : Token) : RefToken :=
  if t.type = TokenType.TOKEN_NUMBER then RefToken.number t.number else RefToken.kind t.type

/-- The kind the specification maps a single byte to. -/
def kindOfByte (c : Nat) : TokenType :=
  if c = 40 then TokenType.TOKEN_OPEN_BRACKET
  else if c = 41 then TokenType.TOKEN_CLOSED_BRACKET
  else if c = 43 then TokenType.TOKEN_PLUS
  else if c = 45 then TokenType.TOKEN_MINUS
  else if c = 42 then TokenType.TOKEN_STAR
  else if c = 47 then TokenType.TOKEN_SLASH
  else TokenType.TOKEN_EOF

/-- The reference tokenisation of the bytes before the NUL, following the
specification: spaces are skipped, a maximal run of digits gives one `NUMBER`
with its decimal value, any other byte gives the token of its kind, and `EOF`
ends the list.  The first argument bounds the recursion; the length of the
input plus one is enough. -/
def referenceTokensAux : Nat → List Nat → List RefToken
  | 0, _ => []
  | _ + 1, [] => [RefToken.kind TokenType.TOKEN_EOF]
  | fuel + 1, c :: cs =>
    if c = 32 then referenceTokensAux fuel cs
    else if charIsDigit c then
      RefToken.number (Int.ofNat (decimalValue (c :: cs.takeWhile charIsDigit))) ::
        referenceTokensAux fuel (cs.dropWhile charIsDigit)
    else RefToken.kind (kindOfByte c) :: referenceTokensAux fuel cs

/-- The reference tokenisation of an input. -/
def referenceTokens (input : List Nat) : List RefToken :=
  referenceTokensAux (input.length + 1) input

/-- The bytes the lexer claim is about: space, digit, or one of `( ) + - * /`. -/
def InAlphabet (c : Nat) : Prop :=
  c = 32 ∨ charIsDigit c = true ∨ c = 40 ∨ c = 41 ∨ c = 43 ∨ c = 45 ∨ c = 42 ∨ c = 47

/-- Every run of digits in the input has at most `maxDigits` digits and a value
that fits `int`.  A run inside a longer run has no more digits and no larger a
value, so this asks of all runs what it asks of the maximal ones. -/
def DigitRunsWithin (maxDigits : Nat) (input : List Nat) : Prop :=
  ∀ pre ds post, input = pre ++ ds ++ post → (∀ c ∈ ds, charIsDigit c = true) →
    ds.length ≤ maxDigits ∧ decimalValue ds ≤ INT_MAX

/-! ## Vocabulary of the statements about cursor, runs, lexemes and calls -/

/-- The input held by `text` has `L` bytes before its terminating NUL. -/
def FirstNul (text : List Nat) (L : Nat) : Prop :=
  charAt text L = 0 ∧ ∀ i, i < L → charAt text i ≠ 0

/-- The index of the last byte one call of `generateNextToken` reads: the byte
at which its second loop stops, which is also the byte its `switch` looks
at. -/
def lastIndexRead (lexer : Lexer) : Nat :=
  (readDigits lexer.str.text lexer.str.text.length
    (skipSpaces lexer.str.text lexer.str.text.length lexer.pos) []).1

/-- The calls of `generateNextToken` from a lexer state on, up to and including
the one that returns `EOF` (or up to a fault): for each call the token and the
cursor after it. -/
def lexTrace : Nat → Lexer → List (Token × Nat)
  | 0, _ => []
  | fuel + 1, l =>
    match generateNextToken l with
    | Except.error _ => []
    | Except.ok (t, l1) =>
      if t.type = TokenType.TOKEN_EOF then [(t, l1.pos)]
      else (t, l1.pos) :: lexTrace fuel l1

/-- An atom of the token stream: a `NUMBER` token and the `NUMBER` tokens that
follow it directly (`NUMBER+` of the grammar), by their payloads. -/
abbrev Atom := Int × List Int

/-- The payload of the last `NUMBER` token of an atom. -/
def atomValue (a : Atom) : Int :=
  a.2.getLastD a.1

/-- The tokens of the `NUMBER` tokens that follow the first of an atom. -/
def moreTokens (more : List Int) : List Token :=
  more.map numberToken

/-- Tokens of `(('*' | '/') NUMBER+)*`. -/
def factorRunTokens : List (TokenType × Atom) → List Token
  | [] => []
  | (op, a) :: fs =>
    operatorToken op :: numberToken a.1 :: (moreTokens a.2 ++ factorRunTokens fs)

/-- The factor list in which every atom is replaced by its last number. -/
def factorLast (fs : List (TokenType × Atom)) : List (TokenType × Int) :=
  fs.map (fun p => (p.1, atomValue p.2))

/-- Tokens of `(('+' | '-') NUMBER+ (('*' | '/') NUMBER+)*)*`. -/
def expressionRunTokens : List (TokenType × Atom × List (TokenType × Atom)) → List Token
  | [] => []
  | (op, a, fs) :: es =>
    operatorToken op :: numberToken a.1 ::
      (moreTokens a.2 ++ (factorRunTokens fs ++ expressionRunTokens es))

/-- The term list in which every atom is replaced by its last number. -/
def expressionLast (es : List (TokenType × Atom × List (TokenType × Atom))) :
    List (TokenType × Int × List (TokenType × Int)) :=
  es.map (fun e => (e.1, atomValue e.2.1, factorLast e.2.2))

/-- Nodes the parser allocates for `(('+' | '-') factor)*` over atoms. -/
def expressionRunNodes : List (TokenType × Atom × List (TokenType × Atom)) → Nat
  | [] => 0
  | (_, _, fs) :: es => 2 + 2 * fs.length + expressionRunNodes es

/-- A lexeme of the input: a decimal literal, by its digits, or a single byte
that `generateNextToken` hands to its `switch`. -/
inductive Lexeme where
  | literal (ds : List Nat)
  | symbol (c : Nat)

/-- The bytes of a lexeme. -/
def Lexeme.bytes : Lexeme → List Nat
  | Lexeme.literal ds => ds
  | Lexeme.symbol c => [c]

/-- The token of a lexeme. -/
def Lexeme.token : Lexeme → Token
  | Lexeme.literal ds => numberToken (Int.ofNat (decimalValue ds))
  | Lexeme.symbol c => switchToken c

/-- A literal is one the lexer accepts; a single byte is neither a space nor a
digit. -/
def Lexeme.Valid : Lexeme → Prop
  | Lexeme.literal ds => IsLiteral ds
  | Lexeme.symbol c => c ≠ 32 ∧ charIsDigit c = false

/-- The bytes of a list of lexemes, each written after the given number of
spaces. -/
def sourceBytes : List (Nat × Lexeme) → List Nat
  | [] => []
  | (k, x) :: xs => List.replicate k 32 ++ (x.bytes ++ sourceBytes xs)

/-- The tokens of a list of lexemes. -/
def sourceTokens (xs : List (Nat × Lexeme)) : List Token :=
  xs.map (fun x => x.2.token)

/-- The list is not empty and does not start with a digit: its first lexeme
comes after a space or is a single byte. -/
def StartsOff : List (Nat × Lexeme) → Prop
  | [] => False
  | (k, Lexeme.literal _) :: _ => 0 < k
  | (_, Lexeme.symbol _) :: _ => True

/-- Every literal of the list is followed by a lexeme, and not directly by
another literal. -/
def Separated : List (Nat × Lexeme) → Prop
  | [] => True
  | (_, Lexeme.literal _) :: xs => StartsOff xs ∧ Separated xs
  | (_, Lexeme.symbol _) :: xs => Separated xs

/-- The lexemes of a run of literals: the first written after `k` spaces, every
further one after `g + 1` spaces, for its own `g`. -/
def runLexemes (k : Nat) (d : List Nat) (more : List (Nat × List Nat)) :
    List (Nat × Lexeme) :=
  (k, Lexeme.literal d) :: more.map (fun m => (m.1 + 1, Lexeme.literal m.2))

/-- The payloads of the number tokens of a run of literals. -/
def runAtom (d : List Nat) (more : List (Nat × List Nat)) : Atom :=
  (Int.ofNat (decimalValue d), more.map (fun m => Int.ofNat (decimalValue m.2)))

/-- The byte of an operator or parenthesis; the NUL for `EOF`. -/
def operatorByte : TokenType → Nat
  | TokenType.TOKEN_PLUS => 43
  | TokenType.TOKEN_MINUS => 45
  | TokenType.TOKEN_STAR => 42
  | TokenType.TOKEN_SLASH => 47
  | TokenType.TOKEN_OPEN_BRACKET => 40
  | TokenType.TOKEN_CLOSED_BRACKET => 41
  | TokenType.TOKEN_EOF => 0
  | TokenType.TOKEN_NUMBER => 1

/-- A byte that `generateNextToken` has no branch for: not a space, not a digit,
not one of `( ) + - * /` and not the NUL. -/
def UnknownByte (c : Nat) : Prop :=
  c ≠ 32 ∧ charIsDigit c = false ∧ c ≠ 40 ∧ c ≠ 41 ∧ c ≠ 43 ∧ c ≠ 45 ∧ c ≠ 47 ∧ c ≠ 42 ∧ c ≠ 0

/-- A tree as the grammar builds it from a well-formed input: number nodes and
operation nodes whose `op` is one of `+ - * /`. -/
def WellFormed {F : Type} : ASTNode F → Prop
  | ASTNode.number _ => True
  | ASTNode.operation left right op =>
    (op = TokenType.TOKEN_PLUS ∨ op = TokenType.TOKEN_MINUS ∨ op = TokenType.TOKEN_STAR ∨
      op = TokenType.TOKEN_SLASH) ∧ WellFormed left ∧ WellFormed right
  | ASTNode.null => False
  | ASTNode.unknown _ => False

/-- The values of an IEEE-754 `double` by kind: a zero with its sign, a finite
value other than zero, an infinity with its sign, or a NaN. -/
inductive Double where
  | zero (negative : Bool)
  | finite (q : ℚ)
  | inf (negative : Bool)
  | nan

/-- The value is a zero or a finite number. -/
def Double.isFinite : Double → Bool
  | Double.zero _ => true
  | Double.finite _ => true
  | Double.inf _ => false
  | Double.nan => false

/-- The `double` of a rational number; zero gets the sign given. -/
def Double.ofRat (negative : Bool) (q : ℚ) : Double :=
  if q = 0 then Double.zero negative else Double.finite q

/-- Unary minus of IEEE-754. -/
def Double.neg : Double → Double
  | Double.zero s => Double.zero (!s)
  | Double.finite q => Double.finite (-q)
  | Double.inf s => Double.inf (!s)
  | Double.nan => Double.nan

/-- Addition of IEEE-754 by kind of operand, rounding to nearest: infinities of
opposite sign give NaN, a sum that cancels gives `+0`, two zeros give `-0`
only when both are `-0`.  The sum of two finite values is taken exactly. -/
def Double.add : Double → Double → Double
  | Double.nan, _ => Double.nan
  | _, Double.nan => Double.nan
  | Double.inf a, Double.inf b => if a = b then Double.inf a else Double.nan
  | Double.inf a, _ => Double.inf a
  | _, Double.inf b => Double.inf b
  | Double.zero a, Double.zero b => Double.zero (a && b)
  | Double.zero _, Double.finite q => Double.finite q
  | Double.finite p, Double.zero _ => Double.finite p
  | Double.finite p, Double.finite q => Double.ofRat false (p + q)

/-- Subtraction of IEEE-754: `x - y` is `x + (-y)`. -/
def Double.sub (x y : Double) : Double :=
  Double.add x (Double.neg y)

/-- Multiplication of IEEE-754 by kind of operand: the sign is the exclusive or
of the signs, zero times infinity is NaN.  The product of two finite values is
taken exactly. -/
def Double.mul : Double → Double → Double
  | Double.nan, _ => Double.nan
  | _, Double.nan => Double.nan
  | Double.inf _, Double.zero _ => Double.nan
  | Double.zero _, Double.inf _ => Double.nan
  | Double.inf a, Double.inf b => Double.inf (xor a b)
  | Double.inf a, Double.finite q => Double.inf (xor a (decide (q < 0)))
  | Double.finite p, Double.inf b => Double.inf (xor (decide (p < 0)) b)
  | Double.zero a, Double.zero b => Double.zero (xor a b)
  | Double.zero a, Double.finite q => Double.zero (xor a (decide (q < 0)))
  | Double.finite p, Double.zero b => Double.zero (xor (decide (p < 0)) b)
  | Double.finite p, Double.finite q => Double.finite (p * q)

/-- Division of IEEE-754 by kind of operand: a finite value other than zero
divided by a zero is the infinity whose sign is the exclusive or of the signs,
zero by zero and infinity by infinity are NaN.  The quotient of two finite
values is taken exactly. -/
def Double.div : Double → Double → Double
  | Double.nan, _ => Double.nan
  | _, Double.nan => Double.nan
  | Double.inf _, Double.inf _ => Double.nan
  | Double.zero _, Double.zero _ => Double.nan
  | Double.inf a, Double.zero b => Double.inf (xor a b)
  | Double.inf a, Double.finite q => Double.inf (xor a (decide (q < 0)))
  | Double.zero a, Double.inf b => Double.zero (xor a b)
  | Double.finite p, Double.inf b => Double.zero (xor (decide (p < 0)) b)
  | Double.zero a, Double.finite q => Double.zero (xor a (decide (q < 0)))
  | Double.finite p, Double.zero b => Double.inf (xor (decide (p < 0)) b)
  | Double.finite p, Double.finite q => Double.finite (p / q)

/-- The arithmetic with the special values of IEEE-754: the `int` to `float`
conversion rounds as binary32 does, a `float` becomes the `double` of the same
value (an `int` 0 gives `+0`), and the `double` operations follow IEEE-754 on
zeros, infinities and NaN and are exact on finite values. -/
def ieeeArith : Arith ℚ Double :=
  Arith.mk floatOfInt (Double.ofRat false) (Double.zero false) Double.add Double.sub
    Double.mul Double.div

/-- The tokens of the sequence `n0 op1 n1 ... opk nk EOF`, given as `n0` and the
list of the pairs `(op_i, n_i)`. -/
def sequenceTokens (n0 : Int) (seq : List (TokenType × Int)) : List Token :=
  numberToken n0 :: (seq.flatMap (fun p => [operatorToken p.1, numberToken p.2])
    ++ [switchToken 0])

/-- The derivation of `op1 n1 ... opk nk` by the grammar
`expression := factor (('+' | '-') factor)*`, `factor := atom (('*' | '/') atom)*`:
the `*` and `/` operands that continue the first factor, and then the further
factors, each with the `+` or `-` before it. -/
def derivation : List (TokenType × Int) →
    List (TokenType × Int) × List (TokenType × Int × List (TokenType × Int))
  | [] => ([], [])
  | (op, n) :: rest =>
    if op = TokenType.TOKEN_STAR ∨ op = TokenType.TOKEN_SLASH then
      ((op, n) :: (derivation rest).1, (derivation rest).2)
    else ([], (op, n, (derivation rest).1) :: (derivation rest).2)

/-- The tree the grammar defines for `n0 op1 n1 ... opk nk`, with left-to-right
association at both levels. -/
def grammarTree {F D : Type} (A : Arith F D) (n0 : Int) (seq : List (TokenType × Int)) :
    ASTNode F :=
  expressionTree A (factorTree A (ASTNode.number (A.intToFloat n0)) (derivation seq).1)
    (derivation seq).2

/-- State of the reference evaluation, which reads the sequence once from left
to right: the value of the factors closed so far with the `+` or `-` that
follows them, and the value of the factor being read. -/
structure RefState (D : Type) where
  sum : Option (D × TokenType)
  product : D

/-- The value of what the reference evaluation has read. -/
def RefState.close {F D : Type} (A : Arith F D) (st : RefState D) : D :=
  match st.sum with
  | none => st.product
  | some (a, op) => if op = TokenType.TOKEN_PLUS then A.add a st.product else A.sub a st.product

/-- One step of the reference evaluation: `*` and `/` apply to the factor being
read, at once; `+` and `-` close it and wait for the next factor. -/
def referenceStep {F D : Type} (A : Arith F D) (leaf : Int → D) (st : RefState D)
    (x : TokenType × Int) : RefState D :=
  if x.1 = TokenType.TOKEN_STAR then RefState.mk st.sum (A.mul st.product (leaf x.2))
  else if x.1 = TokenType.TOKEN_SLASH then RefState.mk st.sum (A.div st.product (leaf x.2))
  else RefState.mk (some (st.close A, x.1)) (leaf x.2)

/-- The reference evaluation of `n0 op1 n1 ... opk nk`: `*` and `/` bind tighter
than `+` and `-`, both levels associate to the left; `leaf` is the `double` of
a number token. -/
def referenceValue {F D : Type} (A : Arith F D) (leaf : Int → D) (n0 : Int)
    (seq : List (TokenType × Int)) : D :=
  (seq.foldl (referenceStep A leaf) (RefState.mk none (leaf n0))).close A

/-- The value of a factor of the derivation, from the value of its first atom. -/
def factorValue {F D : Type} (A : Arith F D) (leaf : Int → D) (v : D) :
    List (TokenType × Int) → D
  | [] => v
  | (op, n) :: fs =>
    factorValue A leaf
      (if op = TokenType.TOKEN_STAR then A.mul v (leaf n) else A.div v (leaf n)) fs

/-- The value of the further factors of the derivation, from the value so far. -/
def expressionValue {F D : Type} (A : Arith F D) (leaf : Int → D) (v : D) :
    List (TokenType × Int × List (TokenType × Int)) → D
  | [] => v
  | (op, n, fs) :: es =>
    expressionValue A leaf
      (if op = TokenType.TOKEN_PLUS then A.add v (factorValue A leaf (leaf n) fs)
        else A.sub v (factorValue A leaf (leaf n) fs)) es

/-- Masking a 64-bit value with the complement of `2 ^ j - 1` clears its low
`j` bits. -/
theorem and_not_low_bits (x j : Nat) (hx : x < 2 ^ 64) (hj : j ≤ 64) :
    x &&& (2 ^ 64 - 1 - (2 ^ j - 1)) = x / 2 ^ j * 2 ^ j := by
  apply Nat.eq_of_testBit_eq
  intro i
  have h1 : 2 ^ 64 - 1 - (2 ^ j - 1) = 2 ^ j * (2 ^ (64 - j) - 1) := by
    have h2 : 2 ^ 64 = 2 ^ j * 2 ^ (64 - j) := by
      rw [← pow_add]; congr 1; omega
    have hp : 0 < 2 ^ j := Nat.pos_pow_of_pos _ (by norm_num)
    rw [Nat.mul_sub]; omega
  rw [h1, Nat.testBit_and, Nat.mul_comm (x / 2 ^ j), Nat.testBit_mul_pow_two,
    Nat.testBit_mul_pow_two, Nat.testBit_two_pow_sub_one, ← Nat.shiftRight_eq_div_pow,
    Nat.testBit_shiftRight]
  by_cases hij : j ≤ i
  · have e : j + (i - j) = i := by omega
    by_cases h64 : i < 64
    · have h3 : i - j < 64 - j := by omega
      simp [h3, hij, e]
    · have hb : x.testBit i = false :=
        Nat.testBit_lt_two_pow
          (lt_of_lt_of_le hx (Nat.pow_le_pow_right (by norm_num) (by omega)))
      simp [hb, hij, e]
  · simp [hij]

/-- A power of two that fits `uint32_t` is between 1 and `2 ^ 31`. -/
theorem pow_two_bounds (k j : Nat) (hk : k = 2 ^ j) (h32 : k < 2 ^ 32) :
    j ≤ 31 ∧ 1 ≤ k ∧ k ≤ 2 ^ 31 := by
  subst hk
  have hj : j < 32 := (Nat.pow_lt_pow_iff_right (by norm_num)).1 h32
  refine ⟨by omega, Nat.one_le_two_pow, Nat.pow_le_pow_right (by norm_num) (by omega)⟩

/-- For a power-of-two alignment the `uint32_t` subtraction `align - 1` does
not wrap. -/
theorem alignMinusOne_pow_two (k j : Nat) (hk : k = 2 ^ j) (h32 : k < 2 ^ 32) :
    alignMinusOne k = k - 1 := by
  obtain ⟨_, h1, h2⟩ := pow_two_bounds k j hk h32
  unfold alignMinusOne
  norm_num at h2 ⊢
  omega

/-- The alignment step in modular form: the padding is below the alignment,
the padded address is a multiple of it, and `alignedAddr` is the padded address
reduced to 64 bits. -/
theorem align_core (arena : Arena) (k j : Nat) (hk : k = 2 ^ j) (h32 : k < 2 ^ 32) :
    padding arena k < k ∧ k ∣ currentAddr arena + padding arena k ∧
      alignedAddr arena k = (currentAddr arena + padding arena k) % 2 ^ 64 := by
  obtain ⟨hj, h1, h2⟩ := pow_two_bounds k j hk h32
  have hc : currentAddr arena < 2 ^ 64 := Nat.mod_lt _ (by norm_num)
  have hm := alignMinusOne_pow_two k j hk h32
  have hx : (currentAddr arena + (k - 1)) % 2 ^ 64 < 2 ^ 64 := Nat.mod_lt _ (by norm_num)
  have ha : alignedAddr arena k
      = (currentAddr arena + (k - 1)) % 2 ^ 64 / k * k := by
    unfold alignedAddr
    rw [hm, hk]
    exact and_not_low_bits _ j (by rw [← hk]; exact hx) (by omega)
  unfold padding
  rw [ha]
  generalize currentAddr arena = c at hc hx ha ⊢
  by_cases hw : c + (k - 1) < 2 ^ 64
  · rw [Nat.mod_eq_of_lt hw]
    have hdm := Nat.div_add_mod (c + (k - 1)) k
    have hr : (c + (k - 1)) % k < k := Nat.mod_lt _ (by omega)
    have hq : (c + (k - 1)) / k * k = k * ((c + (k - 1)) / k) := Nat.mul_comm _ _
    have hp : ((c + (k - 1)) / k * k + 2 ^ 64 - c) % 2 ^ 64
        = (c + (k - 1)) / k * k - c := by
      norm_num at hw h2 ⊢
      omega
    rw [hp]
    refine ⟨by omega, ?_, ?_⟩
    · refine ⟨(c + (k - 1)) / k, ?_⟩
      omega
    · norm_num at hw h2 ⊢
      omega
  · have hlt : (c + (k - 1)) % 2 ^ 64 < k := by
      norm_num at hw hc h2 ⊢
      omega
    rw [Nat.div_eq_of_lt hlt]
    have hp : (0 * k + 2 ^ 64 - c) % 2 ^ 64 = 2 ^ 64 - c := by
      norm_num at hw hc h2 ⊢
      omega
    rw [hp]
    refine ⟨by norm_num at hw hc h2 ⊢; omega, ?_, ?_⟩
    · have e : c + (2 ^ 64 - c) = 2 ^ 64 := by omega
      rw [e, hk]
      exact Nat.pow_dvd_pow 2 (by omega)
    · have e : c + (2 ^ 64 - c) = 2 ^ 64 := by omega
      rw [e]; simp

/-- A call that does not return `NULL` took the success branch: it returns
`alignedAddr` and advances the index. -/
theorem alloc_of_ne_zero (arena : Arena) (n k : Nat)
    (h : (arenaAllocAligned arena n k).1 ≠ 0) :
    arenaAllocAligned arena n k =
      (alignedAddr arena k,
        Arena.mk arena.memory ((arena.index + (padding arena k + n) % 2 ^ 64) % 2 ^ 64)
          arena.previousIndex arena.size) ∧
    ((arena.index + padding arena k) % 2 ^ 64 + n) % 2 ^ 64 ≤ arena.size := by
  unfold arenaAllocAligned at h ⊢
  split at h
  · exact absurd rfl h
  · rename_i hg
    rw [if_neg hg]
    exact ⟨rfl, Nat.le_of_not_gt hg⟩

/-- One successful step without wrap on a buffer that lies in the address
space: where the block is and what the arena is afterwards. -/
theorem alloc_step (arena : Arena) (n k j : Nat) (hk : k = 2 ^ j) (h32 : k < 2 ^ 32)
    (hmem : arena.memory + arena.size < 2 ^ 64) (hidx : arena.index ≤ arena.size)
    (hnw : arena.index + padding arena k + n < 2 ^ 64)
    (h : (arenaAllocAligned arena n k).1 ≠ 0) :
    (arenaAllocAligned arena n k).1 = arena.memory + arena.index + padding arena k ∧
    k ∣ (arenaAllocAligned arena n k).1 ∧
    (arenaAllocAligned arena n k).2.memory = arena.memory ∧
    (arenaAllocAligned arena n k).2.size = arena.size ∧
    (arenaAllocAligned arena n k).2.index = arena.index + padding arena k + n ∧
    arena.index + padding arena k + n ≤ arena.size := by
  obtain ⟨he, hg⟩ := alloc_of_ne_zero arena n k h
  obtain ⟨hp, hd, ha⟩ := align_core arena k j hk h32
  have hc : currentAddr arena = arena.memory + arena.index := by
    unfold currentAddr
    exact Nat.mod_eq_of_lt (by omega)
  have hg2 : arena.index + padding arena k + n ≤ arena.size := by
    norm_num at hg hnw ⊢
    omega
  have ha2 : alignedAddr arena k = arena.memory + arena.index + padding arena k := by
    rw [ha, hc]
    exact Nat.mod_eq_of_lt (by omega)
  rw [he]
  refine ⟨ha2, ?_, rfl, rfl, ?_, hg2⟩
  · show k ∣ alignedAddr arena k
    rw [ha2, ← hc]; exact hd
  · show (arena.index + (padding arena k + n) % 2 ^ 64) % 2 ^ 64 = _
    norm_num at hnw ⊢
    omega

/-- Blocks of a run: every block starts at or after the address of the index
the run started from, ends within the buffer, is aligned, and the blocks are
pairwise disjoint. -/
theorem allocAll_blocks (reqs : List (Nat × Nat)) :
    ∀ arena : Arena, arena.memory + arena.size < 2 ^ 64 → arena.index ≤ arena.size →
      (∀ r ∈ reqs, ∃ j, r.2 = 2 ^ j ∧ r.2 < 2 ^ 32) → NoWrap arena reqs →
      (∀ b ∈ (allocAll arena reqs).1, b.1 ≠ 0) →
      List.Pairwise Disjoint (allocAll arena reqs).1 ∧
      ∀ b ∈ (allocAll arena reqs).1,
        arena.memory + arena.index ≤ b.1 ∧ b.1 + b.2.1 ≤ arena.memory + arena.size ∧
          b.2.2 ∣ b.1 := by
  induction reqs with
  | nil =>
    intro arena _ _ _ _ _
    simp [allocAll]
  | cons r rest ih =>
    intro arena hmem hidx hpow hnw hok
    obtain ⟨n, k⟩ := r
    obtain ⟨j, hk, h32⟩ := hpow (n, k) (List.mem_cons_self _ _)
    have hhead : (arenaAllocAligned arena n k).1 ≠ 0 :=
      hok (_, n, k) (by simp [allocAll])
    obtain ⟨hp, hd, hm, hs, hi, hle⟩ :=
      alloc_step arena n k j hk h32 hmem hidx hnw.1 hhead
    have hrec := ih (arenaAllocAligned arena n k).2 (by rw [hm, hs]; exact hmem)
      (by rw [hi, hs]; exact hle)
      (fun r hr => hpow r (List.mem_cons_of_mem _ hr)) hnw.2
      (fun b hb => hok b (by simp only [allocAll, List.mem_cons]; exact Or.inr hb))
    rw [hm, hs, hi] at hrec
    obtain ⟨hpair, hall⟩ := hrec
    simp only [allocAll, List.pairwise_cons, List.mem_cons]
    refine ⟨⟨?_, hpair⟩, ?_⟩
    · intro b hb x hx
      have hb2 := (hall b hb).1
      simp only at hx
      omega
    · intro b hb
      rcases hb with rfl | hb
      · exact ⟨by simp only; omega, by simp only; omega, hd⟩
      · obtain ⟨h1, h2, h3⟩ := hall b hb
        exact ⟨by omega, h2, h3⟩

/-- When `currentAddr + align - 1` does not wrap, `alignedAddr` is the least
multiple of the alignment at or above `currentAddr`, and the padding is their
difference. -/
theorem aligned_least (arena : Arena) (k j : Nat) (hk : k = 2 ^ j) (h32 : k < 2 ^ 32)
    (hrep : currentAddr arena + k - 1 < 2 ^ 64) :
    k ∣ alignedAddr arena k ∧ currentAddr arena ≤ alignedAddr arena k ∧
      (∀ m, k ∣ m → currentAddr arena ≤ m → alignedAddr arena k ≤ m) ∧
      padding arena k = alignedAddr arena k - currentAddr arena ∧ padding arena k < k := by
  obtain ⟨hp, hd, ha⟩ := align_core arena k j hk h32
  have ha2 : alignedAddr arena k = currentAddr arena + padding arena k := by
    rw [ha]; exact Nat.mod_eq_of_lt (by omega)
  refine ⟨by rw [ha2]; exact hd, by omega, ?_, by omega, hp⟩
  intro m hm hcm
  by_contra hlt
  have hsub : k ∣ alignedAddr arena k - m := Nat.dvd_sub' (by rw [ha2]; exact hd) hm
  have hle := Nat.le_of_dvd (by omega) hsub
  omega

/-- Without wrap in the guard, `arenaAllocAligned` refuses exactly when the
remaining bytes are fewer than `padding + size`, and otherwise advances the
index by `padding + size`. -/
theorem alloc_no_wrap (arena : Arena) (n k : Nat) (hidx : arena.index ≤ arena.size)
    (hnw : arena.index + padding arena k + n < 2 ^ 64) :
    arenaAllocAligned arena n k =
      if arena.size - arena.index < padding arena k + n then (0, arena)
      else (alignedAddr arena k,
        Arena.mk arena.memory (arena.index + padding arena k + n)
          arena.previousIndex arena.size) := by
  unfold arenaAllocAligned
  have e1 : ((arena.index + padding arena k) % 2 ^ 64 + n) % 2 ^ 64
      = arena.index + padding arena k + n := by
    norm_num at hnw ⊢
    omega
  have e2 : (arena.index + (padding arena k + n) % 2 ^ 64) % 2 ^ 64
      = arena.index + padding arena k + n := by
    norm_num at hnw ⊢
    omega
  rw [e1, e2]
  by_cases hg : arena.index + padding arena k + n > arena.size
  · rw [if_pos hg, if_pos (by omega)]
  · rw [if_neg hg, if_neg (by omega)]

/-- The byte the loop of `memset` leaves at an address: the fill value inside the range,
the old byte outside. -/
theorem memsetLoop_apply (mem : Memory) (ptr c n a : Nat) :
    memsetLoop mem ptr c n a = if ptr ≤ a ∧ a < ptr + n then c else mem a := by
  induction n with
  | zero =>
    show mem a = _
    rw [if_neg (by omega)]
  | succ n ih =>
    simp only [memsetLoop]
    by_cases h : a = ptr + n
    · subst h; simp
    · rw [if_neg h, ih]
      by_cases h2 : ptr ≤ a ∧ a < ptr + n
      · rw [if_pos h2, if_pos ⟨h2.1, by omega⟩]
      · rw [if_neg h2, if_neg (by omega)]

/-! ## Lexer: one call on a described input -/

theorem charAt_append_right (pre suf : List Nat) (i : Nat) :
    charAt (pre ++ suf) (pre.length + i) = charAt suf i := by
  simp [charAt, List.getD_eq_getElem?_getD, List.getElem?_append_right]

/-- A read that gives a byte other than NUL is inside the list. -/
theorem charAt_lt_of_ne_zero (text : List Nat) (i : Nat) (h : charAt text i ≠ 0) :
    i < text.length := by
  by_contra hlt
  apply h
  simp [charAt, List.getD_eq_getElem?_getD, List.getElem?_eq_none (Nat.le_of_not_lt hlt)]

/-- A text holds itself from position 0. -/
theorem segAt_whole (text : List Nat) : SegAt text 0 text := by
  intro i _
  simp [charAt]

/-- A segment that is a concatenation splits into its two parts. -/
theorem segAt_append (text : List Nat) (pos : Nat) (a b : List Nat)
    (h : SegAt text pos (a ++ b)) : SegAt text pos a ∧ SegAt text (pos + a.length) b := by
  constructor
  · intro i hi
    have := h i (by simp; omega)
    rw [this]
    simp [List.getD_eq_getElem?_getD, List.getElem?_append_left hi]
  · intro i hi
    have := h (a.length + i) (by simp; omega)
    rw [Nat.add_assoc, this]
    simp [List.getD_eq_getElem?_getD, List.getElem?_append_right]

/-- The first byte of a segment and the segment after it. -/
theorem segAt_cons (text : List Nat) (pos c : Nat) (seg : List Nat)
    (h : SegAt text pos (c :: seg)) : charAt text pos = c ∧ SegAt text (pos + 1) seg := by
  constructor
  · simpa using h 0 (by simp)
  · intro i hi
    have := h (i + 1) (by simp; omega)
    rw [Nat.add_assoc, Nat.add_comm 1 i, this]
    simp

/-- A read at or past the end of the list gives NUL. -/
theorem charAt_of_le (text : List Nat) (i : Nat) (h : text.length ≤ i) : charAt text i = 0 := by
  simp [charAt, List.getD_eq_getElem?_getD, List.getElem?_eq_none h]

/-- The iteration bound of `skipSpaces` is never what ends the loop: once the
bound covers the rest of the text, the loop ends at a byte that is not a
space, as the `while` of the source does. -/
theorem skipSpaces_stops (text : List Nat) : ∀ (fuel pos : Nat),
    text.length ≤ pos + fuel → charAt text (skipSpaces text fuel pos) ≠ 32 := by
  intro fuel
  induction fuel with
  | zero =>
    intro pos h
    simp only [skipSpaces]
    rw [charAt_of_le text pos (by omega)]
    decide
  | succ fuel ih =>
    intro pos h
    simp only [skipSpaces]
    by_cases hc : charAt text pos = 32
    · rw [if_pos hc]
      exact ih (pos + 1) (by omega)
    · rw [if_neg hc]
      exact hc

/-- The iteration bound of `readDigits` is never what ends the loop: once the
bound covers the rest of the text, the loop ends at a byte that is not a
digit. -/
theorem readDigits_stops (text : List Nat) : ∀ (fuel pos : Nat) (value : List Nat),
    text.length ≤ pos + fuel →
    charIsDigit (charAt text (readDigits text fuel pos value).1) = false := by
  intro fuel
  induction fuel with
  | zero =>
    intro pos value h
    simp only [readDigits]
    rw [charAt_of_le text pos (by omega)]
    decide
  | succ fuel ih =>
    intro pos value h
    simp only [readDigits]
    by_cases hc : charIsDigit (charAt text pos) = true
    · rw [if_pos hc]
      exact ih (pos + 1) _ (by omega)
    · rw [if_neg hc]
      simpa using hc

/-- The first loop of the lexer over a run of spaces that ends at another byte.
-/
theorem skipSpaces_run (text : List Nat) (sp : List Nat) :
    ∀ fuel pos, SegAt text pos sp → (∀ c ∈ sp, c = 32) →
      charAt text (pos + sp.length) ≠ 32 → sp.length ≤ fuel →
      skipSpaces text fuel pos = pos + sp.length := by
  induction sp with
  | nil =>
    intro fuel pos _ _ hend _
    cases fuel with
    | zero => rfl
    | succ f => simp only [skipSpaces]; rw [if_neg (by simpa using hend)]; rfl
  | cons c sp ih =>
    intro fuel pos hseg hsp hend hfuel
    obtain ⟨hc, htl⟩ := segAt_cons text pos c sp hseg
    cases fuel with
    | zero => simp at hfuel
    | succ f =>
      simp only [skipSpaces]
      rw [if_pos (by rw [hc]; exact hsp c (List.mem_cons_self _ _))]
      rw [ih f (pos + 1) htl (fun x hx => hsp x (List.mem_cons_of_mem _ hx))
        (by rw [Nat.add_assoc, Nat.add_comm 1]; exact hend) (by simpa using hfuel)]
      simp; omega

/-- The second loop of the lexer over a run of digits that ends at another byte.
-/
theorem readDigits_run (text : List Nat) (ds : List Nat) :
    ∀ fuel pos acc, SegAt text pos ds → (∀ c ∈ ds, charIsDigit c = true) →
      charIsDigit (charAt text (pos + ds.length)) = false → ds.length ≤ fuel →
      readDigits text fuel pos acc = (pos + ds.length, acc ++ ds) := by
  induction ds with
  | nil =>
    intro fuel pos acc _ _ hend _
    cases fuel with
    | zero => simp [readDigits]
    | succ f =>
      simp only [readDigits]
      rw [if_neg (by simpa using hend)]
      simp
  | cons c ds ih =>
    intro fuel pos acc hseg hds hend hfuel
    obtain ⟨hc, htl⟩ := segAt_cons text pos c ds hseg
    cases fuel with
    | zero => simp at hfuel
    | succ f =>
      simp only [readDigits]
      rw [if_pos (by rw [hc]; exact hds c (List.mem_cons_self _ _)), hc]
      rw [ih f (pos + 1) (acc ++ [c]) htl (fun x hx => hds x (List.mem_cons_of_mem _ hx))
        (by rw [Nat.add_assoc, Nat.add_comm 1]; exact hend) (by simpa using hfuel)]
      simp; omega

/-- A segment of bytes other than NUL lies inside the list. -/
theorem segAt_length_le (text : List Nat) (pos : Nat) (seg : List Nat)
    (h : SegAt text pos seg) (hnz : ∀ c ∈ seg, c ≠ 0) : seg = [] ∨ pos + seg.length ≤ text.length := by
  rcases List.eq_nil_or_concat seg with hnil | ⟨init, c, rfl⟩
  · exact Or.inl hnil
  · right
    have hi := h init.length (by simp)
    have hc : charAt text (pos + init.length) = c := by
      rw [hi]; simp [List.getD_eq_getElem?_getD]
    have := charAt_lt_of_ne_zero text (pos + init.length)
      (by rw [hc]; exact hnz c (by simp))
    simp; omega

/-- A digit is not the NUL byte. -/
theorem digit_ne_zero (c : Nat) (h : charIsDigit c = true) : c ≠ 0 := by
  intro h0
  subst h0
  simp [charIsDigit] at h

/-- A digit is not a space. -/
theorem digit_ne_space (c : Nat) (h : charIsDigit c = true) : c ≠ 32 := by
  intro h0
  subst h0
  simp [charIsDigit] at h

/-- The loop of `cStringToString` finds the NUL that follows a run of digits,
given enough iterations. -/
theorem cStringToStringLoop_digits (pre ds : List Nat) :
    ∀ m, (∀ c ∈ ds, charIsDigit c = true) → ds.length < m →
      cStringToStringLoop (pre ++ ds ++ [0]) m pre.length
        = some (string (pre ++ ds ++ [0]) (pre.length + ds.length)) := by
  induction ds generalizing pre with
  | nil =>
    intro m _ hm
    cases m with
    | zero => simp at hm
    | succ m =>
      simp only [cStringToStringLoop, List.append_nil]
      have : charAt (pre ++ [0]) pre.length = 0 := by
        have := charAt_append_right pre [0] 0
        simp [charAt] at this ⊢
      rw [if_pos this]; rfl
  | cons c ds ih =>
    intro m hds hm
    cases m with
    | zero => simp at hm
    | succ m =>
      simp only [cStringToStringLoop]
      have hc : charAt (pre ++ c :: ds ++ [0]) pre.length = c := by
        have := charAt_append_right pre (c :: ds ++ [0]) 0
        simpa [charAt] using this
      rw [if_neg (by rw [hc]; exact digit_ne_zero c (hds c (List.mem_cons_self _ _)))]
      have e : pre ++ c :: ds ++ [0] = (pre ++ [c]) ++ ds ++ [0] := by simp
      have := ih (pre ++ [c]) m (fun x hx => hds x (List.mem_cons_of_mem _ hx))
        (by simpa using hm)
      rw [e]
      have hl : (pre ++ [c]).length = pre.length + 1 := by simp
      rw [hl] at this
      rw [this]
      congr 2
      simp only [List.length_cons]
      omega

/-- On the 64-byte buffer `stringCArr` finds the NUL after a run of at most 62
digits. -/
theorem stringCArr_digits (ds : List Nat) (hds : ∀ c ∈ ds, charIsDigit c = true)
    (hlen : ds.length ≤ 62) :
    stringCArr (ds ++ [0]) 64 = some (string (ds ++ [0]) ds.length) := by
  have := cStringToStringLoop_digits [] ds 63 hds (by omega)
  simpa [stringCArr, cStringToString] using this

/-- The digit loop of `atoi` on a run of digits followed by NUL is Horner
evaluation. -/
theorem atoiLoop_digits (ds : List Nat) :
    ∀ acc, (∀ c ∈ ds, charIsDigit c = true) →
      atoiLoop (ds ++ [0]) acc = ds.foldl (fun a c => a * 10 + (c - 48)) acc := by
  induction ds with
  | nil => intro acc _; simp [atoiLoop, charIsDigit]
  | cons c ds ih =>
    intro acc hds
    simp only [List.cons_append, atoiLoop, List.foldl_cons]
    rw [if_pos (hds c (List.mem_cons_self _ _))]
    exact ih _ (fun x hx => hds x (List.mem_cons_of_mem _ hx))

/-- The result of `atoi` on a run of digits whose value fits `int`. -/
theorem atoi_digits (ds : List Nat) (hds : ∀ c ∈ ds, charIsDigit c = true)
    (hval : decimalValue ds ≤ INT_MAX) :
    atoi (ds ++ [0]) = some (Int.ofNat (decimalValue ds)) := by
  unfold atoi
  rw [atoiLoop_digits ds 0 hds]
  exact if_pos hval

/-- One call of `generateNextToken` with spaces and then a run of digits under
the cursor: a `NUMBER` with the decimal value, and the cursor after the run. -/
theorem gen_number (text : List Nat) (len pos : Nat) (sp ds : List Nat)
    (hseg : SegAt text pos (sp ++ ds)) (hsp : ∀ c ∈ sp, c = 32)
    (hds : ∀ c ∈ ds, charIsDigit c = true) (hne : ds ≠ [])
    (hend : charIsDigit (charAt text (pos + sp.length + ds.length)) = false)
    (hlen : ds.length ≤ 62) (hval : decimalValue ds ≤ INT_MAX) :
    generateNextToken (Lexer.mk (String.mk text len) pos) =
      Except.ok (Token.mk TokenType.TOKEN_NUMBER (TokenValue.number (Int.ofNat (decimalValue ds))),
        Lexer.mk (String.mk text len) (pos + sp.length + ds.length)) := by
  obtain ⟨h1, h2⟩ := segAt_append text pos sp ds hseg
  have hb : pos + sp.length + ds.length ≤ text.length := by
    rcases segAt_length_le text (pos + sp.length) ds h2
      (fun c hc => digit_ne_zero c (hds c hc)) with h | h
    · exact absurd h hne
    · exact h
  have hd0 : charAt text (pos + sp.length) ≠ 32 := by
    cases ds with
    | nil => exact absurd rfl hne
    | cons d ds =>
      rw [(segAt_cons text _ d ds h2).1]
      exact digit_ne_space d (hds d (List.mem_cons_self _ _))
  have e1 := skipSpaces_run text sp text.length pos h1 hsp hd0 (by omega)
  have e2 := readDigits_run text ds text.length (pos + sp.length) [] h2 hds hend (by omega)
  have hpos : 0 < ds.length := List.length_pos.2 hne
  unfold generateNextToken
  simp only [e1, e2, List.nil_append]
  rw [if_pos hpos, if_neg (by omega), stringCArr_digits ds hds hlen]
  simp only [string]
  rw [atoi_digits ds hds hval]

/-- One call of `generateNextToken` with spaces and then a byte that is neither
space nor digit under the cursor: the token of the `switch`, and the cursor
after the byte. -/
theorem gen_single (text : List Nat) (len pos : Nat) (sp : List Nat)
    (hseg : SegAt text pos sp) (hsp : ∀ c ∈ sp, c = 32)
    (hns : charAt text (pos + sp.length) ≠ 32)
    (hnd : charIsDigit (charAt text (pos + sp.length)) = false) :
    generateNextToken (Lexer.mk (String.mk text len) pos) =
      Except.ok (switchToken (charAt text (pos + sp.length)),
        Lexer.mk (String.mk text len) (pos + sp.length + 1)) := by
  have hb : sp.length ≤ text.length := by
    rcases segAt_length_le text pos sp hseg
      (fun c hc => by rw [hsp c hc]; decide) with h | h
    · rw [h]; simp
    · omega
  have e1 := skipSpaces_run text sp text.length pos hseg hsp hns hb
  have e2 := readDigits_run text [] text.length (pos + sp.length) []
    (fun i hi => by simp at hi) (fun c hc => by simp at hc) (by simpa using hnd) (by simp)
  unfold generateNextToken
  simp only [e1, e2]
  simp

/-- With room for one more node, `arenaAllocStruct(arena, ASTNode)` succeeds and
leaves the room for the others. -/
theorem room_alloc (arena : Arena) (k : Nat) (h : Room arena (k + 1)) :
    (arenaAlloc arena sizeofASTNode).1 ≠ 0 ∧ Room (arenaAlloc arena sizeofASTNode).2 k := by
  obtain ⟨hbuf, hmem, hroom⟩ := h
  obtain ⟨hp, _, ha⟩ := align_core arena 16 4 (by decide) (by decide)
  have hroom2 : arena.index + 47 * (k + 1) ≤ arena.size := hroom
  have hc : currentAddr arena = arena.memory + arena.index := by
    unfold currentAddr
    exact Nat.mod_eq_of_lt (by omega)
  have ha2 : alignedAddr arena 16 = arena.memory + arena.index + padding arena 16 := by
    rw [ha, hc]
    exact Nat.mod_eq_of_lt (by omega)
  have hidx : arena.index ≤ arena.size := by omega
  have hnw : arena.index + padding arena 16 + 32 < 2 ^ 64 := by omega
  have he : arenaAlloc arena sizeofASTNode =
      (alignedAddr arena 16,
        Arena.mk arena.memory (arena.index + padding arena 16 + 32)
          arena.previousIndex arena.size) := by
    show arenaAllocAligned arena 32 16 = _
    rw [alloc_no_wrap arena 32 16 hidx hnw, if_neg (by omega)]
  rw [he]
  refine ⟨?_, hbuf, hmem, ?_⟩
  · show alignedAddr arena 16 ≠ 0
    omega
  · show arena.index + padding arena 16 + 32 + 47 * k ≤ arena.size
    omega

/-- Room for `k` nodes is room for fewer. -/
theorem room_mono (arena : Arena) (k j : Nat) (h : Room arena k) (hjk : j ≤ k) :
    Room arena j := by
  obtain ⟨hbuf, hmem, hroom⟩ := h
  refine ⟨hbuf, hmem, ?_⟩
  have : (sizeofASTNode + 15) * j ≤ (sizeofASTNode + 15) * k := Nat.mul_le_mul_left _ hjk
  omega

/-- Behaviour of `parseNumber` on a single `NUMBER` token followed by a token of another kind. -/
theorem parseNumber_spec {F D : Type} (A : Arith F D) (fresh : Nat → ASTNode F)
    (fuel : Nat) (s : Parser) (n : Int) (t : Token) (ts : List Token) (k : Nat)
    (hfeed : Feeds s (numberToken n :: t :: ts)) (ht : t.type ≠ TokenType.TOKEN_NUMBER)
    (hroom : Room s.arena (k + 1)) (hfuel : 2 ≤ fuel) :
    ∃ s1, parseNumber A fresh fuel s = Except.ok (ASTNode.number (A.intToFloat n), s1) ∧
      Feeds s1 (t :: ts) ∧ Room s1.arena k := by
  obtain ⟨htok, l1, hgen, hlex⟩ := hfeed
  obtain ⟨hp, hr⟩ := room_alloc s.arena k hroom
  obtain ⟨f, rfl⟩ : ∃ f, fuel = f + 2 := ⟨fuel - 2, by omega⟩
  refine ⟨Parser.mk (arenaAlloc s.arena sizeofASTNode).2 l1 t, ?_, ⟨rfl, hlex⟩, hr⟩
  unfold parseNumber
  simp only [parseNumberLoop, htok, numberToken, if_true, if_neg hp, hgen, if_neg ht,
    Token.number]

/-- The type of the token built for an operator kind is that kind. -/
theorem operatorToken_type (op : TokenType) : (operatorToken op).type = op := by
  cases op <;> rfl

/-- The first token of `factorTokens fs ++ tEnd :: rest` is not a `NUMBER`. -/
theorem factorTokens_head (fs : List (TokenType × Int)) (tEnd : Token) (rest : List Token)
    (hfs : ∀ p ∈ fs, p.1 = TokenType.TOKEN_STAR ∨ p.1 = TokenType.TOKEN_SLASH)
    (hend : tEnd.type ≠ TokenType.TOKEN_NUMBER) :
    ∃ t ts, factorTokens fs ++ tEnd :: rest = t :: ts ∧ t.type ≠ TokenType.TOKEN_NUMBER := by
  cases fs with
  | nil => exact ⟨tEnd, rest, rfl, hend⟩
  | cons p fs =>
    obtain ⟨op, n⟩ := p
    refine ⟨operatorToken op, _, rfl, ?_⟩
    rcases hfs (op, n) (List.mem_cons_self _ _) with h | h <;>
      · simp only at h
        subst h
        decide

/-- The loop of `parseFactor` on `(('*' | '/') NUMBER)*` followed by a token that
is neither a number nor `*` nor `/`. -/
theorem parseFactorLoop_spec {F D : Type} (A : Arith F D) (fresh : Nat → ASTNode F)
    (inner : Nat) (hinner : 2 ≤ inner) (tEnd : Token) (rest : List Token)
    (hn : tEnd.type ≠ TokenType.TOKEN_NUMBER) (hs : tEnd.type ≠ TokenType.TOKEN_STAR)
    (hd : tEnd.type ≠ TokenType.TOKEN_SLASH) (j : Nat) (fs : List (TokenType × Int)) :
    ∀ (fuel : Nat) (left : ASTNode F) (s : Parser),
      (∀ p ∈ fs, p.1 = TokenType.TOKEN_STAR ∨ p.1 = TokenType.TOKEN_SLASH) →
      Feeds s (factorTokens fs ++ tEnd :: rest) →
      Room s.arena (2 * fs.length + j) → fs.length < fuel →
      ∃ s1, parseFactorLoop A fresh inner fuel left s
          = Except.ok (factorTree A left fs, s1) ∧
        Feeds s1 (tEnd :: rest) ∧ Room s1.arena j := by
  induction fs with
  | nil =>
    intro fuel left s _ hfeed hroom hfuel
    obtain ⟨f, rfl⟩ : ∃ f, fuel = f + 1 := ⟨fuel - 1, by omega⟩
    refine ⟨s, ?_, hfeed, by simpa using hroom⟩
    have htok : s.token = tEnd := hfeed.1
    simp only [parseFactorLoop, htok, factorTree]
    rw [if_neg (by simp [hs, hd])]
  | cons p fs ih =>
    intro fuel left s hfs hfeed hroom hfuel
    obtain ⟨op, n⟩ := p
    obtain ⟨f, rfl⟩ : ∃ f, fuel = f + 1 := ⟨fuel - 1, by omega⟩
    have hop : op = TokenType.TOKEN_STAR ∨ op = TokenType.TOKEN_SLASH :=
      hfs (op, n) (List.mem_cons_self _ _)
    obtain ⟨htok, l1, hgen, hlex⟩ := hfeed
    have htype : s.token.type = op := by rw [htok]; exact operatorToken_type op
    have hroom1 : Room s.arena ((2 * fs.length + j + 1) + 1) := by
      refine room_mono _ _ _ hroom ?_
      simp only [List.length_cons]; omega
    obtain ⟨hp, hr⟩ := room_alloc s.arena _ hroom1
    obtain ⟨t, ts, hts, htn⟩ := factorTokens_head fs tEnd rest
      (fun q hq => hfs q (List.mem_cons_of_mem _ hq)) hn
    have hfeed1 : Feeds (Parser.mk (arenaAlloc s.arena sizeofASTNode).2 l1 (numberToken n))
        (numberToken n :: t :: ts) := by
      refine ⟨rfl, ?_⟩
      rw [← hts]; exact hlex
    obtain ⟨s1, hpn, hfeed2, hroom2⟩ := parseNumber_spec A fresh inner _ n t ts
      (2 * fs.length + j) hfeed1 htn hr hinner
    rw [← hts] at hfeed2
    obtain ⟨s2, hloop, hfeed3, hroom3⟩ := ih f
      (ASTNode.operation left (ASTNode.number (A.intToFloat n)) op) s1
      (fun q hq => hfs q (List.mem_cons_of_mem _ hq)) hfeed2 hroom2
      (by simp only [List.length_cons] at hfuel; omega)
    refine ⟨s2, ?_, hfeed3, hroom3⟩
    simp only [parseFactorLoop, htype, factorTree]
    rw [if_pos hop, if_neg hp]
    simp only [hgen, hpn]
    exact hloop

/-- Behaviour of `parseFactor` on `NUMBER (('*' | '/') NUMBER)*`. -/
theorem parseFactor_spec {F D : Type} (A : Arith F D) (fresh : Nat → ASTNode F)
    (fuel : Nat) (tEnd : Token) (rest : List Token)
    (hn : tEnd.type ≠ TokenType.TOKEN_NUMBER) (hs : tEnd.type ≠ TokenType.TOKEN_STAR)
    (hd : tEnd.type ≠ TokenType.TOKEN_SLASH) (j : Nat) (n : Int)
    (fs : List (TokenType × Int)) (s : Parser)
    (hfs : ∀ p ∈ fs, p.1 = TokenType.TOKEN_STAR ∨ p.1 = TokenType.TOKEN_SLASH)
    (hfeed : Feeds s (numberToken n :: (factorTokens fs ++ tEnd :: rest)))
    (hroom : Room s.arena (1 + 2 * fs.length + j)) (hfuel : fs.length < fuel)
    (hfuel2 : 2 ≤ fuel) :
    ∃ s1, parseFactor A fresh fuel s
        = Except.ok (factorTree A (ASTNode.number (A.intToFloat n)) fs, s1) ∧
      Feeds s1 (tEnd :: rest) ∧ Room s1.arena j := by
  obtain ⟨t, ts, hts, htn⟩ := factorTokens_head fs tEnd rest hfs hn
  rw [hts] at hfeed
  obtain ⟨s1, hpn, hfeed1, hroom1⟩ := parseNumber_spec A fresh fuel s n t ts
    (2 * fs.length + j) hfeed htn (room_mono _ _ _ hroom (by omega)) hfuel2
  rw [← hts] at hfeed1
  obtain ⟨s2, hloop, hfeed2, hroom2⟩ := parseFactorLoop_spec A fresh fuel hfuel2 tEnd rest
    hn hs hd j fs fuel (ASTNode.number (A.intToFloat n)) s1 hfs hfeed1 hroom1 hfuel
  refine ⟨s2, ?_, hfeed2, hroom2⟩
  unfold parseFactor
  simp only [hpn]
  exact hloop

/-- The first token of `expressionTokens es ++ tEnd :: rest` is neither a number
nor `*` nor `/`. -/
theorem expressionTokens_head (es : List (TokenType × Int × List (TokenType × Int)))
    (tEnd : Token) (rest : List Token)
    (hes : ∀ e ∈ es, e.1 = TokenType.TOKEN_PLUS ∨ e.1 = TokenType.TOKEN_MINUS)
    (hn : tEnd.type ≠ TokenType.TOKEN_NUMBER) (hs : tEnd.type ≠ TokenType.TOKEN_STAR)
    (hd : tEnd.type ≠ TokenType.TOKEN_SLASH) :
    ∃ t ts, expressionTokens es ++ tEnd :: rest = t :: ts ∧
      t.type ≠ TokenType.TOKEN_NUMBER ∧ t.type ≠ TokenType.TOKEN_STAR ∧
      t.type ≠ TokenType.TOKEN_SLASH := by
  cases es with
  | nil => exact ⟨tEnd, rest, rfl, hn, hs, hd⟩
  | cons e es =>
    obtain ⟨op, n, fs⟩ := e
    refine ⟨operatorToken op, _, rfl, ?_⟩
    rcases hes (op, n, fs) (List.mem_cons_self _ _) with h | h <;>
      · simp only at h
        subst h
        decide

/-- The loop of `parseExpression` on `(('+' | '-') factor)*` followed by a token
that is neither a number nor an operator. -/
theorem parseExpressionLoop_spec {F D : Type} (A : Arith F D) (fresh : Nat → ASTNode F)
    (inner : Nat) (hinner : 2 ≤ inner) (tEnd : Token) (rest : List Token)
    (hn : tEnd.type ≠ TokenType.TOKEN_NUMBER) (hs : tEnd.type ≠ TokenType.TOKEN_STAR)
    (hd : tEnd.type ≠ TokenType.TOKEN_SLASH) (hp : tEnd.type ≠ TokenType.TOKEN_PLUS)
    (hm : tEnd.type ≠ TokenType.TOKEN_MINUS) (j : Nat)
    (es : List (TokenType × Int × List (TokenType × Int))) :
    ∀ (fuel : Nat) (left : ASTNode F) (s : Parser),
      (∀ e ∈ es, e.1 = TokenType.TOKEN_PLUS ∨ e.1 = TokenType.TOKEN_MINUS) →
      (∀ e ∈ es, ∀ p ∈ e.2.2, p.1 = TokenType.TOKEN_STAR ∨ p.1 = TokenType.TOKEN_SLASH) →
      (∀ e ∈ es, e.2.2.length < inner) →
      Feeds s (expressionTokens es ++ tEnd :: rest) →
      Room s.arena (expressionNodes es + j) → es.length < fuel →
      ∃ s1, parseExpressionLoop A fresh inner fuel left s
          = Except.ok (expressionTree A left es, s1) ∧
        Feeds s1 (tEnd :: rest) ∧ Room s1.arena j := by
  induction es with
  | nil =>
    intro fuel left s _ _ _ hfeed hroom hfuel
    obtain ⟨f, rfl⟩ : ∃ f, fuel = f + 1 := ⟨fuel - 1, by omega⟩
    refine ⟨s, ?_, hfeed, by simpa [expressionNodes] using hroom⟩
    have htok : s.token = tEnd := hfeed.1
    simp only [parseExpressionLoop, htok, expressionTree]
    rw [if_neg (by simp [hp, hm])]
  | cons e es ih =>
    intro fuel left s hes hfs hlen hfeed hroom hfuel
    obtain ⟨op, n, fs⟩ := e
    obtain ⟨f, rfl⟩ : ∃ f, fuel = f + 1 := ⟨fuel - 1, by omega⟩
    have hop : op = TokenType.TOKEN_PLUS ∨ op = TokenType.TOKEN_MINUS :=
      hes (op, n, fs) (List.mem_cons_self _ _)
    obtain ⟨htok, l1, hgen, hlex⟩ := hfeed
    have htype : s.token.type = op := by rw [htok]; exact operatorToken_type op
    have hroom1 : Room s.arena ((1 + 2 * fs.length + (expressionNodes es + j)) + 1) := by
      refine room_mono _ _ _ hroom ?_
      simp only [expressionNodes]; omega
    obtain ⟨hpt, hr⟩ := room_alloc s.arena _ hroom1
    obtain ⟨t, ts, hts, htn, hts2, htd⟩ := expressionTokens_head es tEnd rest
      (fun q hq => hes q (List.mem_cons_of_mem _ hq)) hn hs hd
    have hfeed1 : Feeds (Parser.mk (arenaAlloc s.arena sizeofASTNode).2 l1 (numberToken n))
        (numberToken n :: (factorTokens fs ++ t :: ts)) := by
      refine ⟨rfl, ?_⟩
      rw [← hts, ← List.append_assoc]; exact hlex
    obtain ⟨s1, hpf, hfeed2, hroom2⟩ := parseFactor_spec A fresh inner t ts htn hts2 htd
      (expressionNodes es + j) n fs _
      (hfs (op, n, fs) (List.mem_cons_self _ _)) hfeed1 hr
      (hlen (op, n, fs) (List.mem_cons_self _ _)) hinner
    rw [← hts] at hfeed2
    obtain ⟨s2, hloop, hfeed3, hroom3⟩ := ih f
      (ASTNode.operation left (factorTree A (ASTNode.number (A.intToFloat n)) fs) op) s1
      (fun q hq => hes q (List.mem_cons_of_mem _ hq))
      (fun q hq => hfs q (List.mem_cons_of_mem _ hq))
      (fun q hq => hlen q (List.mem_cons_of_mem _ hq)) hfeed2 hroom2
      (by simp only [List.length_cons] at hfuel; omega)
    refine ⟨s2, ?_, hfeed3, hroom3⟩
    simp only [parseExpressionLoop, htype, expressionTree]
    rw [if_pos hop, if_neg hpt]
    simp only [hgen, hpf]
    exact hloop

/-- Behaviour of `parseLine` on a line whose tokens are
`NUMBER (('*' | '/') NUMBER)* (('+' | '-') NUMBER (('*' | '/') NUMBER)*)*` followed
by a token that is neither a number nor an operator: the tree grows leftwards
at both levels. -/
theorem parseLine_spec {F D : Type} (A : Arith F D) (fresh : Nat → ASTNode F)
    (arena : Arena) (line : String) (n : Int) (fs : List (TokenType × Int))
    (es : List (TokenType × Int × List (TokenType × Int))) (tEnd : Token)
    (rest : List Token) (j : Nat)
    (hn : tEnd.type ≠ TokenType.TOKEN_NUMBER) (hs : tEnd.type ≠ TokenType.TOKEN_STAR)
    (hd : tEnd.type ≠ TokenType.TOKEN_SLASH) (hp : tEnd.type ≠ TokenType.TOKEN_PLUS)
    (hm : tEnd.type ≠ TokenType.TOKEN_MINUS)
    (hfs : ∀ p ∈ fs, p.1 = TokenType.TOKEN_STAR ∨ p.1 = TokenType.TOKEN_SLASH)
    (hes : ∀ e ∈ es, e.1 = TokenType.TOKEN_PLUS ∨ e.1 = TokenType.TOKEN_MINUS)
    (hefs : ∀ e ∈ es, ∀ p ∈ e.2.2, p.1 = TokenType.TOKEN_STAR ∨ p.1 = TokenType.TOKEN_SLASH)
    (hlex : Lexes (Lexer.mk line 0)
      (numberToken n :: (factorTokens fs ++ (expressionTokens es ++ tEnd :: rest))))
    (hroom : Room arena (2 + 2 * fs.length + expressionNodes es + j))
    (hlen1 : fs.length < line.text.length + 2)
    (hlen2 : ∀ e ∈ es, e.2.2.length < line.text.length + 2)
    (hlen3 : es.length < line.text.length + 2) :
    ∃ s1, parseLine A fresh arena line
        = Except.ok (expressionTree A (factorTree A (ASTNode.number (A.intToFloat n)) fs) es,
            s1) ∧
      Feeds s1 (tEnd :: rest) ∧ Room s1.arena j := by
  obtain ⟨l1, hgen, hlex1⟩ := hlex
  obtain ⟨_, hr⟩ := room_alloc arena (1 + 2 * fs.length + (expressionNodes es + j))
    (room_mono _ _ _ hroom (by omega))
  obtain ⟨t, ts, hts, htn, hts2, htd⟩ := expressionTokens_head es tEnd rest hes hn hs hd
  have hfeed : Feeds (Parser.mk (arenaAlloc arena sizeofASTNode).2 l1 (numberToken n))
      (numberToken n :: (factorTokens fs ++ t :: ts)) := by
    refine ⟨rfl, ?_⟩
    rw [← hts]; exact hlex1
  obtain ⟨s1, hpf, hfeed1, hroom1⟩ := parseFactor_spec A fresh (line.text.length + 2) t ts
    htn hts2 htd (expressionNodes es + j) n fs _ hfs hfeed hr hlen1 (by omega)
  rw [← hts] at hfeed1
  obtain ⟨s2, hloop, hfeed2, hroom2⟩ := parseExpressionLoop_spec A fresh
    (line.text.length + 2) (by omega) tEnd rest hn hs hd hp hm j es
    (line.text.length + 2) _ s1 hes hefs hlen2 hfeed1 hroom1 hlen3
  refine ⟨s2, ?_, hfeed2, hroom2⟩
  unfold parseLine parseExpression
  simp only [hgen, hpf]
  exact hloop

/-! ## Parser and evaluator on described inputs -/

theorem floatOfInt_small (n : Int) (h : n.natAbs ≤ 2 ^ 24) : floatOfInt n = (n : ℚ) := by
  unfold floatOfInt roundToFloat
  rw [if_pos h]
  have hc : ((n.natAbs : ℕ) : ℚ) = ((n.natAbs : ℤ) : ℚ) := (Int.cast_natCast _).symm
  by_cases hn : n < 0
  · rw [if_pos hn, hc, Int.ofNat_natAbs_of_nonpos (le_of_lt hn)]
    push_cast
    ring
  · rw [if_neg hn, hc, Int.natAbs_of_nonneg (not_lt.1 hn)]

/-- In `exactArith` a natural number up to `2 ^ 24` passes the `float` field
unchanged. -/
theorem exactArith_ofInt (n : Nat) (h : n ≤ 2 ^ 24) :
    exactArith.ofInt (Int.ofNat n) = (n : ℚ) := by
  have h2 := floatOfInt_small (Int.ofNat n) (by simpa using h)
  show floatOfInt (Int.ofNat n) = (n : ℚ)
  rw [h2]
  simp

/-- The arithmetic `exactArith` is exact on small natural numbers. -/
theorem exactArith_exact : ExactOnSmallNats exactArith := by
  constructor
  · intro a b ha hb hab
    rw [exactArith_ofInt a ha, exactArith_ofInt b hb, exactArith_ofInt _ hab]
    show (a : ℚ) + b = _
    push_cast; rfl
  · intro a b ha hba
    rw [exactArith_ofInt a ha, exactArith_ofInt b (by omega), exactArith_ofInt _ (by omega)]
    show (a : ℚ) - b = _
    rw [Nat.cast_sub hba]
  · intro a b ha hb hab
    rw [exactArith_ofInt a ha, exactArith_ofInt b hb, exactArith_ofInt _ hab]
    show (a : ℚ) * b = _
    push_cast; rfl
  · intro a b q ha hb hb0 hq
    have hqn : q ≤ 2 ^ 24 := by
      have h2 : 1 ≤ b := Nat.pos_of_ne_zero hb0
      calc q = q * 1 := (Nat.mul_one _).symm
        _ ≤ q * b := Nat.mul_le_mul_left _ h2
        _ = a := hq.symm
        _ ≤ 2 ^ 24 := ha
    rw [exactArith_ofInt a ha, exactArith_ofInt b hb, exactArith_ofInt q hqn]
    show (a : ℚ) / b = _
    have hb' : (b : ℚ) ≠ 0 := by exact_mod_cast hb0
    rw [hq]; push_cast
    field_simp

/-- The tokens of a line `da o1 db o2 dc` with single spaces around the two
operator bytes. -/
theorem lexes_three_operands (da db dc : List Nat) (o1 o2 : Nat)
    (hda : ∀ c ∈ da, charIsDigit c = true) (hdb : ∀ c ∈ db, charIsDigit c = true)
    (hdc : ∀ c ∈ dc, charIsDigit c = true)
    (na : da ≠ []) (nb : db ≠ []) (nc : dc ≠ [])
    (la : da.length ≤ 62) (lb : db.length ≤ 62) (lc : dc.length ≤ 62)
    (va : decimalValue da ≤ INT_MAX) (vb : decimalValue db ≤ INT_MAX)
    (vc : decimalValue dc ≤ INT_MAX)
    (ho1 : o1 ≠ 32 ∧ charIsDigit o1 = false) (ho2 : o2 ≠ 32 ∧ charIsDigit o2 = false) :
    Lexes (Lexer.mk (lineOfBytes (da ++ [32, o1, 32] ++ db ++ [32, o2, 32] ++ dc)) 0)
      [numberToken (Int.ofNat (decimalValue da)), switchToken o1,
        numberToken (Int.ofNat (decimalValue db)), switchToken o2,
        numberToken (Int.ofNat (decimalValue dc)), switchToken 0] := by
  have htext : (lineOfBytes (da ++ [32, o1, 32] ++ db ++ [32, o2, 32] ++ dc)).text
      = da ++ ([32] ++ ([o1] ++ (([32] ++ db) ++ ([32] ++ ([o2] ++ (([32] ++ dc) ++ [0])))))) := by
    simp [lineOfBytes, string]
  generalize hlen : (lineOfBytes (da ++ [32, o1, 32] ++ db ++ [32, o2, 32] ++ dc)).length = len
  generalize htx : (lineOfBytes (da ++ [32, o1, 32] ++ db ++ [32, o2, 32] ++ dc)).text = text
    at htext
  have hstr : lineOfBytes (da ++ [32, o1, 32] ++ db ++ [32, o2, 32] ++ dc) = String.mk text len := by
    rw [← htx, ← hlen]
  rw [hstr]
  have h0 := segAt_whole text
  nth_rewrite 2 [htext] at h0
  obtain ⟨sa, h1⟩ := segAt_append _ _ _ _ h0
  obtain ⟨s1, h2⟩ := segAt_append _ _ _ _ h1
  obtain ⟨c1, h3⟩ := segAt_append _ _ _ _ h2
  obtain ⟨sb, h4⟩ := segAt_append _ _ _ _ h3
  obtain ⟨s2, h5⟩ := segAt_append _ _ _ _ h4
  obtain ⟨c2, h6⟩ := segAt_append _ _ _ _ h5
  obtain ⟨sc, h7⟩ := segAt_append _ _ _ _ h6
  simp only [Nat.zero_add, List.length_cons, List.length_nil, List.length_append,
    List.singleton_append] at sa s1 c1 sb s2 c2 sc h7
  have e1 : charAt text da.length = 32 := (segAt_cons _ _ _ _ s1).1
  have e2 : charAt text (da.length + 1) = o1 := (segAt_cons _ _ _ _ c1).1
  have e3 : charAt text (da.length + 1 + 1 + (db.length + 1)) = 32 := (segAt_cons _ _ _ _ s2).1
  have e4 : charAt text (da.length + 1 + 1 + (db.length + 1) + 1) = o2 :=
    (segAt_cons _ _ _ _ c2).1
  have e5 : charAt text (da.length + 1 + 1 + (db.length + 1) + 1 + 1 + (dc.length + 1)) = 0 :=
    (segAt_cons _ _ _ _ h7).1
  have g1 := gen_number text len 0 [] da (by simpa using sa) (by simp) hda na
    (by simp only [Nat.zero_add, List.length_nil]; rw [e1]; decide) la va
  have g2 := gen_single text len da.length [32] (by simpa using s1) (by simp)
    (by simp only [List.length_singleton]; rw [e2]; exact ho1.1)
    (by simp only [List.length_singleton]; rw [e2]; exact ho1.2)
  have g3 := gen_number text len (da.length + 1 + 1) [32] db (by simpa using sb) (by simp)
    hdb nb
    (by
      simp only [List.length_singleton]
      rw [show da.length + 1 + 1 + 1 + db.length = da.length + 1 + 1 + (db.length + 1) by omega,
        e3]
      decide) lb vb
  have g4 := gen_single text len (da.length + 1 + 1 + (db.length + 1)) [32]
    (by simpa using s2) (by simp)
    (by simp only [List.length_singleton]; rw [e4]; exact ho2.1)
    (by simp only [List.length_singleton]; rw [e4]; exact ho2.2)
  have g5 := gen_number text len (da.length + 1 + 1 + (db.length + 1) + 1 + 1) [32] dc
    (by simpa using sc) (by simp) hdc nc
    (by
      simp only [List.length_singleton]
      rw [show da.length + 1 + 1 + (db.length + 1) + 1 + 1 + 1 + dc.length
        = da.length + 1 + 1 + (db.length + 1) + 1 + 1 + (dc.length + 1) by omega, e5]
      decide) lc vc
  have g6 := gen_single text len (da.length + 1 + 1 + (db.length + 1) + 1 + 1 + (dc.length + 1)) []
    (fun i hi => by simp at hi) (by simp)
    (by simp only [List.length_nil, Nat.add_zero]; rw [e5]; decide)
    (by simp only [List.length_nil, Nat.add_zero]; rw [e5]; decide)
  simp only [List.length_nil, List.length_singleton, Nat.add_zero, Nat.zero_add, e2, e4, e5]
    at g1 g2 g3 g4 g5 g6
  have L6 : Lexes (Lexer.mk (String.mk text len)
      (da.length + 1 + 1 + (db.length + 1) + 1 + 1 + (dc.length + 1))) [switchToken 0] :=
    ⟨_, g6, trivial⟩
  have L5 : Lexes (Lexer.mk (String.mk text len) (da.length + 1 + 1 + (db.length + 1) + 1 + 1))
      [numberToken (Int.ofNat (decimalValue dc)), switchToken 0] := by
    refine ⟨_, g5, ?_⟩
    rw [show da.length + 1 + 1 + (db.length + 1) + 1 + 1 + 1 + dc.length
      = da.length + 1 + 1 + (db.length + 1) + 1 + 1 + (dc.length + 1) by omega]
    exact L6
  have L4 : Lexes (Lexer.mk (String.mk text len) (da.length + 1 + 1 + (db.length + 1)))
      [switchToken o2, numberToken (Int.ofNat (decimalValue dc)), switchToken 0] :=
    ⟨_, g4, L5⟩
  have L3 : Lexes (Lexer.mk (String.mk text len) (da.length + 1 + 1))
      [numberToken (Int.ofNat (decimalValue db)), switchToken o2,
        numberToken (Int.ofNat (decimalValue dc)), switchToken 0] := by
    refine ⟨_, g3, ?_⟩
    rw [show da.length + 1 + 1 + 1 + db.length = da.length + 1 + 1 + (db.length + 1) by omega]
    exact L4
  exact ⟨_, g1, _, g2, L3⟩

/-- When `parseLine` returns a root, `evaluateLine` is `evaluate` of that root.
-/
theorem evaluateLine_of_parse {F D : Type} (A : Arith F D) (fresh : Nat → ASTNode F)
    (arena : Arena) (input : String) (root : ASTNode F)
    (h : ∃ s, parseLine A fresh arena input = Except.ok (root, s)) :
    evaluateLine A fresh arena input = evaluate A root := by
  obtain ⟨s, hs⟩ := h
  unfold evaluateLine
  rw [hs]

/-- The text of `lineOfBytes` is one byte longer than the bytes. -/
theorem lineOfBytes_length (bytes : List Nat) :
    (lineOfBytes bytes).text.length = bytes.length + 1 := by
  simp [lineOfBytes, string]

/-- Value of `evaluate(parseLine(..))` on `da o1 db o2 dc`, by shape of the operators. -/
theorem evaluateLine_three {F D : Type} (A : Arith F D) (fresh : Nat → ASTNode F)
    (arena : Arena) (da db dc : List Nat) (o1 o2 : Nat) (fs : List (TokenType × Int))
    (es : List (TokenType × Int × List (TokenType × Int)))
    (ha : IsLiteral da) (hb : IsLiteral db) (hc : IsLiteral dc)
    (ho1 : o1 ≠ 32 ∧ charIsDigit o1 = false) (ho2 : o2 ≠ 32 ∧ charIsDigit o2 = false)
    (htoks : [numberToken (Int.ofNat (decimalValue da)), switchToken o1,
        numberToken (Int.ofNat (decimalValue db)), switchToken o2,
        numberToken (Int.ofNat (decimalValue dc)), switchToken 0]
      = numberToken (Int.ofNat (decimalValue da)) ::
          (factorTokens fs ++ (expressionTokens es ++ [switchToken 0])))
    (hfs : ∀ p ∈ fs, p.1 = TokenType.TOKEN_STAR ∨ p.1 = TokenType.TOKEN_SLASH)
    (hes : ∀ e ∈ es, e.1 = TokenType.TOKEN_PLUS ∨ e.1 = TokenType.TOKEN_MINUS)
    (hefs : ∀ e ∈ es, ∀ p ∈ e.2.2, p.1 = TokenType.TOKEN_STAR ∨ p.1 = TokenType.TOKEN_SLASH)
    (hl1 : fs.length < 3) (hl2 : ∀ e ∈ es, e.2.2.length < 3) (hl3 : es.length < 3)
    (hroom : Room arena (2 + 2 * fs.length + expressionNodes es + 0)) :
    evaluateLine A fresh arena (lineOfBytes (da ++ [32, o1, 32] ++ db ++ [32, o2, 32] ++ dc))
      = evaluate A
          (expressionTree A
            (factorTree A (ASTNode.number (A.intToFloat (Int.ofNat (decimalValue da)))) fs) es) := by
  apply evaluateLine_of_parse
  have hlex := lexes_three_operands da db dc o1 o2 ha.2.1 hb.2.1 hc.2.1 ha.1 hb.1 hc.1
    ha.2.2.1 hb.2.2.1 hc.2.2.1 ha.2.2.2 hb.2.2.2 hc.2.2.2 ho1 ho2
  rw [htoks] at hlex
  have hlen := lineOfBytes_length (da ++ [32, o1, 32] ++ db ++ [32, o2, 32] ++ dc)
  obtain ⟨s1, hparse, _, _⟩ := parseLine_spec A fresh arena _ _ fs es (switchToken 0) [] 0
    (by decide) (by decide) (by decide) (by decide) (by decide) hfs hes hefs hlex hroom
    (by omega) (fun e he => by have := hl2 e he; omega) (by omega)
  exact ⟨s1, hparse⟩

/-- Value of `evaluate(parseLine(..))` on a line with the tokens of `parseLine_spec`. -/
theorem evaluateLine_spec {F D : Type} (A : Arith F D) (fresh : Nat → ASTNode F)
    (arena : Arena) (input : String) (n : Int) (fs : List (TokenType × Int))
    (es : List (TokenType × Int × List (TokenType × Int))) (j : Nat)
    (hfs : ∀ p ∈ fs, p.1 = TokenType.TOKEN_STAR ∨ p.1 = TokenType.TOKEN_SLASH)
    (hes : ∀ e ∈ es, e.1 = TokenType.TOKEN_PLUS ∨ e.1 = TokenType.TOKEN_MINUS)
    (hefs : ∀ e ∈ es, ∀ p ∈ e.2.2, p.1 = TokenType.TOKEN_STAR ∨ p.1 = TokenType.TOKEN_SLASH)
    (hlex : Lexes (Lexer.mk input 0)
      (numberToken n :: (factorTokens fs ++ (expressionTokens es ++ [switchToken 0]))))
    (hroom : Room arena (2 + 2 * fs.length + expressionNodes es + j))
    (hlen1 : fs.length < input.text.length + 2)
    (hlen2 : ∀ e ∈ es, e.2.2.length < input.text.length + 2)
    (hlen3 : es.length < input.text.length + 2) :
    evaluateLine A fresh arena input
      = evaluate A (expressionTree A (factorTree A (ASTNode.number (A.intToFloat n)) fs) es) := by
  obtain ⟨s1, hparse, _, _⟩ := parseLine_spec A fresh arena input n fs es (switchToken 0) [] j
    (by decide) (by decide) (by decide) (by decide) (by decide) hfs hes hefs hlex hroom
    hlen1 hlen2 hlen3
  unfold evaluateLine
  rw [hparse]

/-- The tokens `lexRun` computes are tokens the lexer produces. -/
theorem lexes_of_lexRun (n : Nat) : ∀ (l : Lexer) (ts : List Token),
    lexRun n l = Except.ok ts → Lexes l ts := by
  induction n with
  | zero =>
    intro l ts h
    simp only [lexRun, Except.ok.injEq] at h
    subst h
    trivial
  | succ n ih =>
    intro l ts h
    simp only [lexRun] at h
    split at h
    · exact absurd h (by simp)
    · rename_i t l1 hgen
      split at h
      · exact absurd h (by simp)
      · rename_i ts1 hrun
        simp only [Except.ok.injEq] at h
        subst h
        exact ⟨l1, hgen, ih l1 ts1 hrun⟩

/-- Every natural number within `int` is the value of a decimal literal the
lexer accepts. -/
theorem literal_of_nat (n : Nat) (h : n ≤ INT_MAX) :
    ∃ ds, IsLiteral ds ∧ decimalValue ds = n := by
  have hval : ∀ L : List Nat, (∀ d ∈ L, d < 10) →
      decimalValue ((L.reverse).map (fun d => d + 48)) = Nat.ofDigits 10 L := by
    intro L
    induction L with
    | nil => intro _; rfl
    | cons d L ih =>
      intro hL
      have := ih (fun x hx => hL x (List.mem_cons_of_mem _ hx))
      unfold decimalValue at this ⊢
      rw [List.reverse_cons, List.map_append, List.foldl_append, this, Nat.ofDigits_cons]
      simp only [List.map_cons, List.map_nil, List.foldl_cons, List.foldl_nil]
      omega
  by_cases h0 : n = 0
  · subst h0
    exact ⟨[48], ⟨by decide, by decide, by decide, by decide⟩, by decide⟩
  · have hlt : ∀ d ∈ Nat.digits 10 n, d < 10 := fun d hd => Nat.digits_lt_base (by norm_num) hd
    have hv := hval (Nat.digits 10 n) hlt
    rw [Nat.ofDigits_digits] at hv
    refine ⟨((Nat.digits 10 n).reverse).map (fun d => d + 48), ⟨?_, ?_, ?_, ?_⟩, hv⟩
    · intro hnil
      have : (Nat.digits 10 n) = [] := by simpa using hnil
      exact h0 (Nat.digits_eq_nil_iff_eq_zero.1 this)
    · intro c hc
      simp only [List.mem_map, List.mem_reverse] at hc
      obtain ⟨d, hd, rfl⟩ := hc
      have := hlt d hd
      simp [charIsDigit]
      omega
    · simp only [List.length_map, List.length_reverse]
      have : (Nat.digits 10 n).length ≤ 10 := by
        have h1 := Nat.base_pow_length_digits_le 10 n (by norm_num) h0
        by_contra hgt
        have h2 : 10 ^ 11 ≤ 10 ^ (Nat.digits 10 n).length :=
          Nat.pow_le_pow_right (by norm_num) (by omega)
        unfold INT_MAX at h
        norm_num at h2
        omega
      omega
    · rw [hv]; exact h


/-! ## Lexer against the reference tokenisation -/

theorem skipSpaces_fuel (text : List Nat) : ∀ (f1 f2 pos : Nat),
    text.length ≤ pos + f1 → text.length ≤ pos + f2 →
    skipSpaces text f1 pos = skipSpaces text f2 pos := by
  intro f1
  induction f1 with
  | zero =>
    intro f2 pos h1 _
    have hc : charAt text pos ≠ 32 := by
      have : charAt text pos = 0 := by
        simp [charAt, List.getD_eq_getElem?_getD, List.getElem?_eq_none (by omega : text.length ≤ pos)]
      rw [this]; decide
    cases f2 with
    | zero => rfl
    | succ f2 => simp only [skipSpaces]; rw [if_neg hc]
  | succ f1 ih =>
    intro f2 pos h1 h2
    cases f2 with
    | zero =>
      have hc : charAt text pos ≠ 32 := by
        have : charAt text pos = 0 := by
          simp [charAt, List.getD_eq_getElem?_getD, List.getElem?_eq_none (by omega : text.length ≤ pos)]
        rw [this]; decide
      simp only [skipSpaces]; rw [if_neg hc]
    | succ f2 =>
      simp only [skipSpaces]
      by_cases hc : charAt text pos = 32
      · rw [if_pos hc, if_pos hc]
        exact ih f2 (pos + 1) (by omega) (by omega)
      · rw [if_neg hc, if_neg hc]

/-- A space under the cursor is skipped: the call gives what it gives one byte
further on. -/
theorem gen_skip_space (str : String) (pos : Nat) (h : charAt str.text pos = 32) :
    generateNextToken (Lexer.mk str pos) = generateNextToken (Lexer.mk str (pos + 1)) := by
  have hlt : pos < str.text.length := charAt_lt_of_ne_zero _ _ (by rw [h]; decide)
  obtain ⟨f, hf⟩ : ∃ f, str.text.length = f + 1 := ⟨str.text.length - 1, by omega⟩
  have e : skipSpaces str.text str.text.length pos
      = skipSpaces str.text str.text.length (pos + 1) := by
    conv_lhs => rw [hf]
    simp only [skipSpaces]
    rw [if_pos h]
    exact skipSpaces_fuel _ _ _ _ (by omega) (by omega)
  unfold generateNextToken
  simp only [e]

/-- A space under the cursor does not change what the calls until `EOF` give. -/
theorem lexUntilEOF_skip_space (str : String) (pos fuel : Nat)
    (h : charAt str.text pos = 32) :
    lexUntilEOF (fuel + 1) (Lexer.mk str pos) = lexUntilEOF (fuel + 1) (Lexer.mk str (pos + 1)) := by
  simp only [lexUntilEOF, gen_skip_space str pos h]

/-- The bound on digit runs passes to a suffix of the input. -/
theorem digitRunsWithin_suffix (m : Nat) (a b : List Nat) (h : DigitRunsWithin m (a ++ b)) :
    DigitRunsWithin m b := by
  intro pre ds post hb hds
  exact h (a ++ pre) ds post (by rw [hb]; simp) hds

/-- For a parenthesis or operator byte the token of the `switch` is not `EOF`
and has the kind of the byte. -/
theorem switchToken_view (c : Nat) (h : InAlphabet c) (h32 : c ≠ 32)
    (hd : charIsDigit c = false) :
    (switchToken c).type ≠ TokenType.TOKEN_EOF ∧
      (switchToken c).view = RefToken.kind (kindOfByte c) := by
  rcases h with h | h | h | h | h | h | h | h
  · exact absurd h h32
  · rw [h] at hd; exact absurd hd (by decide)
  all_goals subst h; exact ⟨by decide, by decide⟩

/-- The byte after the input is the terminating NUL. -/
theorem charAt_after (pre suf : List Nat) :
    charAt (pre ++ suf ++ [0]) (pre.length + suf.length) = 0 := by
  have := charAt_append_right (pre ++ suf) [0] 0
  simpa [charAt] using this

/-- A text holds its middle part where the part before it ends. -/
theorem segAt_mid (pre seg post : List Nat) : SegAt (pre ++ seg ++ post) pre.length seg := by
  have h := segAt_whole (pre ++ seg ++ post)
  nth_rewrite 2 [List.append_assoc] at h
  have h2 := (segAt_append _ 0 pre (seg ++ post) h).2
  rw [Nat.zero_add] at h2
  exact (segAt_append _ _ seg post h2).1

/-- The code against the reference, from any point of the input on: with the
cursor after `pre`, calling `generateNextToken` until `EOF` gives the
reference tokens of the rest. -/
theorem lexUntilEOF_reference_from (len : Nat) : ∀ (k : Nat) (suf pre : List Nat) (f1 f2 : Nat),
    suf.length ≤ k → suf.length < f1 → suf.length < f2 →
    (∀ c ∈ suf, InAlphabet c) → DigitRunsWithin 62 suf →
    ∃ ts, lexUntilEOF f1 (Lexer.mk (String.mk (pre ++ suf ++ [0]) len) pre.length)
        = Except.ok ts ∧
      ts.map Token.view = referenceTokensAux f2 suf := by
  intro k
  induction k with
  | zero =>
    intro suf pre f1 f2 hk hf1 hf2 _ _
    have hs : suf = [] := List.length_eq_zero.1 (by omega)
    subst hs
    obtain ⟨f, rfl⟩ : ∃ f, f1 = f + 1 := ⟨f1 - 1, by simp at hf1; omega⟩
    obtain ⟨g, rfl⟩ : ∃ g, f2 = g + 1 := ⟨f2 - 1, by simp at hf2; omega⟩
    have hc : charAt (pre ++ [] ++ [0]) pre.length = 0 := by
      simpa using charAt_after pre []
    have hg := gen_single (pre ++ [] ++ [0]) len pre.length [] (fun i hi => by simp at hi)
      (by simp) (by simp only [List.length_nil, Nat.add_zero]; rw [hc]; decide)
      (by simp only [List.length_nil, Nat.add_zero]; rw [hc]; decide)
    simp only [List.length_nil, Nat.add_zero, hc] at hg
    refine ⟨[switchToken 0], ?_, rfl⟩
    simp only [lexUntilEOF, hg]
    rfl
  | succ k ih =>
    intro suf pre f1 f2 hk hf1 hf2 halpha hruns
    cases suf with
    | nil => exact ih [] pre f1 f2 (by simp) hf1 hf2 halpha hruns
    | cons c cs =>
      obtain ⟨f, rfl⟩ : ∃ f, f1 = f + 1 := ⟨f1 - 1, by simp at hf1; omega⟩
      obtain ⟨g, rfl⟩ : ∃ g, f2 = g + 1 := ⟨f2 - 1, by simp at hf2; omega⟩
      simp only [List.length_cons] at hk hf1 hf2
      have hcs : ∀ x ∈ cs, InAlphabet x := fun x hx => halpha x (List.mem_cons_of_mem _ hx)
      have hrcs : DigitRunsWithin 62 cs := digitRunsWithin_suffix 62 [c] cs hruns
      have hcat : charAt (pre ++ c :: cs ++ [0]) pre.length = c := by
        have := charAt_append_right pre (c :: cs ++ [0]) 0
        simpa [charAt] using this
      by_cases h32 : c = 32
      · subst h32
        obtain ⟨ts, hts, hview⟩ := ih cs (pre ++ [32]) (f + 1) g (by omega) (by omega) (by omega)
          hcs hrcs
        refine ⟨ts, ?_, ?_⟩
        · rw [lexUntilEOF_skip_space _ _ _ hcat]
          have e : pre ++ 32 :: cs ++ [0] = pre ++ [32] ++ cs ++ [0] := by simp
          rw [e]
          simpa using hts
        · rw [hview]; simp [referenceTokensAux]
      · by_cases hd : charIsDigit c = true
        · have hsplit : c :: cs = (c :: cs.takeWhile charIsDigit) ++ cs.dropWhile charIsDigit := by
            simp
          have hds : ∀ x ∈ c :: cs.takeWhile charIsDigit, charIsDigit x = true := by
            intro x hx
            rcases List.mem_cons.1 hx with rfl | hx
            · exact hd
            · exact List.mem_takeWhile_imp hx
          have hlit := hruns [] (c :: cs.takeWhile charIsDigit) (cs.dropWhile charIsDigit)
            (by simp) hds
          have htext : pre ++ c :: cs ++ [0]
              = pre ++ (c :: cs.takeWhile charIsDigit) ++ (cs.dropWhile charIsDigit ++ [0]) := by
            have hcs2 := List.takeWhile_append_dropWhile charIsDigit cs
            have h3 : pre ++ c :: (cs.takeWhile charIsDigit ++ cs.dropWhile charIsDigit) ++ [0]
                = pre ++ (c :: cs.takeWhile charIsDigit) ++ (cs.dropWhile charIsDigit ++ [0]) := by
              simp only [List.append_assoc, List.cons_append]
            rw [hcs2] at h3
            exact h3
          have hend : charIsDigit (charAt (pre ++ c :: cs ++ [0])
              (pre.length + ([] : List Nat).length + (c :: cs.takeWhile charIsDigit).length))
              = false := by
            rw [htext, List.length_nil, Nat.add_zero]
            have := charAt_append_right (pre ++ (c :: cs.takeWhile charIsDigit))
              (cs.dropWhile charIsDigit ++ [0]) 0
            rw [List.length_append, Nat.add_zero] at this
            rw [this]
            cases hdw : cs.dropWhile charIsDigit with
            | nil => decide
            | cons y ys =>
              have hy := List.head_dropWhile_not charIsDigit cs (by rw [hdw]; simp)
              simp only [hdw, List.head_cons] at hy
              simpa [charAt] using hy
          have hg := gen_number (pre ++ c :: cs ++ [0]) len pre.length []
            (c :: cs.takeWhile charIsDigit)
            (by
              rw [htext]
              simpa using segAt_mid pre (c :: cs.takeWhile charIsDigit)
                (cs.dropWhile charIsDigit ++ [0]))
            (by simp) hds (by simp) hend hlit.1 hlit.2
          have hlen : (cs.dropWhile charIsDigit).length ≤ cs.length :=
            (List.dropWhile_sublist charIsDigit).length_le
          obtain ⟨ts, hts, hview⟩ := ih (cs.dropWhile charIsDigit)
            (pre ++ (c :: cs.takeWhile charIsDigit)) f g (by omega) (by omega) (by omega)
            (fun x hx => hcs x ((List.dropWhile_sublist charIsDigit).subset hx))
            (digitRunsWithin_suffix 62 (c :: cs.takeWhile charIsDigit) _
              (by rw [← hsplit]; exact hruns))
          refine ⟨numberToken (Int.ofNat (decimalValue (c :: cs.takeWhile charIsDigit))) :: ts,
            ?_, ?_⟩
          · simp only [lexUntilEOF, hg]
            rw [if_neg (by decide)]
            have e : pre ++ c :: cs ++ [0]
                = pre ++ (c :: cs.takeWhile charIsDigit) ++ cs.dropWhile charIsDigit ++ [0] := by
              rw [htext]; simp only [List.append_assoc, List.cons_append]
            rw [e]
            simp only [List.length_nil, Nat.add_zero, List.length_append] at hts ⊢
            rw [hts]
            rfl
          · simp only [List.map_cons, hview, referenceTokensAux]
            rw [if_neg h32, if_pos hd]
            rfl
        · have hd2 : charIsDigit c = false := by simpa using hd
          obtain ⟨hne, hv⟩ := switchToken_view c (halpha c (List.mem_cons_self _ _)) h32 hd2
          have hg := gen_single (pre ++ c :: cs ++ [0]) len pre.length []
            (fun i hi => by simp at hi) (by simp)
            (by simp only [List.length_nil, Nat.add_zero]; rw [hcat]; exact h32)
            (by simp only [List.length_nil, Nat.add_zero]; rw [hcat]; exact hd2)
          simp only [List.length_nil, Nat.add_zero, hcat] at hg
          obtain ⟨ts, hts, hview⟩ := ih cs (pre ++ [c]) f g (by omega) (by omega) (by omega)
            hcs hrcs
          refine ⟨switchToken c :: ts, ?_, ?_⟩
          · simp only [lexUntilEOF, hg]
            rw [if_neg hne]
            have e : pre ++ c :: cs ++ [0] = pre ++ [c] ++ cs ++ [0] := by simp
            rw [e]
            simp only [List.length_append, List.length_singleton] at hts
            rw [hts]
          · simp only [List.map_cons, hview, hv, referenceTokensAux]
            rw [if_neg h32, if_neg hd]

/-- The lexer claim with runs of at most 62 digits: on an input made of digits,
spaces and the six operator and parenthesis bytes, whose digit runs have at
most 62 digits and values within `int`, calling `generateNextToken` from
position 0 until it returns `EOF` gives exactly the reference tokenisation. -/
theorem lexUntilEOF_reference (input : List Nat) (halpha : ∀ c ∈ input, InAlphabet c)
    (hruns : DigitRunsWithin 62 input) :
    ∃ ts, lexUntilEOF (input.length + 1) (Lexer.mk (lineOfBytes input) 0) = Except.ok ts ∧
      ts.map Token.view = referenceTokens input := by
  have h := lexUntilEOF_reference_from input.length input.length input [] (input.length + 1)
    (input.length + 1) (Nat.le_refl _) (by omega) (by omega) halpha hruns
  simpa [lineOfBytes, string, referenceTokens] using h


/-! ## Region invariants and the lexer cursor -/

/-- The index after a call of `arenaAllocAligned` is within the capacity when
it was before: the refusing branch leaves the arena alone, and the other
branch stores the very 64-bit sum the guard has just compared with the
capacity. -/
theorem alloc_index_le_size (arena : Arena) (n k : Nat) (h : arena.index ≤ arena.size) :
    (arenaAllocAligned arena n k).2.index ≤ (arenaAllocAligned arena n k).2.size := by
  unfold arenaAllocAligned
  split
  · exact h
  · rename_i hg
    show (arena.index + (padding arena k + n) % 2 ^ 64) % 2 ^ 64 ≤ arena.size
    have e : (arena.index + (padding arena k + n) % 2 ^ 64) % 2 ^ 64
        = ((arena.index + padding arena k) % 2 ^ 64 + n) % 2 ^ 64 := by
      norm_num
      omega
    rw [e]
    exact Nat.le_of_not_gt hg

/-- Without wrap in the guard the index does not decrease. -/
theorem alloc_index_mono_no_wrap (arena : Arena) (n k : Nat) (hidx : arena.index ≤ arena.size)
    (hnw : arena.index + padding arena k + n < 2 ^ 64) :
    arena.index ≤ (arenaAllocAligned arena n k).2.index := by
  rw [alloc_no_wrap arena n k hidx hnw]
  split
  · exact Nat.le_refl _
  · show arena.index ≤ arena.index + padding arena k + n
    omega

/-- The first loop of the lexer moves the cursor forwards and not past the
NUL. -/
theorem skipSpaces_bounds (text : List Nat) (L : Nat) (hL : FirstNul text L) :
    ∀ (fuel pos : Nat), pos ≤ L →
      pos ≤ skipSpaces text fuel pos ∧ skipSpaces text fuel pos ≤ L := by
  intro fuel
  induction fuel with
  | zero => intro pos h; exact ⟨Nat.le_refl _, h⟩
  | succ fuel ih =>
    intro pos h
    simp only [skipSpaces]
    by_cases hc : charAt text pos = 32
    · rw [if_pos hc]
      have hne : pos ≠ L := by
        intro e
        rw [e, hL.1] at hc
        exact absurd hc (by decide)
      obtain ⟨h1, h2⟩ := ih (pos + 1) (by omega)
      exact ⟨by omega, h2⟩
    · rw [if_neg hc]
      exact ⟨Nat.le_refl _, h⟩

/-- The second loop of the lexer moves the cursor forwards by the number of
digits it copies and not past the NUL. -/
theorem readDigits_bounds (text : List Nat) (L : Nat) (hL : FirstNul text L) :
    ∀ (fuel pos : Nat) (value : List Nat), pos ≤ L →
      (readDigits text fuel pos value).1 ≤ L ∧
      (readDigits text fuel pos value).1
        = pos + ((readDigits text fuel pos value).2.length - value.length) ∧
      value.length ≤ (readDigits text fuel pos value).2.length := by
  intro fuel
  induction fuel with
  | zero =>
    intro pos value h
    simp only [readDigits]
    exact ⟨h, by omega, Nat.le_refl _⟩
  | succ fuel ih =>
    intro pos value h
    simp only [readDigits]
    by_cases hc : charIsDigit (charAt text pos) = true
    · rw [if_pos hc]
      have hne : pos ≠ L := by
        intro e
        rw [e, hL.1] at hc
        exact absurd hc (by decide)
      obtain ⟨h1, h2, h3⟩ := ih (pos + 1) (value ++ [charAt text pos]) (by omega)
      simp only [List.length_append, List.length_singleton] at h2 h3
      exact ⟨h1, by omega, by omega⟩
    · rw [if_neg hc]
      exact ⟨h, by simp, Nat.le_refl _⟩

/-- The `switch` builds the `EOF` token for the NUL byte and for no other. -/
theorem switchToken_eof_iff (c : Nat) :
    (switchToken c).type = TokenType.TOKEN_EOF ↔ c = 0 := by
  unfold switchToken
  constructor
  · intro h
    by_contra h0
    split_ifs at h
  · intro h
    subst h
    rfl

/-- One call of `generateNextToken` with the cursor at or before the NUL: the
cursor moves forwards; it stops at or before the NUL when the token is not
`EOF`, and one past the NUL when it is; no byte after the NUL is read. -/
theorem gen_progress (text : List Nat) (len L pos : Nat) (hL : FirstNul text L)
    (hpos : pos ≤ L) :
    lastIndexRead (Lexer.mk (String.mk text len) pos) ≤ L ∧
    ∀ t l1, generateNextToken (Lexer.mk (String.mk text len) pos) = Except.ok (t, l1) →
      l1.str = String.mk text len ∧ pos < l1.pos ∧ l1.pos ≤ L + 1 ∧
      (t.type ≠ TokenType.TOKEN_EOF → l1.pos ≤ L) ∧
      (t.type = TokenType.TOKEN_EOF → l1.pos = L + 1) := by
  obtain ⟨s1, s2⟩ := skipSpaces_bounds text L hL text.length pos hpos
  obtain ⟨d1, d2, d3⟩ := readDigits_bounds text L hL text.length
    (skipSpaces text text.length pos) [] s2
  refine ⟨d1, ?_⟩
  intro t l1 h
  unfold generateNextToken at h
  simp only at h
  simp only [List.length_nil, Nat.sub_zero] at d2
  split at h
  · rename_i hlen
    split at h
    · exact absurd h (by simp)
    · split at h
      · exact absurd h (by simp)
      · split at h
        · exact absurd h (by simp)
        · simp only [Except.ok.injEq, Prod.mk.injEq] at h
          obtain ⟨ht, hl⟩ := h
          subst ht hl
          refine ⟨rfl, ?_, ?_, fun _ => d1, fun hh => by cases hh⟩
          · show pos < (readDigits text text.length (skipSpaces text text.length pos) []).1
            omega
          · show (readDigits text text.length (skipSpaces text text.length pos) []).1 ≤ L + 1
            omega
  · rename_i hlen
    simp only [Except.ok.injEq, Prod.mk.injEq] at h
    obtain ⟨ht, hl⟩ := h
    subst ht hl
    have hz : (readDigits text text.length (skipSpaces text text.length pos) []).1
        = skipSpaces text text.length pos := by omega
    refine ⟨rfl, ?_, ?_, ?_, ?_⟩
    · show pos < (readDigits text text.length (skipSpaces text text.length pos) []).1 + 1
      omega
    · show (readDigits text text.length (skipSpaces text text.length pos) []).1 + 1 ≤ L + 1
      omega
    · intro hne
      show (readDigits text text.length (skipSpaces text text.length pos) []).1 + 1 ≤ L
      have hc : charAt text (readDigits text text.length (skipSpaces text text.length pos) []).1
          ≠ 0 := fun h0 => hne ((switchToken_eof_iff _).2 h0)
      have : (readDigits text text.length (skipSpaces text text.length pos) []).1 ≠ L := by
        intro e
        rw [e] at hc
        exact hc hL.1
      omega
    · intro he
      show (readDigits text text.length (skipSpaces text text.length pos) []).1 + 1 = L + 1
      have hc := (switchToken_eof_iff _).1 he
      have : ¬ (readDigits text text.length (skipSpaces text text.length pos) []).1 < L :=
        fun hlt => hL.2 _ hlt hc
      omega

/-! ## Parser on runs of number tokens -/

/-- The loop of `parseNumber` over the `NUMBER` tokens of an atom: every token
overwrites the node, so the node ends with the last payload. -/
theorem parseNumberLoop_run {F D : Type} (A : Arith F D) (ptr : Nat) (hptr : ptr ≠ 0)
    (t : Token) (ts : List Token) (ht : t.type ≠ TokenType.TOKEN_NUMBER)
    (more : List Int) :
    ∀ (fuel : Nat) (first : Int) (node : ASTNode F) (l : Lexer) (token : Token),
      token = numberToken first → Lexes l (moreTokens more ++ t :: ts) →
      more.length + 2 ≤ fuel →
      ∃ l1, parseNumberLoop A ptr fuel node l token
          = Except.ok (ASTNode.number (A.intToFloat (atomValue (first, more))), l1, t) ∧
        Lexes l1 ts := by
  induction more with
  | nil =>
    intro fuel first node l token htok hlex hfuel
    obtain ⟨f, rfl⟩ : ∃ f, fuel = f + 2 := ⟨fuel - 2, by simp at hfuel; omega⟩
    obtain ⟨l1, hgen, hrest⟩ := hlex
    refine ⟨l1, ?_, hrest⟩
    simp only [parseNumberLoop, htok, numberToken, if_true, if_neg hptr, hgen, if_neg ht,
      Token.number, atomValue, List.getLastD]
  | cons y ys ih =>
    intro fuel first node l token htok hlex hfuel
    obtain ⟨f, rfl⟩ : ∃ f, fuel = f + 1 := ⟨fuel - 1, by simp at hfuel; omega⟩
    obtain ⟨l1, hgen, hrest⟩ := hlex
    obtain ⟨l2, hloop, hlex2⟩ := ih f y (ASTNode.number (A.intToFloat first)) l1
      (numberToken y) rfl hrest (by simp only [List.length_cons] at hfuel; omega)
    refine ⟨l2, ?_, hlex2⟩
    simp only [parseNumberLoop, htok, numberToken, if_true, if_neg hptr, Token.number]
    simp only [hgen]
    have hv : atomValue (first, y :: ys) = atomValue (y, ys) := by
      simp only [atomValue, List.getLastD_cons]
    rw [hv]
    exact hloop

/-- Behaviour of `parseNumber` on an atom followed by a token of another kind:
one node is allocated, and it is the number node of the atom's last payload. -/
theorem parseNumber_run_spec {F D : Type} (A : Arith F D) (fresh : Nat → ASTNode F)
    (fuel : Nat) (s : Parser) (a : Atom) (t : Token) (ts : List Token) (k : Nat)
    (hfeed : Feeds s (numberToken a.1 :: (moreTokens a.2 ++ t :: ts)))
    (ht : t.type ≠ TokenType.TOKEN_NUMBER)
    (hroom : Room s.arena (k + 1)) (hfuel : a.2.length + 2 ≤ fuel) :
    ∃ s1, parseNumber A fresh fuel s
        = Except.ok (ASTNode.number (A.intToFloat (atomValue a)), s1) ∧
      Feeds s1 (t :: ts) ∧ Room s1.arena k ∧
      s1.arena = (arenaAlloc s.arena sizeofASTNode).2 := by
  obtain ⟨htok, hlex⟩ := hfeed
  obtain ⟨hp, hr⟩ := room_alloc s.arena k hroom
  obtain ⟨l1, hloop, hlex1⟩ := parseNumberLoop_run A (arenaAlloc s.arena sizeofASTNode).1 hp
    t ts ht a.2 fuel a.1
    (if (arenaAlloc s.arena sizeofASTNode).1 = 0 then ASTNode.null
      else fresh (arenaAlloc s.arena sizeofASTNode).1) s.l s.token htok hlex hfuel
  refine ⟨Parser.mk (arenaAlloc s.arena sizeofASTNode).2 l1 t, ?_, ⟨rfl, hlex1⟩, hr, rfl⟩
  unfold parseNumber
  simp only [hloop]

/-- The first token of `factorRunTokens fs ++ tEnd :: rest` is not a `NUMBER`. -/
theorem factorRunTokens_head (fs : List (TokenType × Atom)) (tEnd : Token)
    (rest : List Token)
    (hfs : ∀ p ∈ fs, p.1 = TokenType.TOKEN_STAR ∨ p.1 = TokenType.TOKEN_SLASH)
    (hend : tEnd.type ≠ TokenType.TOKEN_NUMBER) :
    ∃ t ts, factorRunTokens fs ++ tEnd :: rest = t :: ts ∧
      t.type ≠ TokenType.TOKEN_NUMBER := by
  cases fs with
  | nil => exact ⟨tEnd, rest, rfl, hend⟩
  | cons p fs =>
    obtain ⟨op, a⟩ := p
    refine ⟨operatorToken op, _, rfl, ?_⟩
    rcases hfs (op, a) (List.mem_cons_self _ _) with h | h <;>
      · simp only at h
        subst h
        decide

/-- The loop of `parseFactor` on `(('*' | '/') NUMBER+)*` followed by a token that
is neither a number nor `*` nor `/`: the tree is that of the stream in which
every atom is its last number. -/
theorem parseFactorLoop_runs_spec {F D : Type} (A : Arith F D) (fresh : Nat → ASTNode F)
    (inner : Nat) (tEnd : Token) (rest : List Token)
    (hn : tEnd.type ≠ TokenType.TOKEN_NUMBER) (hs : tEnd.type ≠ TokenType.TOKEN_STAR)
    (hd : tEnd.type ≠ TokenType.TOKEN_SLASH) (j : Nat) (fs : List (TokenType × Atom)) :
    ∀ (fuel : Nat) (left : ASTNode F) (s : Parser),
      (∀ p ∈ fs, p.1 = TokenType.TOKEN_STAR ∨ p.1 = TokenType.TOKEN_SLASH) →
      (∀ p ∈ fs, p.2.2.length + 2 ≤ inner) →
      Feeds s (factorRunTokens fs ++ tEnd :: rest) →
      Room s.arena (2 * fs.length + j) → fs.length < fuel →
      ∃ s1, parseFactorLoop A fresh inner fuel left s
          = Except.ok (factorTree A left (factorLast fs), s1) ∧
        Feeds s1 (tEnd :: rest) ∧ Room s1.arena j := by
  induction fs with
  | nil =>
    intro fuel left s _ _ hfeed hroom hfuel
    obtain ⟨f, rfl⟩ : ∃ f, fuel = f + 1 := ⟨fuel - 1, by omega⟩
    refine ⟨s, ?_, hfeed, by simpa using hroom⟩
    have htok : s.token = tEnd := hfeed.1
    simp only [parseFactorLoop, htok, factorTree, factorLast, List.map_nil]
    rw [if_neg (by simp [hs, hd])]
  | cons p fs ih =>
    intro fuel left s hfs hin hfeed hroom hfuel
    obtain ⟨op, a⟩ := p
    obtain ⟨f, rfl⟩ : ∃ f, fuel = f + 1 := ⟨fuel - 1, by omega⟩
    have hop : op = TokenType.TOKEN_STAR ∨ op = TokenType.TOKEN_SLASH :=
      hfs (op, a) (List.mem_cons_self _ _)
    obtain ⟨htok, l1, hgen, hlex⟩ := hfeed
    have htype : s.token.type = op := by rw [htok]; exact operatorToken_type op
    have hroom1 : Room s.arena ((2 * fs.length + j + 1) + 1) := by
      refine room_mono _ _ _ hroom ?_
      simp only [List.length_cons]; omega
    obtain ⟨hp, hr⟩ := room_alloc s.arena _ hroom1
    obtain ⟨t, ts, hts, htn⟩ := factorRunTokens_head fs tEnd rest
      (fun q hq => hfs q (List.mem_cons_of_mem _ hq)) hn
    have hfeed1 : Feeds (Parser.mk (arenaAlloc s.arena sizeofASTNode).2 l1 (numberToken a.1))
        (numberToken a.1 :: (moreTokens a.2 ++ t :: ts)) := by
      refine ⟨rfl, ?_⟩
      rw [← hts, ← List.append_assoc]; exact hlex
    obtain ⟨s1, hpn, hfeed2, hroom2, _⟩ := parseNumber_run_spec A fresh inner _ a t ts
      (2 * fs.length + j) hfeed1 htn hr (hin (op, a) (List.mem_cons_self _ _))
    rw [← hts] at hfeed2
    obtain ⟨s2, hloop, hfeed3, hroom3⟩ := ih f
      (ASTNode.operation left (ASTNode.number (A.intToFloat (atomValue a))) op) s1
      (fun q hq => hfs q (List.mem_cons_of_mem _ hq))
      (fun q hq => hin q (List.mem_cons_of_mem _ hq)) hfeed2 hroom2
      (by simp only [List.length_cons] at hfuel; omega)
    refine ⟨s2, ?_, hfeed3, hroom3⟩
    simp only [parseFactorLoop, htype, factorTree, factorLast, List.map_cons]
    rw [if_pos hop, if_neg hp]
    simp only [hgen, hpn]
    exact hloop

/-- Behaviour of `parseFactor` on `NUMBER+ (('*' | '/') NUMBER+)*`. -/
theorem parseFactor_runs_spec {F D : Type} (A : Arith F D) (fresh : Nat → ASTNode F)
    (fuel : Nat) (tEnd : Token) (rest : List Token)
    (hn : tEnd.type ≠ TokenType.TOKEN_NUMBER) (hs : tEnd.type ≠ TokenType.TOKEN_STAR)
    (hd : tEnd.type ≠ TokenType.TOKEN_SLASH) (j : Nat) (a : Atom)
    (fs : List (TokenType × Atom)) (s : Parser)
    (hfs : ∀ p ∈ fs, p.1 = TokenType.TOKEN_STAR ∨ p.1 = TokenType.TOKEN_SLASH)
    (hin : ∀ p ∈ fs, p.2.2.length + 2 ≤ fuel) (ha : a.2.length + 2 ≤ fuel)
    (hfeed : Feeds s (numberToken a.1 :: (moreTokens a.2 ++ (factorRunTokens fs ++ tEnd :: rest))))
    (hroom : Room s.arena (1 + 2 * fs.length + j)) (hfuel : fs.length < fuel) :
    ∃ s1, parseFactor A fresh fuel s
        = Except.ok (factorTree A (ASTNode.number (A.intToFloat (atomValue a)))
            (factorLast fs), s1) ∧
      Feeds s1 (tEnd :: rest) ∧ Room s1.arena j := by
  obtain ⟨t, ts, hts, htn⟩ := factorRunTokens_head fs tEnd rest hfs hn
  rw [hts] at hfeed
  obtain ⟨s1, hpn, hfeed1, hroom1, _⟩ := parseNumber_run_spec A fresh fuel s a t ts
    (2 * fs.length + j) hfeed htn (room_mono _ _ _ hroom (by omega)) ha
  rw [← hts] at hfeed1
  obtain ⟨s2, hloop, hfeed2, hroom2⟩ := parseFactorLoop_runs_spec A fresh fuel tEnd rest
    hn hs hd j fs fuel (ASTNode.number (A.intToFloat (atomValue a))) s1 hfs hin hfeed1 hroom1
    hfuel
  refine ⟨s2, ?_, hfeed2, hroom2⟩
  unfold parseFactor
  simp only [hpn]
  exact hloop

/-- The first token of `expressionRunTokens es ++ tEnd :: rest` is neither a
`NUMBER` nor `*` nor `/`. -/
theorem expressionRunTokens_head (es : List (TokenType × Atom × List (TokenType × Atom)))
    (tEnd : Token) (rest : List Token)
    (hes : ∀ e ∈ es, e.1 = TokenType.TOKEN_PLUS ∨ e.1 = TokenType.TOKEN_MINUS)
    (hn : tEnd.type ≠ TokenType.TOKEN_NUMBER) (hs : tEnd.type ≠ TokenType.TOKEN_STAR)
    (hd : tEnd.type ≠ TokenType.TOKEN_SLASH) :
    ∃ t ts, expressionRunTokens es ++ tEnd :: rest = t :: ts ∧
      t.type ≠ TokenType.TOKEN_NUMBER ∧ t.type ≠ TokenType.TOKEN_STAR ∧
      t.type ≠ TokenType.TOKEN_SLASH := by
  cases es with
  | nil => exact ⟨tEnd, rest, rfl, hn, hs, hd⟩
  | cons e es =>
    obtain ⟨op, a, fs⟩ := e
    refine ⟨operatorToken op, _, rfl, ?_⟩
    rcases hes (op, a, fs) (List.mem_cons_self _ _) with h | h <;>
      · simp only at h
        subst h
        decide

/-- The loop of `parseExpression` on `(('+' | '-') factor)*` over atoms, followed
by a token that is neither a number nor an operator. -/
theorem parseExpressionLoop_runs_spec {F D : Type} (A : Arith F D)
    (fresh : Nat → ASTNode F) (inner : Nat) (tEnd : Token) (rest : List Token)
    (hn : tEnd.type ≠ TokenType.TOKEN_NUMBER) (hs : tEnd.type ≠ TokenType.TOKEN_STAR)
    (hd : tEnd.type ≠ TokenType.TOKEN_SLASH) (hp : tEnd.type ≠ TokenType.TOKEN_PLUS)
    (hm : tEnd.type ≠ TokenType.TOKEN_MINUS) (j : Nat)
    (es : List (TokenType × Atom × List (TokenType × Atom))) :
    ∀ (fuel : Nat) (left : ASTNode F) (s : Parser),
      (∀ e ∈ es, e.1 = TokenType.TOKEN_PLUS ∨ e.1 = TokenType.TOKEN_MINUS) →
      (∀ e ∈ es, ∀ p ∈ e.2.2, p.1 = TokenType.TOKEN_STAR ∨ p.1 = TokenType.TOKEN_SLASH) →
      (∀ e ∈ es, e.2.2.length < inner) →
      (∀ e ∈ es, e.2.1.2.length + 2 ≤ inner) →
      (∀ e ∈ es, ∀ p ∈ e.2.2, p.2.2.length + 2 ≤ inner) →
      Feeds s (expressionRunTokens es ++ tEnd :: rest) →
      Room s.arena (expressionRunNodes es + j) → es.length < fuel →
      ∃ s1, parseExpressionLoop A fresh inner fuel left s
          = Except.ok (expressionTree A left (expressionLast es), s1) ∧
        Feeds s1 (tEnd :: rest) ∧ Room s1.arena j := by
  induction es with
  | nil =>
    intro fuel left s _ _ _ _ _ hfeed hroom hfuel
    obtain ⟨f, rfl⟩ : ∃ f, fuel = f + 1 := ⟨fuel - 1, by omega⟩
    refine ⟨s, ?_, hfeed, by simpa [expressionRunNodes] using hroom⟩
    have htok : s.token = tEnd := hfeed.1
    simp only [parseExpressionLoop, htok, expressionTree, expressionLast, List.map_nil]
    rw [if_neg (by simp [hp, hm])]
  | cons e es ih =>
    intro fuel left s hes hfs hlen hin1 hin2 hfeed hroom hfuel
    obtain ⟨op, a, fs⟩ := e
    obtain ⟨f, rfl⟩ : ∃ f, fuel = f + 1 := ⟨fuel - 1, by omega⟩
    have hop : op = TokenType.TOKEN_PLUS ∨ op = TokenType.TOKEN_MINUS :=
      hes (op, a, fs) (List.mem_cons_self _ _)
    obtain ⟨htok, l1, hgen, hlex⟩ := hfeed
    have htype : s.token.type = op := by rw [htok]; exact operatorToken_type op
    have hroom1 : Room s.arena ((1 + 2 * fs.length + (expressionRunNodes es + j)) + 1) := by
      refine room_mono _ _ _ hroom ?_
      simp only [expressionRunNodes]; omega
    obtain ⟨hpt, hr⟩ := room_alloc s.arena _ hroom1
    obtain ⟨t, ts, hts, htn, hts2, htd⟩ := expressionRunTokens_head es tEnd rest
      (fun q hq => hes q (List.mem_cons_of_mem _ hq)) hn hs hd
    have hfeed1 : Feeds (Parser.mk (arenaAlloc s.arena sizeofASTNode).2 l1 (numberToken a.1))
        (numberToken a.1 :: (moreTokens a.2 ++ (factorRunTokens fs ++ t :: ts))) := by
      refine ⟨rfl, ?_⟩
      have h : Lexes l1 ((moreTokens a.2 ++ (factorRunTokens fs ++ expressionRunTokens es))
          ++ (tEnd :: rest)) := hlex
      rw [List.append_assoc, List.append_assoc] at h
      rw [← hts]
      exact h
    obtain ⟨s1, hpf, hfeed2, hroom2⟩ := parseFactor_runs_spec A fresh inner t ts htn hts2 htd
      (expressionRunNodes es + j) a fs _
      (hfs (op, a, fs) (List.mem_cons_self _ _))
      (hin2 (op, a, fs) (List.mem_cons_self _ _))
      (hin1 (op, a, fs) (List.mem_cons_self _ _)) hfeed1 hr
      (hlen (op, a, fs) (List.mem_cons_self _ _))
    rw [← hts] at hfeed2
    obtain ⟨s2, hloop, hfeed3, hroom3⟩ := ih f
      (ASTNode.operation left
        (factorTree A (ASTNode.number (A.intToFloat (atomValue a))) (factorLast fs)) op) s1
      (fun q hq => hes q (List.mem_cons_of_mem _ hq))
      (fun q hq => hfs q (List.mem_cons_of_mem _ hq))
      (fun q hq => hlen q (List.mem_cons_of_mem _ hq))
      (fun q hq => hin1 q (List.mem_cons_of_mem _ hq))
      (fun q hq => hin2 q (List.mem_cons_of_mem _ hq)) hfeed2 hroom2
      (by simp only [List.length_cons] at hfuel; omega)
    refine ⟨s2, ?_, hfeed3, hroom3⟩
    simp only [parseExpressionLoop, htype, expressionTree, expressionLast, List.map_cons]
    rw [if_pos hop, if_neg hpt]
    simp only [hgen, hpf]
    exact hloop

/-- Behaviour of `parseLine` on a line whose tokens are
`NUMBER+ (('*' | '/') NUMBER+)* (('+' | '-') NUMBER+ (('*' | '/') NUMBER+)*)*`
followed by a token that is neither a number nor an operator: the tree is the
one of the line in which every run of numbers is its last number. -/
theorem parseLine_runs_spec {F D : Type} (A : Arith F D) (fresh : Nat → ASTNode F)
    (arena : Arena) (line : String) (a : Atom) (fs : List (TokenType × Atom))
    (es : List (TokenType × Atom × List (TokenType × Atom))) (tEnd : Token)
    (rest : List Token) (j : Nat)
    (hn : tEnd.type ≠ TokenType.TOKEN_NUMBER) (hs : tEnd.type ≠ TokenType.TOKEN_STAR)
    (hd : tEnd.type ≠ TokenType.TOKEN_SLASH) (hp : tEnd.type ≠ TokenType.TOKEN_PLUS)
    (hm : tEnd.type ≠ TokenType.TOKEN_MINUS)
    (hfs : ∀ p ∈ fs, p.1 = TokenType.TOKEN_STAR ∨ p.1 = TokenType.TOKEN_SLASH)
    (hes : ∀ e ∈ es, e.1 = TokenType.TOKEN_PLUS ∨ e.1 = TokenType.TOKEN_MINUS)
    (hefs : ∀ e ∈ es, ∀ p ∈ e.2.2, p.1 = TokenType.TOKEN_STAR ∨ p.1 = TokenType.TOKEN_SLASH)
    (hlex : Lexes (Lexer.mk line 0)
      (numberToken a.1 :: (moreTokens a.2 ++
        (factorRunTokens fs ++ (expressionRunTokens es ++ tEnd :: rest)))))
    (hroom : Room arena (2 + 2 * fs.length + expressionRunNodes es + j))
    (hlen1 : fs.length < line.text.length + 2)
    (hlen2 : ∀ e ∈ es, e.2.2.length < line.text.length + 2)
    (hlen3 : es.length < line.text.length + 2)
    (hrun1 : a.2.length ≤ line.text.length)
    (hrun2 : ∀ p ∈ fs, p.2.2.length ≤ line.text.length)
    (hrun3 : ∀ e ∈ es, e.2.1.2.length ≤ line.text.length)
    (hrun4 : ∀ e ∈ es, ∀ p ∈ e.2.2, p.2.2.length ≤ line.text.length) :
    ∃ s1, parseLine A fresh arena line
        = Except.ok (expressionTree A
            (factorTree A (ASTNode.number (A.intToFloat (atomValue a))) (factorLast fs))
            (expressionLast es), s1) ∧
      Feeds s1 (tEnd :: rest) ∧ Room s1.arena j := by
  obtain ⟨l1, hgen, hlex1⟩ := hlex
  obtain ⟨_, hr⟩ := room_alloc arena (1 + 2 * fs.length + (expressionRunNodes es + j))
    (room_mono _ _ _ hroom (by omega))
  obtain ⟨t, ts, hts, htn, hts2, htd⟩ := expressionRunTokens_head es tEnd rest hes hn hs hd
  have hfeed : Feeds (Parser.mk (arenaAlloc arena sizeofASTNode).2 l1 (numberToken a.1))
      (numberToken a.1 :: (moreTokens a.2 ++ (factorRunTokens fs ++ t :: ts))) := by
    refine ⟨rfl, ?_⟩
    rw [← hts]; exact hlex1
  obtain ⟨s1, hpf, hfeed1, hroom1⟩ := parseFactor_runs_spec A fresh (line.text.length + 2)
    t ts htn hts2 htd (expressionRunNodes es + j) a fs _ hfs
    (fun p hp => by have := hrun2 p hp; omega) (by omega) hfeed hr hlen1
  rw [← hts] at hfeed1
  obtain ⟨s2, hloop, hfeed2, hroom2⟩ := parseExpressionLoop_runs_spec A fresh
    (line.text.length + 2) tEnd rest hn hs hd hp hm j es
    (line.text.length + 2) _ s1 hes hefs hlen2
    (fun e he => by have := hrun3 e he; omega)
    (fun e he p hp => by have := hrun4 e he p hp; omega) hfeed1 hroom1 hlen3
  refine ⟨s2, ?_, hfeed2, hroom2⟩
  unfold parseLine parseExpression
  simp only [hgen, hpf]
  exact hloop

/-! ## Lexer on a list of lexemes -/

/-- The bytes of a text from a position on start with the given number of spaces. -/
theorem segAt_replicate (text : List Nat) (pos k : Nat) (seg : List Nat)
    (h : SegAt text pos (List.replicate k 32 ++ seg)) :
    SegAt text pos (List.replicate k 32) ∧ SegAt text (pos + k) seg := by
  have h2 := segAt_append text pos _ _ h
  rw [List.length_replicate] at h2
  exact h2

/-- The byte that follows a literal in a separated list is not a digit. -/
theorem startsOff_head (text : List Nat) (pos : Nat) (xs : List (Nat × Lexeme))
    (hseg : SegAt text pos (sourceBytes xs)) (hval : ∀ x ∈ xs, x.2.Valid)
    (hoff : StartsOff xs) : charIsDigit (charAt text pos) = false := by
  cases xs with
  | nil => exact absurd hoff (by simp [StartsOff])
  | cons x xs =>
    obtain ⟨k, x⟩ := x
    cases x with
    | literal ds =>
      have hk : 0 < k := hoff
      obtain ⟨k1, rfl⟩ : ∃ k1, k = k1 + 1 := ⟨k - 1, by omega⟩
      have h0 := hseg 0 (by simp [sourceBytes, List.replicate_succ])
      simp only [sourceBytes, List.replicate_succ, List.cons_append, Nat.add_zero] at h0
      rw [h0]
      rfl
    | symbol c =>
      have hv : c ≠ 32 ∧ charIsDigit c = false := hval (k, Lexeme.symbol c)
        (List.mem_cons_self _ _)
      cases k with
      | zero =>
        have h0 := hseg 0 (by simp [sourceBytes, Lexeme.bytes])
        simp only [sourceBytes, Lexeme.bytes, List.replicate_zero, List.nil_append,
          List.cons_append, Nat.add_zero] at h0
        rw [h0]
        exact hv.2
      | succ k1 =>
        have h0 := hseg 0 (by simp [sourceBytes, List.replicate_succ])
        simp only [sourceBytes, List.replicate_succ, List.cons_append, Nat.add_zero] at h0
        rw [h0]
        rfl

/-- The lexer on the bytes of a separated list of valid lexemes produces the
tokens of the lexemes, in order. -/
theorem lexes_source (text : List Nat) (len : Nat) (xs : List (Nat × Lexeme)) :
    ∀ pos, SegAt text pos (sourceBytes xs) → (∀ x ∈ xs, x.2.Valid) → Separated xs →
      Lexes (Lexer.mk (String.mk text len) pos) (sourceTokens xs) := by
  induction xs with
  | nil => intro _ _ _ _; trivial
  | cons x xs ih =>
    intro pos hseg hval hsep
    obtain ⟨k, x⟩ := x
    have hsp : ∀ c ∈ List.replicate k 32, c = 32 := fun c hc => (List.mem_replicate.1 hc).2
    cases x with
    | literal ds =>
      obtain ⟨hne, hds, hlen, hv⟩ : IsLiteral ds := hval (k, Lexeme.literal ds)
        (List.mem_cons_self _ _)
      obtain ⟨hoff, hsep1⟩ : StartsOff xs ∧ Separated xs := hsep
      have hseg0 : SegAt text pos ((List.replicate k 32 ++ ds) ++ sourceBytes xs) := by
        rw [List.append_assoc]; exact hseg
      obtain ⟨h1, h2⟩ := segAt_append text pos _ _ hseg0
      rw [List.length_append, List.length_replicate, ← Nat.add_assoc] at h2
      have hend := startsOff_head text (pos + k + ds.length) xs h2
        (fun y hy => hval y (List.mem_cons_of_mem _ hy)) hoff
      have hgen := gen_number text len pos (List.replicate k 32) ds h1 hsp hds hne
        (by rw [List.length_replicate]; exact hend) hlen hv
      rw [List.length_replicate] at hgen
      exact ⟨_, hgen, ih _ h2 (fun y hy => hval y (List.mem_cons_of_mem _ hy)) hsep1⟩
    | symbol c =>
      have hv : c ≠ 32 ∧ charIsDigit c = false := hval (k, Lexeme.symbol c)
        (List.mem_cons_self _ _)
      have hsep1 : Separated xs := hsep
      obtain ⟨h1, h2⟩ := segAt_replicate text pos k _ hseg
      obtain ⟨hc, h3⟩ := segAt_cons text (pos + k) c (sourceBytes xs) h2
      have hgen := gen_single text len pos (List.replicate k 32) h1 hsp
        (by rw [List.length_replicate, hc]; exact hv.1)
        (by rw [List.length_replicate, hc]; exact hv.2)
      rw [List.length_replicate, hc] at hgen
      exact ⟨_, hgen, ih _ h3 (fun y hy => hval y (List.mem_cons_of_mem _ hy)) hsep1⟩

/-- The lexer on a line made of a separated list of valid lexemes that ends
with the NUL. -/
theorem lexes_line (bytes : List Nat) (xs : List (Nat × Lexeme))
    (hbytes : bytes ++ [0] = sourceBytes xs) (hval : ∀ x ∈ xs, x.2.Valid)
    (hsep : Separated xs) :
    Lexes (Lexer.mk (lineOfBytes bytes) 0) (sourceTokens xs) := by
  have h := lexes_source (bytes ++ [0]) bytes.length xs 0
    (by rw [← hbytes]; exact segAt_whole _) hval hsep
  exact h

theorem sourceBytes_append (xs ys : List (Nat × Lexeme)) :
    sourceBytes (xs ++ ys) = sourceBytes xs ++ sourceBytes ys := by
  induction xs with
  | nil => rfl
  | cons x xs ih =>
    obtain ⟨k, x⟩ := x
    simp only [List.cons_append, sourceBytes, List.append_eq, ih, List.append_assoc]

/-- The tokens of a run followed by further lexemes. -/
theorem sourceTokens_run (k : Nat) (d : List Nat) (more : List (Nat × List Nat))
    (rest : List (Nat × Lexeme)) :
    sourceTokens (runLexemes k d more ++ rest)
      = numberToken (runAtom d more).1 :: (moreTokens (runAtom d more).2 ++ sourceTokens rest) := by
  simp [sourceTokens, runLexemes, runAtom, moreTokens, Lexeme.token, Function.comp_def]

/-- A run followed by a separated list that starts off a digit is separated. -/
theorem separated_run (d : List Nat) (more : List (Nat × List Nat))
    (rest : List (Nat × Lexeme)) (hoff : StartsOff rest) (hsep : Separated rest) :
    ∀ k, Separated (runLexemes k d more ++ rest) := by
  induction more generalizing d with
  | nil => intro k; exact ⟨hoff, hsep⟩
  | cons m more ih =>
    intro k
    refine ⟨?_, ih m.2 (m.1 + 1)⟩
    show 0 < m.1 + 1
    omega

/-- The lexemes of a run of accepted literals are valid. -/
theorem valid_run (k : Nat) (d : List Nat) (more : List (Nat × List Nat))
    (hd : IsLiteral d) (hmore : ∀ m ∈ more, IsLiteral m.2) :
    ∀ x ∈ runLexemes k d more, x.2.Valid := by
  intro x hx
  simp only [runLexemes, List.mem_cons, List.mem_map] at hx
  rcases hx with rfl | ⟨m, hm, rfl⟩
  · exact hd
  · exact hmore m hm

/-- A run has at least as many bytes as it has literals after the first. -/
theorem run_length_le (k : Nat) (d : List Nat) (more : List (Nat × List Nat)) :
    more.length ≤ (sourceBytes (runLexemes k d more)).length := by
  have h : ∀ (ms : List (Nat × List Nat)),
      ms.length ≤ (sourceBytes (ms.map (fun m => (m.1 + 1, Lexeme.literal m.2)))).length := by
    intro ms
    induction ms with
    | nil => simp
    | cons m ms ih =>
      simp only [List.map_cons, sourceBytes, List.length_cons, List.length_append,
        List.length_replicate]
      omega
  have := h more
  simp only [runLexemes, sourceBytes, List.length_append]
  omega

/-- The loop of `parseFactor` ends at once at a token that is not `*` or `/`. -/
theorem parseFactorLoop_stop {F D : Type} (A : Arith F D) (fresh : Nat → ASTNode F)
    (inner fuel : Nat) (left : ASTNode F) (s : Parser)
    (hs : s.token.type ≠ TokenType.TOKEN_STAR) (hd : s.token.type ≠ TokenType.TOKEN_SLASH) :
    parseFactorLoop A fresh inner (fuel + 1) left s = Except.ok (left, s) := by
  simp only [parseFactorLoop]
  rw [if_neg (by simp [hs, hd])]

/-- The loop of `parseExpression` ends at once at a token that is not `+` or `-`. -/
theorem parseExpressionLoop_stop {F D : Type} (A : Arith F D) (fresh : Nat → ASTNode F)
    (inner fuel : Nat) (left : ASTNode F) (s : Parser)
    (hp : s.token.type ≠ TokenType.TOKEN_PLUS) (hm : s.token.type ≠ TokenType.TOKEN_MINUS) :
    parseExpressionLoop A fresh inner (fuel + 1) left s = Except.ok (left, s) := by
  simp only [parseExpressionLoop]
  rw [if_neg (by simp [hp, hm])]

/-- The line that is one run of literals: `parseLine` returns one number node,
holding the last literal, and has allocated the unused root and that node. -/
theorem parseLine_single_run {F D : Type} (A : Arith F D) (fresh : Nat → ASTNode F)
    (arena : Arena) (d : List Nat) (more : List (Nat × List Nat))
    (hd : IsLiteral d) (hmore : ∀ m ∈ more, IsLiteral m.2) (hroom : Room arena 2) :
    ∃ s, parseLine A fresh arena (lineOfBytes (sourceBytes (runLexemes 0 d more)))
        = Except.ok (ASTNode.number (A.intToFloat (atomValue (runAtom d more))), s) ∧
      s.arena = (arenaAlloc (arenaAlloc arena sizeofASTNode).2 sizeofASTNode).2 ∧
      s.token = switchToken 0 := by
  have hlex := lexes_line (sourceBytes (runLexemes 0 d more))
    (runLexemes 0 d more ++ [(0, Lexeme.symbol 0)])
    (by rw [sourceBytes_append]; rfl)
    (by
      intro x hx
      rcases List.mem_append.1 hx with h | h
      · exact valid_run 0 d more hd hmore x h
      · simp only [List.mem_singleton] at h
        subst h
        exact ⟨by decide, by decide⟩)
    (separated_run d more [(0, Lexeme.symbol 0)] trivial trivial 0)
  rw [sourceTokens_run] at hlex
  obtain ⟨l1, hgen, hlex1⟩ := hlex
  obtain ⟨_, hr⟩ := room_alloc arena 1 hroom
  have hfeed : Feeds (Parser.mk (arenaAlloc arena sizeofASTNode).2 l1
      (numberToken (runAtom d more).1))
      (numberToken (runAtom d more).1 :: (moreTokens (runAtom d more).2 ++ switchToken 0 :: [])) :=
    ⟨rfl, hlex1⟩
  have hlen : (runAtom d more).2.length ≤ (sourceBytes (runLexemes 0 d more)).length := by
    have := run_length_le 0 d more
    simpa [runAtom] using this
  obtain ⟨s1, hpn, hfeed1, _, harena⟩ := parseNumber_run_spec A fresh
    ((lineOfBytes (sourceBytes (runLexemes 0 d more))).text.length + 2) _ (runAtom d more)
    (switchToken 0) [] 0 hfeed (by decide) hr (by rw [lineOfBytes_length]; omega)
  have htok : s1.token = switchToken 0 := hfeed1.1
  refine ⟨s1, ?_, harena, htok⟩
  unfold parseLine parseExpression parseFactor
  simp only [hgen, hpn]
  rw [parseFactorLoop_stop A fresh _ _ _ s1 (by rw [htok]; decide) (by rw [htok]; decide)]
  simp only []
  rw [parseExpressionLoop_stop A fresh _ _ _ s1 (by rw [htok]; decide) (by rw [htok]; decide)]

/-- The line `run op run`: `parseLine` returns the operation node of the last
literal of each run. -/
theorem parseLine_two_runs {F D : Type} (A : Arith F D) (fresh : Nat → ASTNode F)
    (arena : Arena) (d e : List Nat) (more more2 : List (Nat × List Nat))
    (op : TokenType) (k1 k2 : Nat)
    (hd : IsLiteral d) (hmore : ∀ m ∈ more, IsLiteral m.2)
    (he : IsLiteral e) (hmore2 : ∀ m ∈ more2, IsLiteral m.2)
    (hop : op = TokenType.TOKEN_PLUS ∨ op = TokenType.TOKEN_MINUS ∨
      op = TokenType.TOKEN_STAR ∨ op = TokenType.TOKEN_SLASH)
    (hroom : Room arena 4) :
    ∃ s, parseLine A fresh arena (lineOfBytes (sourceBytes
          (runLexemes 0 d more ++ (k1, Lexeme.symbol (operatorByte op)) :: runLexemes k2 e more2)))
        = Except.ok (ASTNode.operation
            (ASTNode.number (A.intToFloat (atomValue (runAtom d more))))
            (ASTNode.number (A.intToFloat (atomValue (runAtom e more2)))) op, s) := by
  have hopv : operatorByte op ≠ 32 ∧ charIsDigit (operatorByte op) = false := by
    rcases hop with h | h | h | h <;> subst h <;> exact ⟨by decide, by decide⟩
  have hlex := lexes_line (sourceBytes
      (runLexemes 0 d more ++ (k1, Lexeme.symbol (operatorByte op)) :: runLexemes k2 e more2))
    (runLexemes 0 d more ++ ((k1, Lexeme.symbol (operatorByte op)) ::
      (runLexemes k2 e more2 ++ [(0, Lexeme.symbol 0)])))
    (by
      have h : runLexemes 0 d more ++ ((k1, Lexeme.symbol (operatorByte op)) ::
            (runLexemes k2 e more2 ++ [(0, Lexeme.symbol 0)]))
          = (runLexemes 0 d more ++ (k1, Lexeme.symbol (operatorByte op)) ::
            runLexemes k2 e more2) ++ [(0, Lexeme.symbol 0)] := by
        simp only [List.append_assoc, List.cons_append]
      rw [h, sourceBytes_append (runLexemes 0 d more ++ (k1, Lexeme.symbol (operatorByte op)) ::
            runLexemes k2 e more2) [(0, Lexeme.symbol 0)]]
      rfl)
    (by
      intro x hx
      rcases List.mem_append.1 hx with h | h
      · exact valid_run 0 d more hd hmore x h
      · rcases List.mem_cons.1 h with h | h
        · subst h
          exact hopv
        · rcases List.mem_append.1 h with h | h
          · exact valid_run k2 e more2 he hmore2 x h
          · simp only [List.mem_singleton] at h
            subst h
            exact ⟨by decide, by decide⟩)
    (separated_run d more
      ((k1, Lexeme.symbol (operatorByte op)) :: (runLexemes k2 e more2 ++ [(0, Lexeme.symbol 0)]))
      trivial
      (by
        have h := separated_run e more2 [(0, Lexeme.symbol 0)] trivial trivial k2
        exact h) 0)
  rw [sourceTokens_run] at hlex
  have htoks : sourceTokens ((k1, Lexeme.symbol (operatorByte op)) ::
        (runLexemes k2 e more2 ++ [(0, Lexeme.symbol 0)]))
      = operatorToken op :: numberToken (runAtom e more2).1 ::
          (moreTokens (runAtom e more2).2 ++ [switchToken 0]) := by
    have h1 : sourceTokens ((k1, Lexeme.symbol (operatorByte op)) ::
        (runLexemes k2 e more2 ++ [(0, Lexeme.symbol 0)]))
        = switchToken (operatorByte op) ::
          sourceTokens (runLexemes k2 e more2 ++ [(0, Lexeme.symbol 0)]) := rfl
    rw [h1, sourceTokens_run]
    have h2 : switchToken (operatorByte op) = operatorToken op := by
      rcases hop with h | h | h | h <;> subst h <;> rfl
    rw [h2]
    rfl
  rw [htoks] at hlex
  have hlenA : (runAtom d more).2.length = more.length := by simp [runAtom]
  have hlenB : (runAtom e more2).2.length = more2.length := by simp [runAtom]
  have hlen : more.length + more2.length + 1 ≤ (lineOfBytes (sourceBytes
        (runLexemes 0 d more ++ (k1, Lexeme.symbol (operatorByte op)) ::
          runLexemes k2 e more2))).text.length := by
    rw [lineOfBytes_length, sourceBytes_append]
    have h1 := run_length_le 0 d more
    have h2 := run_length_le k2 e more2
    simp only [List.length_append, sourceBytes, Lexeme.bytes, List.length_cons,
      List.length_replicate, List.length_nil] at h1 h2 ⊢
    omega
  by_cases hmul : op = TokenType.TOKEN_STAR ∨ op = TokenType.TOKEN_SLASH
  · obtain ⟨s1, hparse, _, _⟩ := parseLine_runs_spec A fresh arena _ (runAtom d more)
      [(op, runAtom e more2)] [] (switchToken 0) [] 0
      (by decide) (by decide) (by decide) (by decide) (by decide)
      (by intro p hp; simp only [List.mem_singleton] at hp; subst hp; exact hmul)
      (by intro p hp; simp at hp) (by intro p hp; simp at hp)
      (by simpa [factorRunTokens, expressionRunTokens] using hlex)
      (by simpa [expressionRunNodes] using hroom)
      (by simp) (by intro p hp; simp at hp) (by simp)
      (by rw [hlenA]; omega)
      (by intro p hp; simp only [List.mem_singleton] at hp; subst hp; simp only; rw [hlenB]; omega)
      (by intro p hp; simp at hp) (by intro p hp; simp at hp)
    exact ⟨s1, hparse⟩
  · have hadd : op = TokenType.TOKEN_PLUS ∨ op = TokenType.TOKEN_MINUS := by
      rcases hop with h | h | h | h
      · exact Or.inl h
      · exact Or.inr h
      · exact absurd (Or.inl h) hmul
      · exact absurd (Or.inr h) hmul
    obtain ⟨s1, hparse, _, _⟩ := parseLine_runs_spec A fresh arena _ (runAtom d more)
      [] [(op, runAtom e more2, [])] (switchToken 0) [] 0
      (by decide) (by decide) (by decide) (by decide) (by decide)
      (by intro p hp; simp at hp)
      (by intro p hp; simp only [List.mem_singleton] at hp; subst hp; exact hadd)
      (by intro p hp q hq; simp only [List.mem_singleton] at hp; subst hp; simp at hq)
      (by simpa [factorRunTokens, expressionRunTokens] using hlex)
      (by simpa [expressionRunNodes] using hroom)
      (by simp) (by intro p hp; simp only [List.mem_singleton] at hp; subst hp; simp) (by simp)
      (by rw [hlenA]; omega)
      (by intro p hp; simp at hp)
      (by intro p hp; simp only [List.mem_singleton] at hp; subst hp; simp only; rw [hlenB]; omega)
      (by intro p hp q hq; simp only [List.mem_singleton] at hp; subst hp; simp at hq)
    exact ⟨s1, hparse⟩

/-- The `float` nearest to `2 ^ 24 + 1` is `2 ^ 24`. -/
theorem floatOfInt_above : floatOfInt 16777217 = 16777216 := by
  unfold floatOfInt
  rw [if_neg (by decide)]
  have h4 : roundToFloat (16777217 : Int).natAbs = 16777216 := by decide
  rw [h4]
  norm_num

/-- The bytes of a run that is one literal. -/
theorem sourceBytes_single (ds : List Nat) : sourceBytes (runLexemes 0 ds []) = ds := by
  simp [sourceBytes, runLexemes, Lexeme.bytes]

/-- No `case` of the `switch` takes an unknown byte, so the token stays as
`Token token = {}` made it: type 0, which is `TOKEN_NUMBER`, and payload 0. -/
theorem switchToken_unknown (c : Nat) (hc : UnknownByte c) : switchToken c = numberToken 0 := by
  obtain ⟨_, _, h1, h2, h3, h4, h5, h6, h7⟩ := hc
  unfold switchToken
  rw [if_neg h1, if_neg h2, if_neg h3, if_neg h4, if_neg h5, if_neg h6, if_neg h7]
  rfl

/-- The line `d1 op d2 c d3` with `c` an unknown byte: the tokens after `op` are
the numbers `d2`, 0 and `d3`, one run, so the right operand is `d3`. -/
theorem parseLine_unknown_byte {F D : Type} (A : Arith F D) (fresh : Nat → ASTNode F)
    (arena : Arena) (c : Nat) (d1 d2 d3 : List Nat) (op : TokenType) (k1 k2 k3 k4 : Nat)
    (hc : UnknownByte c) (h1 : IsLiteral d1) (h2 : IsLiteral d2) (h3 : IsLiteral d3)
    (hop : op = TokenType.TOKEN_PLUS ∨ op = TokenType.TOKEN_MINUS ∨
      op = TokenType.TOKEN_STAR ∨ op = TokenType.TOKEN_SLASH)
    (hroom : Room arena 4) :
    ∃ s, parseLine A fresh arena (lineOfBytes (sourceBytes
          [(0, Lexeme.literal d1), (k1, Lexeme.symbol (operatorByte op)),
            (k2, Lexeme.literal d2), (k3, Lexeme.symbol c), (k4, Lexeme.literal d3)]))
        = Except.ok (ASTNode.operation
            (ASTNode.number (A.intToFloat (Int.ofNat (decimalValue d1))))
            (ASTNode.number (A.intToFloat (Int.ofNat (decimalValue d3)))) op, s) := by
  have hopv : operatorByte op ≠ 32 ∧ charIsDigit (operatorByte op) = false := by
    rcases hop with h | h | h | h <;> subst h <;> exact ⟨by decide, by decide⟩
  have hlex := lexes_line (sourceBytes
      [(0, Lexeme.literal d1), (k1, Lexeme.symbol (operatorByte op)),
        (k2, Lexeme.literal d2), (k3, Lexeme.symbol c), (k4, Lexeme.literal d3)])
    ([(0, Lexeme.literal d1), (k1, Lexeme.symbol (operatorByte op)),
        (k2, Lexeme.literal d2), (k3, Lexeme.symbol c), (k4, Lexeme.literal d3)]
      ++ [(0, Lexeme.symbol 0)])
    (by rw [sourceBytes_append]; rfl)
    (by
      intro x hx
      simp only [List.cons_append, List.nil_append, List.mem_cons, List.mem_singleton,
        List.not_mem_nil, or_false] at hx
      rcases hx with h | h | h | h | h | h <;> subst h
      · exact h1
      · exact hopv
      · exact h2
      · exact ⟨hc.1, hc.2.1⟩
      · exact h3
      · exact ⟨by decide, by decide⟩)
    (by simp [Separated, StartsOff])
  have hsw : switchToken (operatorByte op) = operatorToken op := by
    rcases hop with h | h | h | h <;> subst h <;> rfl
  have htoks : sourceTokens ([(0, Lexeme.literal d1), (k1, Lexeme.symbol (operatorByte op)),
        (k2, Lexeme.literal d2), (k3, Lexeme.symbol c), (k4, Lexeme.literal d3)]
        ++ [(0, Lexeme.symbol 0)])
      = [numberToken (Int.ofNat (decimalValue d1)), operatorToken op,
          numberToken (Int.ofNat (decimalValue d2)), numberToken 0,
          numberToken (Int.ofNat (decimalValue d3)), switchToken 0] := by
    rw [← hsw, ← switchToken_unknown c hc]
    rfl
  rw [htoks] at hlex
  have hlen : 3 ≤ (lineOfBytes (sourceBytes
      [(0, Lexeme.literal d1), (k1, Lexeme.symbol (operatorByte op)),
        (k2, Lexeme.literal d2), (k3, Lexeme.symbol c), (k4, Lexeme.literal d3)])).text.length := by
    rw [lineOfBytes_length]
    simp only [sourceBytes, Lexeme.bytes, List.length_append, List.length_cons,
      List.length_replicate, List.length_nil]
    omega
  by_cases hmul : op = TokenType.TOKEN_STAR ∨ op = TokenType.TOKEN_SLASH
  · obtain ⟨s1, hparse, _, _⟩ := parseLine_runs_spec A fresh arena _
      (Int.ofNat (decimalValue d1), [])
      [(op, (Int.ofNat (decimalValue d2), [0, Int.ofNat (decimalValue d3)]))] []
      (switchToken 0) [] 0
      (by decide) (by decide) (by decide) (by decide) (by decide)
      (by intro p hp; simp only [List.mem_singleton] at hp; subst hp; exact hmul)
      (by intro p hp; simp at hp) (by intro p hp; simp at hp)
      (by simpa [factorRunTokens, expressionRunTokens, moreTokens] using hlex)
      (by simpa [expressionRunNodes] using hroom)
      (by simp) (by intro p hp; simp at hp) (by simp)
      (by simp)
      (by
        intro p hp
        simp only [List.mem_singleton] at hp
        subst hp
        simp only [List.length_cons, List.length_nil]
        omega)
      (by intro p hp; simp at hp) (by intro p hp; simp at hp)
    exact ⟨s1, hparse⟩
  · have hadd : op = TokenType.TOKEN_PLUS ∨ op = TokenType.TOKEN_MINUS := by
      rcases hop with h | h | h | h
      · exact Or.inl h
      · exact Or.inr h
      · exact absurd (Or.inl h) hmul
      · exact absurd (Or.inr h) hmul
    obtain ⟨s1, hparse, _, _⟩ := parseLine_runs_spec A fresh arena _
      (Int.ofNat (decimalValue d1), [])
      [] [(op, (Int.ofNat (decimalValue d2), [0, Int.ofNat (decimalValue d3)]), [])]
      (switchToken 0) [] 0
      (by decide) (by decide) (by decide) (by decide) (by decide)
      (by intro p hp; simp at hp)
      (by intro p hp; simp only [List.mem_singleton] at hp; subst hp; exact hadd)
      (by intro p hp q hq; simp only [List.mem_singleton] at hp; subst hp; simp at hq)
      (by simpa [factorRunTokens, expressionRunTokens, moreTokens] using hlex)
      (by simpa [expressionRunNodes] using hroom)
      (by simp) (by intro p hp; simp only [List.mem_singleton] at hp; subst hp; simp) (by simp)
      (by simp)
      (by intro p hp; simp at hp)
      (by
        intro p hp
        simp only [List.mem_singleton] at hp
        subst hp
        simp only [List.length_cons, List.length_nil]
        omega)
      (by intro p hp q hq; simp only [List.mem_singleton] at hp; subst hp; simp at hq)
    exact ⟨s1, hparse⟩

/-! ## Evaluator on well-formed trees -/

/-- Function `evaluate` returns a value on every well-formed tree. -/
theorem evaluate_total {F D : Type} (A : Arith F D) (t : ASTNode F) (ht : WellFormed t) :
    ∃ d, evaluate A t = Except.ok d := by
  induction t with
  | null => exact absurd ht (by simp [WellFormed])
  | number v => exact ⟨A.floatToDouble v, rfl⟩
  | operation left right op ihl ihr =>
    obtain ⟨hop, hl, hr⟩ := ht
    obtain ⟨l, hl1⟩ := ihl hl
    obtain ⟨r, hr1⟩ := ihr hr
    simp only [evaluate, hl1, hr1]
    rcases hop with h | h | h | h <;> subst h
    · exact ⟨_, rfl⟩
    · exact ⟨_, rfl⟩
    · exact ⟨_, rfl⟩
    · exact ⟨_, rfl⟩
  | unknown tag => exact absurd ht (by simp [WellFormed])

/-- A division by a zero has no finite result. -/
theorem div_zero_not_finite (x : Double) (negative : Bool) :
    (Double.div x (Double.zero negative)).isFinite = false := by
  cases x <;> rfl

/-! ## Grammar tree and reference evaluation -/

/-- The operators of the first factor of the derivation are `*` and `/`. -/
theorem derivation_factor_ops (seq : List (TokenType × Int)) :
    ∀ p ∈ (derivation seq).1, p.1 = TokenType.TOKEN_STAR ∨ p.1 = TokenType.TOKEN_SLASH := by
  induction seq with
  | nil => intro p hp; simp [derivation] at hp
  | cons x rest ih =>
    obtain ⟨op, n⟩ := x
    intro p hp
    simp only [derivation] at hp
    split_ifs at hp with h
    · rcases List.mem_cons.1 hp with rfl | hp
      · exact h
      · exact ih p hp
    · simp at hp

/-- The further factors of the derivation come after `+` or `-`, and their
operators are `*` and `/`. -/
theorem derivation_term_ops (seq : List (TokenType × Int))
    (hops : ∀ p ∈ seq, p.1 = TokenType.TOKEN_PLUS ∨ p.1 = TokenType.TOKEN_MINUS ∨
      p.1 = TokenType.TOKEN_STAR ∨ p.1 = TokenType.TOKEN_SLASH) :
    (∀ e ∈ (derivation seq).2, e.1 = TokenType.TOKEN_PLUS ∨ e.1 = TokenType.TOKEN_MINUS) ∧
    (∀ e ∈ (derivation seq).2, ∀ p ∈ e.2.2,
      p.1 = TokenType.TOKEN_STAR ∨ p.1 = TokenType.TOKEN_SLASH) := by
  induction seq with
  | nil => simp [derivation]
  | cons x rest ih =>
    obtain ⟨op, n⟩ := x
    obtain ⟨ih1, ih2⟩ := ih (fun p hp => hops p (List.mem_cons_of_mem _ hp))
    have hop := hops (op, n) (List.mem_cons_self _ _)
    simp only [derivation]
    split_ifs with h
    · exact ⟨ih1, ih2⟩
    · constructor
      · intro e he
        rcases List.mem_cons.1 he with rfl | he
        · rcases hop with h1 | h1 | h1 | h1
          · exact Or.inl h1
          · exact Or.inr h1
          · exact absurd (Or.inl h1) h
          · exact absurd (Or.inr h1) h
        · exact ih1 e he
      · intro e he
        rcases List.mem_cons.1 he with rfl | he
        · exact derivation_factor_ops rest
        · exact ih2 e he

/-- The tokens of the derivation are the tokens of the sequence. -/
theorem derivation_tokens (seq : List (TokenType × Int)) :
    factorTokens (derivation seq).1 ++ expressionTokens (derivation seq).2
      = seq.flatMap (fun p => [operatorToken p.1, numberToken p.2]) := by
  induction seq with
  | nil => rfl
  | cons x rest ih =>
    obtain ⟨op, n⟩ := x
    simp only [derivation, List.flatMap_cons]
    split_ifs with h
    · simp only [factorTokens, List.cons_append, List.nil_append, ← ih]
    · simp only [factorTokens, expressionTokens, List.cons_append, List.nil_append, ← ih]

/-- The derivation has one operand for every operand of the sequence. -/
theorem derivation_size (seq : List (TokenType × Int)) :
    2 * (derivation seq).1.length + expressionNodes (derivation seq).2 = 2 * seq.length ∧
    (derivation seq).1.length ≤ seq.length ∧ (derivation seq).2.length ≤ seq.length ∧
    ∀ e ∈ (derivation seq).2, e.2.2.length ≤ seq.length := by
  induction seq with
  | nil => simp [derivation, expressionNodes]
  | cons x rest ih =>
    obtain ⟨op, n⟩ := x
    obtain ⟨h1, h2, h3, h4⟩ := ih
    simp only [derivation]
    split_ifs with h
    · refine ⟨?_, ?_, ?_, ?_⟩
      · simp only [List.length_cons]; omega
      · simp only [List.length_cons]; omega
      · simp only [List.length_cons]; omega
      · intro e he
        have := h4 e he
        simp only [List.length_cons]; omega
    · refine ⟨?_, ?_, ?_, ?_⟩
      · simp only [expressionNodes, List.length_cons, List.length_nil]; omega
      · simp
      · simp only [List.length_cons]; omega
      · intro e he
        rcases List.mem_cons.1 he with rfl | he
        · simp only [List.length_cons]; omega
        · have := h4 e he
          simp only [List.length_cons]; omega

/-- Behaviour of `parseExpression` on the tokens of a derivation followed by a
token that is neither a number nor an operator. -/
theorem parseExpression_spec {F D : Type} (A : Arith F D) (fresh : Nat → ASTNode F)
    (fuel : Nat) (s : Parser) (n : Int) (fs : List (TokenType × Int))
    (es : List (TokenType × Int × List (TokenType × Int))) (tEnd : Token)
    (rest : List Token) (j : Nat)
    (hn : tEnd.type ≠ TokenType.TOKEN_NUMBER) (hs : tEnd.type ≠ TokenType.TOKEN_STAR)
    (hd : tEnd.type ≠ TokenType.TOKEN_SLASH) (hp : tEnd.type ≠ TokenType.TOKEN_PLUS)
    (hm : tEnd.type ≠ TokenType.TOKEN_MINUS)
    (hfs : ∀ p ∈ fs, p.1 = TokenType.TOKEN_STAR ∨ p.1 = TokenType.TOKEN_SLASH)
    (hes : ∀ e ∈ es, e.1 = TokenType.TOKEN_PLUS ∨ e.1 = TokenType.TOKEN_MINUS)
    (hefs : ∀ e ∈ es, ∀ p ∈ e.2.2, p.1 = TokenType.TOKEN_STAR ∨ p.1 = TokenType.TOKEN_SLASH)
    (hfeed : Feeds s (numberToken n :: (factorTokens fs ++ (expressionTokens es ++ tEnd :: rest))))
    (hroom : Room s.arena (1 + 2 * fs.length + expressionNodes es + j))
    (hlen1 : fs.length < fuel) (hlen2 : ∀ e ∈ es, e.2.2.length < fuel)
    (hlen3 : es.length < fuel) (hfuel : 2 ≤ fuel) :
    ∃ s1, parseExpression A fresh fuel s
        = Except.ok (expressionTree A (factorTree A (ASTNode.number (A.intToFloat n)) fs) es,
            s1) ∧
      Feeds s1 (tEnd :: rest) ∧ Room s1.arena j := by
  obtain ⟨t, ts, hts, htn, hts2, htd⟩ := expressionTokens_head es tEnd rest hes hn hs hd
  rw [hts] at hfeed
  obtain ⟨s1, hpf, hfeed1, hroom1⟩ := parseFactor_spec A fresh fuel t ts
    htn hts2 htd (expressionNodes es + j) n fs s hfs hfeed
    (room_mono _ _ _ hroom (by omega)) hlen1 hfuel
  rw [← hts] at hfeed1
  obtain ⟨s2, hloop, hfeed2, hroom2⟩ := parseExpressionLoop_spec A fresh
    fuel hfuel tEnd rest hn hs hd hp hm j es fuel _ s1 hes hefs hlen2 hfeed1 hroom1 hlen3
  refine ⟨s2, ?_, hfeed2, hroom2⟩
  unfold parseExpression
  simp only [hpf]
  exact hloop

/-- What `evaluate` returns on the tree of a factor. -/
theorem evaluate_factorTree {F D : Type} (A : Arith F D) (fs : List (TokenType × Int)) :
    ∀ (left : ASTNode F) (v : D), evaluate A left = Except.ok v →
      (∀ p ∈ fs, p.1 = TokenType.TOKEN_STAR ∨ p.1 = TokenType.TOKEN_SLASH) →
      evaluate A (factorTree A left fs) = Except.ok (factorValue A A.ofInt v fs) := by
  induction fs with
  | nil => intro left v h _; exact h
  | cons p fs ih =>
    obtain ⟨op, n⟩ := p
    intro left v h hfs
    simp only [factorTree, factorValue]
    apply ih _ _ _ (fun q hq => hfs q (List.mem_cons_of_mem _ hq))
    simp only [evaluate, h]
    rcases hfs (op, n) (List.mem_cons_self _ _) with h1 | h1 <;>
      · simp only at h1
        subst h1
        rfl

/-- What `evaluate` returns on the tree of an expression. -/
theorem evaluate_expressionTree {F D : Type} (A : Arith F D)
    (es : List (TokenType × Int × List (TokenType × Int))) :
    ∀ (left : ASTNode F) (v : D), evaluate A left = Except.ok v →
      (∀ e ∈ es, e.1 = TokenType.TOKEN_PLUS ∨ e.1 = TokenType.TOKEN_MINUS) →
      (∀ e ∈ es, ∀ p ∈ e.2.2, p.1 = TokenType.TOKEN_STAR ∨ p.1 = TokenType.TOKEN_SLASH) →
      evaluate A (expressionTree A left es) = Except.ok (expressionValue A A.ofInt v es) := by
  induction es with
  | nil => intro left v h _ _; exact h
  | cons e es ih =>
    obtain ⟨op, n, fs⟩ := e
    intro left v h hes hefs
    simp only [expressionTree, expressionValue]
    apply ih _ _ _ (fun q hq => hes q (List.mem_cons_of_mem _ hq))
      (fun q hq => hefs q (List.mem_cons_of_mem _ hq))
    have hr := evaluate_factorTree A fs (ASTNode.number (A.intToFloat n)) (A.ofInt n) rfl
      (hefs (op, n, fs) (List.mem_cons_self _ _))
    simp only [evaluate, h]
    simp only [evaluate] at hr
    simp only [hr]
    rcases hes (op, n, fs) (List.mem_cons_self _ _) with h1 | h1 <;>
      · simp only at h1
        subst h1
        rfl

/-- The reference evaluation, which reads the flat sequence, computes the
value of the derivation. -/
theorem reference_fold {F D : Type} (A : Arith F D) (leaf : Int → D)
    (seq : List (TokenType × Int))
    (hops : ∀ p ∈ seq, p.1 = TokenType.TOKEN_PLUS ∨ p.1 = TokenType.TOKEN_MINUS ∨
      p.1 = TokenType.TOKEN_STAR ∨ p.1 = TokenType.TOKEN_SLASH) :
    ∀ st : RefState D, (seq.foldl (referenceStep A leaf) st).close A
      = expressionValue A leaf
          (RefState.close A (RefState.mk st.sum (factorValue A leaf st.product (derivation seq).1)))
          (derivation seq).2 := by
  induction seq with
  | nil => intro st; rfl
  | cons x rest ih =>
    obtain ⟨op, n⟩ := x
    intro st
    have hop := hops (op, n) (List.mem_cons_self _ _)
    rw [List.foldl_cons, ih (fun p hp => hops p (List.mem_cons_of_mem _ hp))]
    rcases hop with h | h | h | h <;> simp only at h <;> subst h <;>
      simp [derivation, referenceStep, factorValue, expressionValue, RefState.close]

/-! ## Calls of the lexer made by the parser -/

/-- When `arenaAllocAlignedZero` returns, its pointer and its arena are those of
`arenaAllocAligned`. -/
theorem allocZero_result (arena : Arena) (mem : Memory) (n k : Nat)
    (r : Nat × Arena × Memory) (h : arenaAllocAlignedZero arena mem n k = Except.ok r) :
    r.1 = (arenaAllocAligned arena n k).1 ∧ r.2.1 = (arenaAllocAligned arena n k).2 := by
  unfold arenaAllocAlignedZero at h
  simp only at h
  split_ifs at h with h1
  · split at h
    · exact absurd h (by simp)
    · simp only [Except.ok.injEq] at h
      subst h
      exact ⟨rfl, rfl⟩
  · simp only [Except.ok.injEq] at h
    subst h
    exact ⟨rfl, rfl⟩

/-- On an arena with a buffer that lies in the address space, a request that
does not wrap the guard sum is served by `arenaAllocAlignedZero` as by
`arenaAllocAligned`, and a block it returns lies in the buffer and is
zero-filled, every other byte staying as it was. -/
theorem allocZero_spec (arena : Arena) (mem : Memory) (n k j : Nat)
    (hk : k = 2 ^ j) (h32 : k < 2 ^ 32) (hbuf : arena.memory ≠ 0)
    (hmem : arena.memory + arena.size < 2 ^ 64) (hidx : arena.index ≤ arena.size)
    (hnw : arena.index + padding arena k + n < 2 ^ 64) :
    ∃ mem1, arenaAllocAlignedZero arena mem n k
        = Except.ok ((arenaAllocAligned arena n k).1, (arenaAllocAligned arena n k).2, mem1) ∧
      ((arenaAllocAligned arena n k).1 ≠ 0 →
        arena.memory ≤ (arenaAllocAligned arena n k).1 ∧
        (arenaAllocAligned arena n k).1 + n ≤ arena.memory + arena.size ∧
        ∀ a, mem1 a =
          if (arenaAllocAligned arena n k).1 ≤ a ∧ a < (arenaAllocAligned arena n k).1 + n
          then 0 else mem a) ∧
      ((arenaAllocAligned arena n k).1 = 0 → mem1 = mem) := by
  by_cases h : (arenaAllocAligned arena n k).1 = 0
  · refine ⟨mem, ?_, fun h1 => absurd h h1, fun _ => rfl⟩
    unfold arenaAllocAlignedZero
    simp only
    rw [if_neg (by simpa using h)]
  · obtain ⟨hp, _, _, _, _, hle⟩ := alloc_step arena n k j hk h32 hmem hidx hnw h
    have hlo : arena.memory ≤ (arenaAllocAligned arena n k).1 := by omega
    have hhi : (arenaAllocAligned arena n k).1 + n ≤ arena.memory + arena.size := by omega
    refine ⟨memsetLoop mem (arenaAllocAligned arena n k).1 0 n, ?_,
      fun _ => ⟨hlo, hhi, fun a => memsetLoop_apply mem _ 0 n a⟩, fun h1 => absurd h1 h⟩
    unfold arenaAllocAlignedZero memset
    simp only
    rw [if_pos h, if_pos ⟨hbuf, by omega, hlo, hhi⟩]

/-! ## Arena library: the claims -/

/-- C1 (as amended).  For a buffer that lies in the address space, an index
within the capacity and a run of `arenaAllocAligned` calls with power-of-two
alignments in which no call returns `NULL` and no call wraps the 64-bit sum
`index + padding + size`: the returned blocks are pairwise disjoint, every
block lies within `[base, base + capacity]` (its address is below
`base + capacity` whenever its size is positive), and every address is
divisible by the requested alignment. -/
theorem C1_blocks_disjoint_in_range_aligned (arena : Arena) (reqs : List (Nat × Nat))
    (hmem : arena.memory + arena.size < 2 ^ 64) (hidx : arena.index ≤ arena.size)
    (hpow : ∀ r ∈ reqs, ∃ j, r.2 = 2 ^ j ∧ r.2 < 2 ^ 32)
    (hnw : NoWrap arena reqs)
    (hok : ∀ b ∈ (allocAll arena reqs).1, b.1 ≠ 0) :
    List.Pairwise Disjoint (allocAll arena reqs).1 ∧
    ∀ b ∈ (allocAll arena reqs).1,
      arena.memory ≤ b.1 ∧ b.1 + b.2.1 ≤ arena.memory + arena.size ∧
        (0 < b.2.1 → b.1 < arena.memory + arena.size) ∧ b.2.2 ∣ b.1 := by
  obtain ⟨hpair, hall⟩ := allocAll_blocks reqs arena hmem hidx hpow hnw hok
  refine ⟨hpair, fun b hb => ?_⟩
  obtain ⟨h1, h2, h3⟩ := hall b hb
  exact ⟨by omega, h2, fun hpos => by omega, h3⟩

/-- C1, witness: three allocations (sizes 8, 0, 24; alignments 16, 1, 32) from a
64-byte arena at address 4096. -/
theorem C1_blocks_disjoint_in_range_aligned_witness :
    List.Pairwise Disjoint
      (allocAll (Arena.mk 4096 0 0 64) [(8, 16), (0, 1), (24, 32)]).1 ∧
    ∀ b ∈ (allocAll (Arena.mk 4096 0 0 64) [(8, 16), (0, 1), (24, 32)]).1,
      (Arena.mk 4096 0 0 64).memory ≤ b.1 ∧
        b.1 + b.2.1 ≤ (Arena.mk 4096 0 0 64).memory + (Arena.mk 4096 0 0 64).size ∧
        (0 < b.2.1 → b.1 < (Arena.mk 4096 0 0 64).memory + (Arena.mk 4096 0 0 64).size) ∧
        b.2.2 ∣ b.1 :=
  C1_blocks_disjoint_in_range_aligned (Arena.mk 4096 0 0 64) [(8, 16), (0, 1), (24, 32)]
    (by decide) (by decide)
    (by
      intro r hr
      simp only [List.mem_cons, List.mem_singleton, List.not_mem_nil, or_false] at hr
      rcases hr with rfl | rfl | rfl
      · exact ⟨4, by decide, by decide⟩
      · exact ⟨0, by decide, by decide⟩
      · exact ⟨5, by decide, by decide⟩)
    (by simp only [NoWrap]; decide)
    (by decide)

/-- C1, counterexample to the claim as stated, on a 16-byte arena at address
4096.  (a) After a 16-byte allocation a zero-size request succeeds and returns
`base + capacity`, which is not inside `[base, base + capacity)`.  (b) After an
8-byte allocation a request of `2 ^ 64 - 4` bytes wraps the guard, succeeds and
moves the index back, so the next 4-byte block `[4100, 4104)` lies inside the
first block `[4096, 4104)`. -/
theorem C1_claim_as_stated_fails :
    ((allocAll (Arena.mk 4096 0 0 16) [(16, 1), (0, 1)]).1 = [(4096, 16, 1), (4112, 0, 1)] ∧
      ¬ (4112 < (Arena.mk 4096 0 0 16).memory + (Arena.mk 4096 0 0 16).size)) ∧
    ((allocAll (Arena.mk 4096 0 0 16) [(8, 1), (2 ^ 64 - 4, 1), (4, 1)]).1
        = [(4096, 8, 1), (4104, 2 ^ 64 - 4, 1), (4100, 4, 1)] ∧
      ¬ Disjoint (4096, 8, 1) (4100, 4, 1)) := by
  refine ⟨⟨by decide, by decide⟩, by decide, ?_⟩
  intro h
  exact h 4100 (by decide)

/-- C2.  For a power-of-two alignment `k` for which `currentAddr + k - 1` is
representable in 64 bits, the address `(a + k - 1) & ~(k - 1)` that
`arenaAllocAligned` computes is the smallest multiple of `k` that is at least
the current address `a`, the padding is their difference and is below `k`, and
a call that succeeds returns exactly that address. -/
theorem C2_aligned_address_is_least_multiple (arena : Arena) (n k j : Nat)
    (hk : k = 2 ^ j) (h32 : k < 2 ^ 32) (hrep : currentAddr arena + k - 1 < 2 ^ 64) :
    alignedAddr arena k
        = (currentAddr arena + (k - 1)) &&& (2 ^ 64 - 1 - (k - 1)) ∧
    k ∣ alignedAddr arena k ∧ currentAddr arena ≤ alignedAddr arena k ∧
    (∀ m, k ∣ m → currentAddr arena ≤ m → alignedAddr arena k ≤ m) ∧
    padding arena k = alignedAddr arena k - currentAddr arena ∧ padding arena k < k ∧
    ((arenaAllocAligned arena n k).1 ≠ 0 →
      (arenaAllocAligned arena n k).1 = alignedAddr arena k) := by
  obtain ⟨h1, h2, h3, h4, h5⟩ := aligned_least arena k j hk h32 hrep
  refine ⟨?_, h1, h2, h3, h4, h5, fun h => ?_⟩
  · unfold alignedAddr
    rw [alignMinusOne_pow_two k j hk h32, Nat.mod_eq_of_lt (by omega)]
  · rw [(alloc_of_ne_zero arena n k h).1]

/-- C2, witness: index 5 in a buffer at address 4096, alignment 16; the aligned
address is 4112 and the padding is 11. -/
theorem C2_aligned_address_is_least_multiple_witness :
    alignedAddr (Arena.mk 4096 5 0 64) 16
        = (currentAddr (Arena.mk 4096 5 0 64) + (16 - 1)) &&& (2 ^ 64 - 1 - (16 - 1)) ∧
    16 ∣ alignedAddr (Arena.mk 4096 5 0 64) 16 ∧
    currentAddr (Arena.mk 4096 5 0 64) ≤ alignedAddr (Arena.mk 4096 5 0 64) 16 ∧
    (∀ m, 16 ∣ m → currentAddr (Arena.mk 4096 5 0 64) ≤ m →
      alignedAddr (Arena.mk 4096 5 0 64) 16 ≤ m) ∧
    padding (Arena.mk 4096 5 0 64) 16
        = alignedAddr (Arena.mk 4096 5 0 64) 16 - currentAddr (Arena.mk 4096 5 0 64) ∧
    padding (Arena.mk 4096 5 0 64) 16 < 16 ∧
    ((arenaAllocAligned (Arena.mk 4096 5 0 64) 8 16).1 ≠ 0 →
      (arenaAllocAligned (Arena.mk 4096 5 0 64) 8 16).1
        = alignedAddr (Arena.mk 4096 5 0 64) 16) :=
  C2_aligned_address_is_least_multiple (Arena.mk 4096 5 0 64) 8 16 4
    (by decide) (by decide) (by decide)

/-- C3, the code at the failing input.  Arena at 4096 with 64 bytes, 8 used;
request of `2 ^ 64 - 4` bytes with alignment 1.  The padding is 0 and 56 bytes
remain, far fewer than requested, yet the 64-bit sum `8 + 0 + (2 ^ 64 - 4)`
wraps to 4, the guard passes, address 4104 is returned and the index moves
back from 8 to 4. -/
theorem C3_guard_wraps_on_huge_request :
    arenaGetMemoryLeft (Arena.mk 4096 8 0 64) = 56 ∧
    padding (Arena.mk 4096 8 0 64) 1 = 0 ∧
    56 < padding (Arena.mk 4096 8 0 64) 1 + (2 ^ 64 - 4) ∧
    arenaAllocAligned (Arena.mk 4096 8 0 64) (2 ^ 64 - 4) 1
      = (4104, Arena.mk 4096 4 0 64) := by
  decide

/-- C5.  After `clearArena`, `arenaGetMemoryUsed` is 0, `arenaGetMemoryLeft` is
the full capacity, the buffer pointer and the size are unchanged, and clearing
twice is the same as clearing once. -/
theorem C5_clearArena_resets (arena : Arena) (hsz : arena.size < 2 ^ 64) :
    arenaGetMemoryUsed (clearArena arena) = 0 ∧
    arenaGetMemoryLeft (clearArena arena) = arena.size ∧
    (clearArena arena).memory = arena.memory ∧
    (clearArena arena).size = arena.size ∧
    clearArena (clearArena arena) = clearArena arena := by
  refine ⟨rfl, ?_, rfl, rfl, rfl⟩
  show (arena.size + 2 ^ 64 - 0) % 2 ^ 64 = arena.size
  norm_num at hsz ⊢
  omega

/-- C5, witness: a 64-byte arena at 4096 with 40 bytes used. -/
theorem C5_clearArena_resets_witness :
    arenaGetMemoryUsed (clearArena (Arena.mk 4096 40 8 64)) = 0 ∧
    arenaGetMemoryLeft (clearArena (Arena.mk 4096 40 8 64)) = (Arena.mk 4096 40 8 64).size ∧
    (clearArena (Arena.mk 4096 40 8 64)).memory = (Arena.mk 4096 40 8 64).memory ∧
    (clearArena (Arena.mk 4096 40 8 64)).size = (Arena.mk 4096 40 8 64).size ∧
    clearArena (clearArena (Arena.mk 4096 40 8 64)) = clearArena (Arena.mk 4096 40 8 64) :=
  C5_clearArena_resets (Arena.mk 4096 40 8 64) (by decide)

/-- C6 (as amended).  For a power-of-two alignment `k` with `base + k - 1`
representable, the first successful allocation after `clearArena` returns the
smallest multiple of `k` that is at least `base`; it is `base` exactly when
`base` is divisible by `k`.  The same holds for `arenaAlloc` with the default
alignment 16. -/
theorem C6_first_allocation_after_clear (arena : Arena) (n k j : Nat)
    (hk : k = 2 ^ j) (h32 : k < 2 ^ 32) (hrep : arena.memory + k - 1 < 2 ^ 64)
    (hok : (arenaAllocAligned (clearArena arena) n k).1 ≠ 0) :
    k ∣ (arenaAllocAligned (clearArena arena) n k).1 ∧
    arena.memory ≤ (arenaAllocAligned (clearArena arena) n k).1 ∧
    (∀ m, k ∣ m → arena.memory ≤ m → (arenaAllocAligned (clearArena arena) n k).1 ≤ m) ∧
    ((arenaAllocAligned (clearArena arena) n k).1 = arena.memory ↔ k ∣ arena.memory) ∧
    (k = DEFAULT_ALIGNMENT →
      (arenaAlloc (clearArena arena) n).1 = (arenaAllocAligned (clearArena arena) n k).1) := by
  obtain ⟨_, h1, _⟩ := pow_two_bounds k j hk h32
  have hc : currentAddr (clearArena arena) = arena.memory := by
    show (arena.memory + 0) % 2 ^ 64 = arena.memory
    rw [Nat.add_zero]
    exact Nat.mod_eq_of_lt (by omega)
  obtain ⟨h2, h3, h4, _, _⟩ :=
    aligned_least (clearArena arena) k j hk h32 (by rw [hc]; exact hrep)
  rw [hc] at h3 h4
  rw [(alloc_of_ne_zero (clearArena arena) n k hok).1]
  refine ⟨h2, h3, h4, ⟨fun h => ?_, fun h => ?_⟩, fun h => ?_⟩
  · have h5 : alignedAddr (clearArena arena) k = arena.memory := h
    rw [← h5]; exact h2
  · exact Nat.le_antisymm (h4 arena.memory h (Nat.le_refl _)) h3
  · subst h
    unfold arenaAlloc
    rw [(alloc_of_ne_zero (clearArena arena) n DEFAULT_ALIGNMENT hok).1]

/-- C6, witness: buffer at 4112 (16-aligned, not 32-aligned), alignment 32. -/
theorem C6_first_allocation_after_clear_witness :
    32 ∣ (arenaAllocAligned (clearArena (Arena.mk 4112 40 0 64)) 8 32).1 ∧
    (Arena.mk 4112 40 0 64).memory
      ≤ (arenaAllocAligned (clearArena (Arena.mk 4112 40 0 64)) 8 32).1 ∧
    (∀ m, 32 ∣ m → (Arena.mk 4112 40 0 64).memory ≤ m →
      (arenaAllocAligned (clearArena (Arena.mk 4112 40 0 64)) 8 32).1 ≤ m) ∧
    ((arenaAllocAligned (clearArena (Arena.mk 4112 40 0 64)) 8 32).1
        = (Arena.mk 4112 40 0 64).memory ↔ 32 ∣ (Arena.mk 4112 40 0 64).memory) ∧
    (32 = DEFAULT_ALIGNMENT →
      (arenaAlloc (clearArena (Arena.mk 4112 40 0 64)) 8).1
        = (arenaAllocAligned (clearArena (Arena.mk 4112 40 0 64)) 8 32).1) :=
  C6_first_allocation_after_clear (Arena.mk 4112 40 0 64) 8 32 5
    (by decide) (by decide) (by decide) (by decide)

/-- C6, counterexample to the claim as stated: the buffer is at 4112, which is
16-aligned but not 32-aligned; after `clearArena` an 8-byte allocation with
alignment 32 succeeds and returns 4128, not the start of the buffer. -/
theorem C6_claim_as_stated_fails :
    (arenaAllocAligned (clearArena (Arena.mk 4112 40 0 64)) 8 32).1 = 4128 ∧
    (arenaAllocAligned (clearArena (Arena.mk 4112 40 0 64)) 8 32).1 ≠ 0 ∧
    (arenaAllocAligned (clearArena (Arena.mk 4112 40 0 64)) 8 32).1
      ≠ (Arena.mk 4112 40 0 64).memory := by
  decide

/-- C7 (as amended).  On an arena with a buffer (`malloc` succeeded, the buffer
lies in the address space and the index is within the size), for every request
`(n, k)` with `k` a power of two whose guard sum `index + padding + n` does not
wrap: `arenaAllocAlignedZero` returns the pointer and the arena of
`arenaAllocAligned`; when the pointer `p` is not `NULL`, the block lies in the
buffer, afterwards the bytes `p`, ..., `p + n - 1` are 0 and every other byte
is unchanged; when it is `NULL` no byte is written.  `arenaAllocZero` is the same
with the default alignment. -/
theorem C7_zero_fill (arena : Arena) (mem : Memory) (n k j : Nat)
    (hk : k = 2 ^ j) (h32 : k < 2 ^ 32) (hbuf : arena.memory ≠ 0)
    (hmem : arena.memory + arena.size < 2 ^ 64) (hidx : arena.index ≤ arena.size)
    (hnw : arena.index + padding arena k + n < 2 ^ 64) :
    (∃ mem1, arenaAllocAlignedZero arena mem n k
        = Except.ok ((arenaAllocAligned arena n k).1, (arenaAllocAligned arena n k).2, mem1) ∧
      ((arenaAllocAligned arena n k).1 ≠ 0 →
        arena.memory ≤ (arenaAllocAligned arena n k).1 ∧
        (arenaAllocAligned arena n k).1 + n ≤ arena.memory + arena.size ∧
        ∀ a, mem1 a =
          if (arenaAllocAligned arena n k).1 ≤ a ∧ a < (arenaAllocAligned arena n k).1 + n
          then 0 else mem a) ∧
      ((arenaAllocAligned arena n k).1 = 0 → mem1 = mem)) ∧
    arenaAllocZero arena mem n = arenaAllocAlignedZero arena mem n DEFAULT_ALIGNMENT :=
  ⟨allocZero_spec arena mem n k j hk h32 hbuf hmem hidx hnw, rfl⟩

/-- C7, witness: a 64-byte arena at 4096 with 8 bytes used and every byte of
memory 255, asked for 16 zeroed bytes with alignment 32; the block is at 4128. -/
theorem C7_zero_fill_witness :
    (arenaAllocAligned (Arena.mk 4096 8 0 64) 16 32).1 = 4128 ∧
    ((∃ mem1, arenaAllocAlignedZero (Arena.mk 4096 8 0 64) (fun _ => 255) 16 32
        = Except.ok ((arenaAllocAligned (Arena.mk 4096 8 0 64) 16 32).1,
            (arenaAllocAligned (Arena.mk 4096 8 0 64) 16 32).2, mem1) ∧
      ((arenaAllocAligned (Arena.mk 4096 8 0 64) 16 32).1 ≠ 0 →
        (Arena.mk 4096 8 0 64).memory ≤ (arenaAllocAligned (Arena.mk 4096 8 0 64) 16 32).1 ∧
        (arenaAllocAligned (Arena.mk 4096 8 0 64) 16 32).1 + 16
          ≤ (Arena.mk 4096 8 0 64).memory + (Arena.mk 4096 8 0 64).size ∧
        ∀ a, mem1 a =
          if (arenaAllocAligned (Arena.mk 4096 8 0 64) 16 32).1 ≤ a ∧
            a < (arenaAllocAligned (Arena.mk 4096 8 0 64) 16 32).1 + 16
          then 0 else (fun _ => 255) a) ∧
      ((arenaAllocAligned (Arena.mk 4096 8 0 64) 16 32).1 = 0 → mem1 = fun _ => 255)) ∧
    arenaAllocZero (Arena.mk 4096 8 0 64) (fun _ => 255) 16
      = arenaAllocAlignedZero (Arena.mk 4096 8 0 64) (fun _ => 255) 16 DEFAULT_ALIGNMENT) :=
  ⟨by decide, C7_zero_fill (Arena.mk 4096 8 0 64) (fun _ => 255) 16 32 5 (by decide) (by decide)
    (by decide) (by decide) (by decide) (by decide)⟩

/-- C7, counterexample to the claim as stated, which is for every arena state
and request.  (a) `malloc` failed, so the buffer pointer is `NULL`, which
`initArena` does not test, and 8 bytes are counted as used: a request of 8
bytes with alignment 16 passes the guard and gets the address 16, which is not
`NULL`, so `memset(16, 0, 8)` runs with no buffer under it.  (b) The arena has a
64-byte buffer at 4096 with 8 bytes used and is asked for `2 ^ 64 - 4` bytes
with alignment 1: the guard sum wraps, the address 4104 is returned and
`memset(4104, 0, 2 ^ 64 - 4)` runs far past the 56 bytes that are left.  In
both the call has no defined result, where the claim promises zeroed bytes. -/
theorem C7_claim_as_stated_fails :
    (arenaAllocAligned (Arena.mk 0 8 0 64) 8 16 = (16, Arena.mk 0 24 0 64) ∧
      arenaAllocAlignedZero (Arena.mk 0 8 0 64) (fun _ => 255) 8 16
        = Except.error Fault.undefinedBehaviour) ∧
    (arenaAllocAligned (Arena.mk 4096 8 0 64) (2 ^ 64 - 4) 1 = (4104, Arena.mk 4096 4 0 64) ∧
      arenaAllocAlignedZero (Arena.mk 4096 8 0 64) (fun _ => 255) (2 ^ 64 - 4) 1
        = Except.error Fault.undefinedBehaviour) := by
  have h1 : arenaAllocAligned (Arena.mk 0 8 0 64) 8 16 = (16, Arena.mk 0 24 0 64) := by decide
  have h2 : arenaAllocAligned (Arena.mk 4096 8 0 64) (2 ^ 64 - 4) 1
      = (4104, Arena.mk 4096 4 0 64) := by decide
  refine ⟨⟨h1, ?_⟩, ⟨h2, ?_⟩⟩
  · unfold arenaAllocAlignedZero memset
    simp only [h1]
    rfl
  · unfold arenaAllocAlignedZero memset
    simp only [h2]
    rw [if_pos (by decide), if_neg (by decide)]

/-! ## Expression pipeline: the claims -/

/-- C8 (as amended).  For all non-negative integers `a`, `b`, `c` within `int`
and all decimal literals `da`, `db`, `dc` of at most 62 digits that denote them,
on an arena with room for the six nodes: `evaluate(parseLine("a + b * c"))` is
`a + (b * c)`, `evaluate(parseLine("a - b - c"))` is `(a - b) - c` and
`evaluate(parseLine("a * b / c"))` is `(a * b) / c`, each computed in `double`
on the operands as they come out of the `float` field of their nodes.  The
bytes 32, 43, 45, 42 and 47 are the space and `+`, `-`, `*`, `/`. -/
theorem C8_precedence_and_left_associativity {F D : Type} (A : Arith F D)
    (fresh : Nat → ASTNode F) (arena : Arena) (a b c : Nat) (da db dc : List Nat)
    (ha : IsLiteral da) (hb : IsLiteral db) (hc : IsLiteral dc)
    (hva : decimalValue da = a) (hvb : decimalValue db = b) (hvc : decimalValue dc = c)
    (hroom : Room arena 6) :
    evaluateLine A fresh arena (lineOfBytes (da ++ [32, 43, 32] ++ db ++ [32, 42, 32] ++ dc))
      = Except.ok (A.add (A.ofInt (Int.ofNat a))
          (A.mul (A.ofInt (Int.ofNat b)) (A.ofInt (Int.ofNat c)))) ∧
    evaluateLine A fresh arena (lineOfBytes (da ++ [32, 45, 32] ++ db ++ [32, 45, 32] ++ dc))
      = Except.ok (A.sub (A.sub (A.ofInt (Int.ofNat a)) (A.ofInt (Int.ofNat b)))
          (A.ofInt (Int.ofNat c))) ∧
    evaluateLine A fresh arena (lineOfBytes (da ++ [32, 42, 32] ++ db ++ [32, 47, 32] ++ dc))
      = Except.ok (A.div (A.mul (A.ofInt (Int.ofNat a)) (A.ofInt (Int.ofNat b)))
          (A.ofInt (Int.ofNat c))) := by
  subst hva hvb hvc
  refine ⟨?_, ?_, ?_⟩
  · rw [evaluateLine_three A fresh arena da db dc 43 42 []
      [(TokenType.TOKEN_PLUS, Int.ofNat (decimalValue db),
        [(TokenType.TOKEN_STAR, Int.ofNat (decimalValue dc))])]
      ha hb hc (by decide) (by decide) rfl (by simp) (by simp) (by simp) (by simp)
      (by simp) (by simp) hroom]
    rfl
  · rw [evaluateLine_three A fresh arena da db dc 45 45 []
      [(TokenType.TOKEN_MINUS, Int.ofNat (decimalValue db), []),
        (TokenType.TOKEN_MINUS, Int.ofNat (decimalValue dc), [])]
      ha hb hc (by decide) (by decide) rfl (by simp) (by simp) (by simp) (by simp)
      (by simp) (by simp) hroom]
    rfl
  · rw [evaluateLine_three A fresh arena da db dc 42 47
      [(TokenType.TOKEN_STAR, Int.ofNat (decimalValue db)),
        (TokenType.TOKEN_SLASH, Int.ofNat (decimalValue dc))] []
      ha hb hc (by decide) (by decide) rfl (by simp) (by simp) (by simp) (by simp)
      (by simp) (by simp) hroom]
    rfl

/-- C8, witness: the triple `(2, 3, 4)` with the literals `2`, `3`, `4` on a
1024-byte arena. -/
theorem C8_precedence_and_left_associativity_witness :
    evaluateLine exactArith zeroFresh (Arena.mk 4096 0 0 1024)
        (lineOfBytes ([50] ++ [32, 43, 32] ++ [51] ++ [32, 42, 32] ++ [52]))
      = Except.ok (exactArith.add (exactArith.ofInt (Int.ofNat 2))
          (exactArith.mul (exactArith.ofInt (Int.ofNat 3)) (exactArith.ofInt (Int.ofNat 4)))) ∧
    evaluateLine exactArith zeroFresh (Arena.mk 4096 0 0 1024)
        (lineOfBytes ([50] ++ [32, 45, 32] ++ [51] ++ [32, 45, 32] ++ [52]))
      = Except.ok (exactArith.sub
          (exactArith.sub (exactArith.ofInt (Int.ofNat 2)) (exactArith.ofInt (Int.ofNat 3)))
          (exactArith.ofInt (Int.ofNat 4))) ∧
    evaluateLine exactArith zeroFresh (Arena.mk 4096 0 0 1024)
        (lineOfBytes ([50] ++ [32, 42, 32] ++ [51] ++ [32, 47, 32] ++ [52]))
      = Except.ok (exactArith.div
          (exactArith.mul (exactArith.ofInt (Int.ofNat 2)) (exactArith.ofInt (Int.ofNat 3)))
          (exactArith.ofInt (Int.ofNat 4))) :=
  C8_precedence_and_left_associativity exactArith zeroFresh (Arena.mk 4096 0 0 1024)
    2 3 4 [50] [51] [52] ⟨by decide, by decide, by decide, by decide⟩
    ⟨by decide, by decide, by decide, by decide⟩ ⟨by decide, by decide, by decide, by decide⟩
    (by decide) (by decide) (by decide) ⟨by decide, by decide, by decide⟩

/-- C8, counterexample to the claim as stated, on a zero-filled 1024-byte arena.
(a) The triple `(2, -3, 4)`: the grammar has no negative literal, so
`"2 * -3 / 4"` parses as `(2 * x) - (3 / 4)` with `x` the unwritten node that
`parseNumber` returns at the `-`, and evaluates to `-3/4`, not to
`(2 * -3) / 4 = -3/2`.  (b) The triple `(16777217, 1, 1)`: the number node holds
a `float`, which rounds `2 ^ 24 + 1` to `2 ^ 24`, so `"16777217 + 1 * 1"`
evaluates to `16777217`, not to `16777218`. -/
theorem C8_claim_as_stated_fails :
    (evaluateLine exactArith zeroFresh (Arena.mk 4096 0 0 1024) (line "2 * -3 / 4".toList)
        = Except.ok (-3 / 4) ∧
      (-3 / 4 : ℚ) ≠ 2 * (-3) / 4) ∧
    (evaluateLine exactArith zeroFresh (Arena.mk 4096 0 0 1024)
        (line "16777217 + 1 * 1".toList) = Except.ok 16777217 ∧
      (16777217 : ℚ) ≠ 16777217 + 1 * 1) := by
  have h1 : evaluateLine exactArith zeroFresh (Arena.mk 4096 0 0 1024)
      (line "2 * -3 / 4".toList)
      = Except.ok (floatOfInt 2 * 0 - floatOfInt 3 / floatOfInt 4) := rfl
  have h2 : evaluateLine exactArith zeroFresh (Arena.mk 4096 0 0 1024)
      (line "16777217 + 1 * 1".toList)
      = Except.ok (floatOfInt 16777217 + floatOfInt 1 * floatOfInt 1) := rfl
  have h3 : floatOfInt 16777217 = 16777216 := by
    unfold floatOfInt
    rw [if_neg (by decide)]
    have h4 : roundToFloat (16777217 : Int).natAbs = 16777216 := by decide
    rw [h4]
    norm_num
  rw [h1, h2, h3, floatOfInt_small 1 (by decide), floatOfInt_small 2 (by decide),
    floatOfInt_small 3 (by decide), floatOfInt_small 4 (by decide)]
  norm_num

/-- C9, the code at the failing input: a run of 63 digits, 62 times `0` and then
`1`, whose value 1 is within `int`.  The digits fill `value[0..62]` and the NUL
goes to `value[63]`; `stringCArr` looks at `sizeof(value) - 1 = 63` bytes only,
finds no NUL and returns its uninitialised `String`, whose pointer `atoi`
reads: the call has no defined result, where the claim promises `NUMBER 1`. -/
theorem C9_run_of_63_digits_is_undefined :
    decimalValue (List.replicate 62 48 ++ [49]) = 1 ∧
    (List.replicate 62 48 ++ [49]).length = 63 ∧
    stringCArr (List.replicate 62 48 ++ [49] ++ [0]) 64 = none ∧
    generateNextToken (Lexer.mk (lineOfBytes (List.replicate 62 48 ++ [49])) 0)
      = Except.error Fault.undefinedBehaviour := by
  refine ⟨by decide, by decide, by decide, rfl⟩

/-- C10.  For each input of the end-to-end table, `evaluate(parseLine(input))`
returns the listed number: `"1 + 2"` gives 3, `"2 - 1 * 2 + 10"` gives 10,
`"6 / 2 / 3"` gives 1, `"7 - 3 - 2"` gives 2 and `"4 * 5 + 6 * 7"` gives 62.
This holds on any arena with room for eight nodes and for any `double`
arithmetic that is exact on small natural numbers, as IEEE-754 is. -/
theorem C10_end_to_end_table {F D : Type} (A : Arith F D) (hA : ExactOnSmallNats A)
    (fresh : Nat → ASTNode F) (arena : Arena) (hroom : Room arena 8) :
    evaluateLine A fresh arena (line "1 + 2".toList) = Except.ok (A.ofInt 3) ∧
    evaluateLine A fresh arena (line "2 - 1 * 2 + 10".toList) = Except.ok (A.ofInt 10) ∧
    evaluateLine A fresh arena (line "6 / 2 / 3".toList) = Except.ok (A.ofInt 1) ∧
    evaluateLine A fresh arena (line "7 - 3 - 2".toList) = Except.ok (A.ofInt 2) ∧
    evaluateLine A fresh arena (line "4 * 5 + 6 * 7".toList) = Except.ok (A.ofInt 62) := by
  refine ⟨?_, ?_, ?_, ?_, ?_⟩
  · rw [evaluateLine_spec A fresh arena (line "1 + 2".toList) 1 []
      [(TokenType.TOKEN_PLUS, 2, [])] 4
      (by decide) (by decide) (by decide) (lexes_of_lexRun 4 _ _ rfl) hroom
      (by decide) (by decide) (by decide)]
    show Except.ok (A.add (A.ofInt (Int.ofNat 1)) (A.ofInt (Int.ofNat 2))) = _
    rw [hA.add_exact 1 2 (by decide) (by decide) (by decide)]
    rfl
  · rw [evaluateLine_spec A fresh arena (line "2 - 1 * 2 + 10".toList) 2 []
      [(TokenType.TOKEN_MINUS, 1, [(TokenType.TOKEN_STAR, 2)]), (TokenType.TOKEN_PLUS, 10, [])] 0
      (by decide) (by decide) (by decide) (lexes_of_lexRun 8 _ _ rfl) hroom
      (by decide) (by decide) (by decide)]
    show Except.ok (A.add (A.sub (A.ofInt (Int.ofNat 2))
      (A.mul (A.ofInt (Int.ofNat 1)) (A.ofInt (Int.ofNat 2)))) (A.ofInt (Int.ofNat 10))) = _
    rw [hA.mul_exact 1 2 (by decide) (by decide) (by decide),
      hA.sub_exact 2 (1 * 2) (by decide) (by decide),
      hA.add_exact (2 - 1 * 2) 10 (by decide) (by decide) (by decide)]
    rfl
  · rw [evaluateLine_spec A fresh arena (line "6 / 2 / 3".toList) 6
      [(TokenType.TOKEN_SLASH, 2), (TokenType.TOKEN_SLASH, 3)] [] 2
      (by decide) (by decide) (by decide) (lexes_of_lexRun 6 _ _ rfl) hroom
      (by decide) (by decide) (by decide)]
    show Except.ok (A.div (A.div (A.ofInt (Int.ofNat 6)) (A.ofInt (Int.ofNat 2)))
      (A.ofInt (Int.ofNat 3))) = _
    rw [hA.div_exact 6 2 3 (by decide) (by decide) (by decide) (by decide),
      hA.div_exact 3 3 1 (by decide) (by decide) (by decide) (by decide)]
    rfl
  · rw [evaluateLine_spec A fresh arena (line "7 - 3 - 2".toList) 7 []
      [(TokenType.TOKEN_MINUS, 3, []), (TokenType.TOKEN_MINUS, 2, [])] 2
      (by decide) (by decide) (by decide) (lexes_of_lexRun 6 _ _ rfl) hroom
      (by decide) (by decide) (by decide)]
    show Except.ok (A.sub (A.sub (A.ofInt (Int.ofNat 7)) (A.ofInt (Int.ofNat 3)))
      (A.ofInt (Int.ofNat 2))) = _
    rw [hA.sub_exact 7 3 (by decide) (by decide),
      hA.sub_exact (7 - 3) 2 (by decide) (by decide)]
    rfl
  · rw [evaluateLine_spec A fresh arena (line "4 * 5 + 6 * 7".toList) 4
      [(TokenType.TOKEN_STAR, 5)] [(TokenType.TOKEN_PLUS, 6, [(TokenType.TOKEN_STAR, 7)])] 0
      (by decide) (by decide) (by decide) (lexes_of_lexRun 8 _ _ rfl) hroom
      (by decide) (by decide) (by decide)]
    show Except.ok (A.add (A.mul (A.ofInt (Int.ofNat 4)) (A.ofInt (Int.ofNat 5)))
      (A.mul (A.ofInt (Int.ofNat 6)) (A.ofInt (Int.ofNat 7)))) = _
    rw [hA.mul_exact 4 5 (by decide) (by decide) (by decide),
      hA.mul_exact 6 7 (by decide) (by decide) (by decide),
      hA.add_exact (4 * 5) (6 * 7) (by decide) (by decide) (by decide)]
    rfl

/-- C10, witness: the arena of the demo driver when it parses its start-up
expression (1 GiB, 75 bytes used), with arithmetic that is exact on the integers
involved. -/
theorem C10_end_to_end_table_witness :
    evaluateLine exactArith zeroFresh (Arena.mk 4096 75 0 GB) (line "1 + 2".toList)
      = Except.ok (exactArith.ofInt 3) ∧
    evaluateLine exactArith zeroFresh (Arena.mk 4096 75 0 GB) (line "2 - 1 * 2 + 10".toList)
      = Except.ok (exactArith.ofInt 10) ∧
    evaluateLine exactArith zeroFresh (Arena.mk 4096 75 0 GB) (line "6 / 2 / 3".toList)
      = Except.ok (exactArith.ofInt 1) ∧
    evaluateLine exactArith zeroFresh (Arena.mk 4096 75 0 GB) (line "7 - 3 - 2".toList)
      = Except.ok (exactArith.ofInt 2) ∧
    evaluateLine exactArith zeroFresh (Arena.mk 4096 75 0 GB) (line "4 * 5 + 6 * 7".toList)
      = Except.ok (exactArith.ofInt 62) :=
  C10_end_to_end_table exactArith exactArith_exact zeroFresh (Arena.mk 4096 75 0 GB)
    ⟨by decide, by decide, by decide⟩

/-! ## Evaluator, invariants, lexer cursor and parser: the claims -/

/-- C11.  What `evaluate` returns: for a number node the stored value, as a
`double`; for an operation node whose children evaluate to `l` and `r`, `l + r`
for `TOKEN_PLUS`, `l - r` for `TOKEN_MINUS`, `l * r` for `TOKEN_STAR`, `l / r` for
`TOKEN_SLASH` and 0 for any other `op`; and 0 for a node with any other tag. -/
theorem C11_evaluate_by_cases {F D : Type} (A : Arith F D) (v : F) (left right : ASTNode F)
    (l r : D) (op : TokenType) (tag : Nat)
    (hl : evaluate A left = Except.ok l) (hr : evaluate A right = Except.ok r)
    (hop : op ≠ TokenType.TOKEN_PLUS ∧ op ≠ TokenType.TOKEN_MINUS ∧
      op ≠ TokenType.TOKEN_STAR ∧ op ≠ TokenType.TOKEN_SLASH) :
    evaluate A (ASTNode.number v) = Except.ok (A.floatToDouble v) ∧
    evaluate A (ASTNode.operation left right TokenType.TOKEN_PLUS) = Except.ok (A.add l r) ∧
    evaluate A (ASTNode.operation left right TokenType.TOKEN_MINUS) = Except.ok (A.sub l r) ∧
    evaluate A (ASTNode.operation left right TokenType.TOKEN_STAR) = Except.ok (A.mul l r) ∧
    evaluate A (ASTNode.operation left right TokenType.TOKEN_SLASH) = Except.ok (A.div l r) ∧
    evaluate A (ASTNode.operation left right op) = Except.ok A.zero ∧
    evaluate A (ASTNode.unknown tag) = Except.ok A.zero := by
  refine ⟨rfl, ?_, ?_, ?_, ?_, ?_, rfl⟩
  · simp only [evaluate, hl, hr]; rfl
  · simp only [evaluate, hl, hr]; rfl
  · simp only [evaluate, hl, hr]; rfl
  · simp only [evaluate, hl, hr]; rfl
  · simp only [evaluate, hl, hr]
    rw [if_neg hop.1, if_neg hop.2.1, if_neg hop.2.2.1, if_neg hop.2.2.2]

/-- C11, witness: the children are the number nodes 6 and 3 and the odd `op` is
`TOKEN_EOF`. -/
theorem C11_evaluate_by_cases_witness :
    evaluate exactArith (ASTNode.number 7) = Except.ok (exactArith.floatToDouble 7) ∧
    evaluate exactArith (ASTNode.operation (ASTNode.number 6) (ASTNode.number 3)
      TokenType.TOKEN_PLUS) = Except.ok (exactArith.add 6 3) ∧
    evaluate exactArith (ASTNode.operation (ASTNode.number 6) (ASTNode.number 3)
      TokenType.TOKEN_MINUS) = Except.ok (exactArith.sub 6 3) ∧
    evaluate exactArith (ASTNode.operation (ASTNode.number 6) (ASTNode.number 3)
      TokenType.TOKEN_STAR) = Except.ok (exactArith.mul 6 3) ∧
    evaluate exactArith (ASTNode.operation (ASTNode.number 6) (ASTNode.number 3)
      TokenType.TOKEN_SLASH) = Except.ok (exactArith.div 6 3) ∧
    evaluate exactArith (ASTNode.operation (ASTNode.number 6) (ASTNode.number 3)
      TokenType.TOKEN_EOF) = Except.ok exactArith.zero ∧
    evaluate exactArith (ASTNode.unknown 5) = Except.ok exactArith.zero :=
  C11_evaluate_by_cases exactArith 7 (ASTNode.number 6) (ASTNode.number 3) 6 3
    TokenType.TOKEN_EOF 5 rfl rfl (by decide)

/-- C12 (as amended).  For every decimal literal the lexer accepts, of value `n`,
`parseLine` on the line that consists of the literal returns a number node
holding `n` converted to `float`, and `evaluate` returns that `float` as a
`double`; with the `float` rounding of IEEE-754 the result is `n` itself for
every `n` up to `2 ^ 24`. -/
theorem C12_literal_reaches_result_through_float {F D : Type} (A : Arith F D)
    (fresh : Nat → ASTNode F) (arena : Arena) (ds : List Nat)
    (hds : IsLiteral ds) (hroom : Room arena 2) :
    (∃ s, parseLine A fresh arena (lineOfBytes ds)
      = Except.ok (ASTNode.number (A.intToFloat (Int.ofNat (decimalValue ds))), s)) ∧
    evaluateLine A fresh arena (lineOfBytes ds)
      = Except.ok (A.floatToDouble (A.intToFloat (Int.ofNat (decimalValue ds)))) ∧
    (decimalValue ds ≤ 2 ^ 24 →
      exactArith.floatToDouble (exactArith.intToFloat (Int.ofNat (decimalValue ds)))
        = (decimalValue ds : ℚ)) := by
  obtain ⟨s, hs, _, _⟩ := parseLine_single_run A fresh arena ds [] hds
    (fun m hm => by simp at hm) hroom
  rw [sourceBytes_single] at hs
  have hv : atomValue (runAtom ds []) = Int.ofNat (decimalValue ds) := rfl
  rw [hv] at hs
  refine ⟨⟨s, hs⟩, ?_, ?_⟩
  · rw [evaluateLine_of_parse A fresh arena _ _ ⟨s, hs⟩]
    rfl
  · intro hsmall
    exact exactArith_ofInt (decimalValue ds) hsmall

/-- C12, witness: the literal `"42"`. -/
theorem C12_literal_reaches_result_through_float_witness :
    lineOfBytes [52, 50] = line "42".toList ∧ decimalValue [52, 50] = 42 ∧
    ((∃ s, parseLine exactArith zeroFresh (Arena.mk 4096 75 0 GB) (lineOfBytes [52, 50])
      = Except.ok (ASTNode.number (exactArith.intToFloat (Int.ofNat (decimalValue [52, 50]))),
          s)) ∧
    evaluateLine exactArith zeroFresh (Arena.mk 4096 75 0 GB) (lineOfBytes [52, 50])
      = Except.ok (exactArith.floatToDouble
          (exactArith.intToFloat (Int.ofNat (decimalValue [52, 50])))) ∧
    (decimalValue [52, 50] ≤ 2 ^ 24 →
      exactArith.floatToDouble (exactArith.intToFloat (Int.ofNat (decimalValue [52, 50])))
        = (decimalValue [52, 50] : ℚ))) :=
  ⟨rfl, by decide,
    C12_literal_reaches_result_through_float exactArith zeroFresh (Arena.mk 4096 75 0 GB)
      [52, 50] ⟨by decide, by decide, by decide, by decide⟩ ⟨by decide, by decide, by decide⟩⟩

/-- C12, counterexample to the claim as stated: 16777217 is within `int`, and on
the line `"16777217"` the number node holds 16777216 and `evaluate` returns
16777216: the payload passes through a `float`, which has 24 significant
bits. -/
theorem C12_claim_as_stated_fails :
    (16777217 : Nat) ≤ INT_MAX ∧
    (∃ s, parseLine exactArith zeroFresh (Arena.mk 4096 75 0 GB) (line "16777217".toList)
      = Except.ok (ASTNode.number 16777216, s)) ∧
    evaluateLine exactArith zeroFresh (Arena.mk 4096 75 0 GB) (line "16777217".toList)
      = Except.ok 16777216 ∧
    (16777216 : ℚ) ≠ 16777217 := by
  have h1 : ∃ s, parseLine exactArith zeroFresh (Arena.mk 4096 75 0 GB)
      (line "16777217".toList) = Except.ok (ASTNode.number (floatOfInt 16777217), s) :=
    ⟨_, rfl⟩
  have h2 : evaluateLine exactArith zeroFresh (Arena.mk 4096 75 0 GB)
      (line "16777217".toList) = Except.ok (floatOfInt 16777217) := rfl
  rw [floatOfInt_above] at h1 h2
  exact ⟨by decide, h1, h2, by norm_num⟩

/-- C13.  Function `evaluate` returns a `double` on every well-formed tree, for every
arithmetic.  A `TOKEN_SLASH` node is evaluated as `l / r` whatever `r` is: with
the division of IEEE-754, when the right child evaluates to a zero the result
is an infinity or a NaN, and `evaluate(parseLine("10 / 0"))` is `+inf`. -/
theorem C13_evaluate_total_division_unchecked {F D : Type} (A : Arith F D)
    (t left right : ASTNode F) (l r : D) (left2 right2 : ASTNode ℚ) (x : Double)
    (negative : Bool) (fresh : Nat → ASTNode ℚ) (arena : Arena)
    (ht : WellFormed t)
    (hl : evaluate A left = Except.ok l) (hr : evaluate A right = Except.ok r)
    (hl2 : evaluate ieeeArith left2 = Except.ok x)
    (hr2 : evaluate ieeeArith right2 = Except.ok (Double.zero negative))
    (hroom : Room arena 4) :
    (∃ d, evaluate A t = Except.ok d) ∧
    evaluate A (ASTNode.operation left right TokenType.TOKEN_SLASH) = Except.ok (A.div l r) ∧
    (∃ res, evaluate ieeeArith (ASTNode.operation left2 right2 TokenType.TOKEN_SLASH)
        = Except.ok res ∧ res.isFinite = false) ∧
    evaluateLine ieeeArith fresh arena (line "10 / 0".toList)
      = Except.ok (Double.inf false) := by
  refine ⟨evaluate_total A t ht, ?_, ⟨Double.div x (Double.zero negative), ?_,
    div_zero_not_finite x negative⟩, ?_⟩
  · simp only [evaluate, hl, hr]
    rfl
  · simp only [evaluate, hl2, hr2]
    rfl
  · rw [evaluateLine_spec ieeeArith fresh arena (line "10 / 0".toList) 10
      [(TokenType.TOKEN_SLASH, 0)] [] 0
      (by decide) (by decide) (by decide) (lexes_of_lexRun 4 _ _ rfl) hroom
      (by decide) (by decide) (by decide)]
    show Except.ok (Double.div (Double.ofRat false (floatOfInt 10))
      (Double.ofRat false (floatOfInt 0))) = _
    rw [floatOfInt_small 10 (by decide), floatOfInt_small 0 (by decide)]
    simp [Double.ofRat, Double.div]

/-- C13, witness: the tree of `1 + 2 * 3`, the division `6 / 3` in the arithmetic
of the examples, and the division `7 / 0` with IEEE-754 special values. -/
theorem C13_evaluate_total_division_unchecked_witness :
    (∃ d, evaluate exactArith (ASTNode.operation (ASTNode.number 1)
      (ASTNode.operation (ASTNode.number 2) (ASTNode.number 3) TokenType.TOKEN_STAR)
      TokenType.TOKEN_PLUS) = Except.ok d) ∧
    evaluate exactArith (ASTNode.operation (ASTNode.number 6) (ASTNode.number 3)
      TokenType.TOKEN_SLASH) = Except.ok (exactArith.div 6 3) ∧
    (∃ res, evaluate ieeeArith (ASTNode.operation (ASTNode.number 7) (ASTNode.number 0)
        TokenType.TOKEN_SLASH) = Except.ok res ∧ res.isFinite = false) ∧
    evaluateLine ieeeArith zeroFresh (Arena.mk 4096 75 0 GB) (line "10 / 0".toList)
      = Except.ok (Double.inf false) :=
  C13_evaluate_total_division_unchecked exactArith
    (ASTNode.operation (ASTNode.number 1)
      (ASTNode.operation (ASTNode.number 2) (ASTNode.number 3) TokenType.TOKEN_STAR)
      TokenType.TOKEN_PLUS)
    (ASTNode.number 6) (ASTNode.number 3) 6 3 (ASTNode.number 7) (ASTNode.number 0)
    (Double.finite 7) false zeroFresh (Arena.mk 4096 75 0 GB)
    ⟨Or.inl rfl, trivial, Or.inr (Or.inr (Or.inl rfl)), trivial, trivial⟩ rfl rfl
    (by
      show Except.ok (Double.ofRat false 7) = Except.ok (Double.finite 7)
      simp [Double.ofRat])
    (by
      show Except.ok (Double.ofRat false 0) = Except.ok (Double.zero false)
      simp [Double.ofRat])
    ⟨by decide, by decide, by decide⟩

/-- C14 (as amended).  The predicate `index <= size` holds after `initArena` and is
preserved by `arenaAllocAligned`, `arenaAlloc` and `clearArena` for every request
size and alignment, whether the call succeeds or returns `NULL`, and by
`arenaAllocAlignedZero` and `arenaAllocZero` whenever the call returns; none of
them changes the size.  The two zero-filling calls return on every arena with
a buffer in the address space for every request that does not wrap the guard
sum `index + padding + n`. -/
theorem C14_index_within_size_is_invariant (arena : Arena) (mem : Memory)
    (buffer capacity n k j : Nat) (h : arena.index ≤ arena.size) :
    (initArena buffer capacity).index ≤ (initArena buffer capacity).size ∧
    ((arenaAllocAligned arena n k).2.index ≤ (arenaAllocAligned arena n k).2.size ∧
      (arenaAllocAligned arena n k).2.size = arena.size) ∧
    ((arenaAlloc arena n).2.index ≤ (arenaAlloc arena n).2.size ∧
      (arenaAlloc arena n).2.size = arena.size) ∧
    ((∀ r, arenaAllocAlignedZero arena mem n k = Except.ok r →
        r.2.1.index ≤ r.2.1.size ∧ r.2.1.size = arena.size) ∧
      (k = 2 ^ j → k < 2 ^ 32 → arena.memory ≠ 0 → arena.memory + arena.size < 2 ^ 64 →
        arena.index + padding arena k + n < 2 ^ 64 →
        ∃ r, arenaAllocAlignedZero arena mem n k = Except.ok r)) ∧
    ((∀ r, arenaAllocZero arena mem n = Except.ok r →
        r.2.1.index ≤ r.2.1.size ∧ r.2.1.size = arena.size) ∧
      (arena.memory ≠ 0 → arena.memory + arena.size < 2 ^ 64 →
        arena.index + padding arena DEFAULT_ALIGNMENT + n < 2 ^ 64 →
        ∃ r, arenaAllocZero arena mem n = Except.ok r)) ∧
    ((clearArena arena).index ≤ (clearArena arena).size ∧
      (clearArena arena).size = arena.size) := by
  have hsize : ∀ m i, (arenaAllocAligned arena m i).2.size = arena.size := by
    intro m i
    unfold arenaAllocAligned
    split <;> rfl
  have hz : ∀ m i r, arenaAllocAlignedZero arena mem m i = Except.ok r →
      r.2.1.index ≤ r.2.1.size ∧ r.2.1.size = arena.size := by
    intro m i r hr
    rw [(allocZero_result arena mem m i r hr).2]
    exact ⟨alloc_index_le_size arena m i h, hsize m i⟩
  refine ⟨Nat.zero_le _, ⟨alloc_index_le_size arena n k h, hsize n k⟩,
    ⟨alloc_index_le_size arena n DEFAULT_ALIGNMENT h, hsize n DEFAULT_ALIGNMENT⟩,
    ⟨hz n k, ?_⟩, ⟨hz n DEFAULT_ALIGNMENT, ?_⟩, ⟨Nat.zero_le _, rfl⟩⟩
  · intro hk h32 hbuf hmem hnw
    obtain ⟨mem1, hok, _⟩ := allocZero_spec arena mem n k j hk h32 hbuf hmem h hnw
    exact ⟨_, hok⟩
  · intro hbuf hmem hnw
    obtain ⟨mem1, hok, _⟩ := allocZero_spec arena mem n DEFAULT_ALIGNMENT 4 (by decide)
      (by decide) hbuf hmem h hnw
    exact ⟨_, hok⟩

/-- C14, witness: a 64-byte arena at 4096 with 8 bytes used, asked for 16 bytes
with alignment 8; both zero-filling calls return. -/
theorem C14_index_within_size_is_invariant_witness :
    ((∃ r, arenaAllocAlignedZero (Arena.mk 4096 8 0 64) (fun _ => 255) 16 8 = Except.ok r) ∧
      ∃ r, arenaAllocZero (Arena.mk 4096 8 0 64) (fun _ => 255) 16 = Except.ok r) ∧
    ((initArena 4096 64).index ≤ (initArena 4096 64).size ∧
    ((arenaAllocAligned (Arena.mk 4096 8 0 64) 16 8).2.index
        ≤ (arenaAllocAligned (Arena.mk 4096 8 0 64) 16 8).2.size ∧
      (arenaAllocAligned (Arena.mk 4096 8 0 64) 16 8).2.size = (Arena.mk 4096 8 0 64).size) ∧
    ((arenaAlloc (Arena.mk 4096 8 0 64) 16).2.index
        ≤ (arenaAlloc (Arena.mk 4096 8 0 64) 16).2.size ∧
      (arenaAlloc (Arena.mk 4096 8 0 64) 16).2.size = (Arena.mk 4096 8 0 64).size) ∧
    ((∀ r, arenaAllocAlignedZero (Arena.mk 4096 8 0 64) (fun _ => 255) 16 8 = Except.ok r →
        r.2.1.index ≤ r.2.1.size ∧ r.2.1.size = (Arena.mk 4096 8 0 64).size) ∧
      (8 = 2 ^ 3 → 8 < 2 ^ 32 → (Arena.mk 4096 8 0 64).memory ≠ 0 →
        (Arena.mk 4096 8 0 64).memory + (Arena.mk 4096 8 0 64).size < 2 ^ 64 →
        (Arena.mk 4096 8 0 64).index + padding (Arena.mk 4096 8 0 64) 8 + 16 < 2 ^ 64 →
        ∃ r, arenaAllocAlignedZero (Arena.mk 4096 8 0 64) (fun _ => 255) 16 8 = Except.ok r)) ∧
    ((∀ r, arenaAllocZero (Arena.mk 4096 8 0 64) (fun _ => 255) 16 = Except.ok r →
        r.2.1.index ≤ r.2.1.size ∧ r.2.1.size = (Arena.mk 4096 8 0 64).size) ∧
      ((Arena.mk 4096 8 0 64).memory ≠ 0 →
        (Arena.mk 4096 8 0 64).memory + (Arena.mk 4096 8 0 64).size < 2 ^ 64 →
        (Arena.mk 4096 8 0 64).index + padding (Arena.mk 4096 8 0 64) DEFAULT_ALIGNMENT + 16
          < 2 ^ 64 →
        ∃ r, arenaAllocZero (Arena.mk 4096 8 0 64) (fun _ => 255) 16 = Except.ok r)) ∧
    ((clearArena (Arena.mk 4096 8 0 64)).index ≤ (clearArena (Arena.mk 4096 8 0 64)).size ∧
      (clearArena (Arena.mk 4096 8 0 64)).size = (Arena.mk 4096 8 0 64).size)) :=
  ⟨⟨by
      obtain ⟨m, hm, _⟩ := allocZero_spec (Arena.mk 4096 8 0 64) (fun _ => 255) 16 8 3
        (by decide) (by decide) (by decide) (by decide) (by decide) (by decide)
      exact ⟨_, hm⟩,
    by
      obtain ⟨m, hm, _⟩ := allocZero_spec (Arena.mk 4096 8 0 64) (fun _ => 255) 16
        DEFAULT_ALIGNMENT 4 (by decide) (by decide) (by decide) (by decide) (by decide)
        (by decide)
      exact ⟨_, hm⟩⟩,
    C14_index_within_size_is_invariant (Arena.mk 4096 8 0 64) (fun _ => 255) 4096 64 16 8 3
      (by decide)⟩

/-- C14, counterexample to the claim as stated, which has the zero-filling calls
preserve the predicate for every request.  (a) `malloc` failed, the buffer
pointer is `NULL` and 16 bytes are counted as used: `arenaAllocZero` of 8 bytes
gets the address 16 and runs `memset(16, 0, 8)` with no buffer under it.
(b) A 64-byte buffer at 4096 with 32 bytes used, and `arenaAllocZero` of
`2 ^ 64 - 16` bytes: the guard sum wraps, the address 4128 is returned and
`memset(4128, 0, 2 ^ 64 - 16)` runs past the buffer.  Both start with the index
within the size and end in undefined behaviour, with no arena state of which
the predicate could hold. -/
theorem C14_claim_as_stated_fails :
    ((Arena.mk 0 16 0 64).index ≤ (Arena.mk 0 16 0 64).size ∧
      arenaAllocZero (Arena.mk 0 16 0 64) (fun _ => 255) 8
        = Except.error Fault.undefinedBehaviour) ∧
    ((Arena.mk 4096 32 0 64).index ≤ (Arena.mk 4096 32 0 64).size ∧
      arenaAllocZero (Arena.mk 4096 32 0 64) (fun _ => 255) (2 ^ 64 - 16)
        = Except.error Fault.undefinedBehaviour) := by
  have h1 : arenaAllocAligned (Arena.mk 0 16 0 64) 8 DEFAULT_ALIGNMENT
      = (16, Arena.mk 0 24 0 64) := by decide
  have h2 : arenaAllocAligned (Arena.mk 4096 32 0 64) (2 ^ 64 - 16) DEFAULT_ALIGNMENT
      = (4128, Arena.mk 4096 16 0 64) := by decide
  refine ⟨⟨by decide, ?_⟩, ⟨by decide, ?_⟩⟩
  · unfold arenaAllocZero arenaAllocAlignedZero memset
    simp only [h1]
    rfl
  · unfold arenaAllocZero arenaAllocAlignedZero memset
    simp only [h2]
    rw [if_pos (by decide), if_neg (by decide)]

/-- C15, the code at the failing input.  Arena at 4096 with 64 bytes, 32 used;
`arenaAlloc` is asked for `2 ^ 64 - 16` bytes.  The address 4128 is already
16-aligned, so the padding is 0; the 64-bit sum `32 + 0 + (2 ^ 64 - 16)` wraps
to 16, the guard passes, the call returns 4128 and `arenaGetMemoryUsed` goes
down from 32 to 16.  `arenaAllocAligned` with alignment 16 is the same call. -/
theorem C15_index_moves_back_on_huge_request :
    arenaGetMemoryUsed (Arena.mk 4096 32 0 64) = 32 ∧
    (arenaAlloc (Arena.mk 4096 32 0 64) (2 ^ 64 - 16)).1 = 4128 ∧
    arenaGetMemoryUsed (arenaAlloc (Arena.mk 4096 32 0 64) (2 ^ 64 - 16)).2 = 16 ∧
    arenaGetMemoryUsed (arenaAllocAligned (Arena.mk 4096 32 0 64) (2 ^ 64 - 16) 16).2 = 16 ∧
    ¬ (arenaGetMemoryUsed (arenaAlloc (Arena.mk 4096 32 0 64) (2 ^ 64 - 16)).2
      ≥ arenaGetMemoryUsed (Arena.mk 4096 32 0 64)) := by
  decide

/-- C16 (as amended).  For an input with `L` bytes before its NUL and the calls
of `generateNextToken` made from a cursor at or before the NUL, up to and
including the call that returns `EOF`: the cursor grows strictly with every
call, it is at most `L` after every call that returns a token other than `EOF`,
and it is `L + 1`, one past the NUL, after the call that returns `EOF`. -/
theorem C16_cursor_advances_to_one_past_nul (text : List Nat) (len L : Nat)
    (hL : FirstNul text L) :
    ∀ (fuel pos : Nat), pos ≤ L →
      List.Chain (fun p q => p < q) pos
        ((lexTrace fuel (Lexer.mk (String.mk text len) pos)).map Prod.snd) ∧
      ∀ e ∈ lexTrace fuel (Lexer.mk (String.mk text len) pos),
        (e.1.type ≠ TokenType.TOKEN_EOF → e.2 ≤ L) ∧
        (e.1.type = TokenType.TOKEN_EOF → e.2 = L + 1) ∧ e.2 ≤ L + 1 := by
  intro fuel
  induction fuel with
  | zero =>
    intro pos _
    simp [lexTrace]
  | succ fuel ih =>
    intro pos hpos
    simp only [lexTrace]
    split
    · simp
    · rename_i t l1 hgen
      obtain ⟨hstr, hlt, hle, hne, heq⟩ := (gen_progress text len L pos hL hpos).2 t l1 hgen
      by_cases he : t.type = TokenType.TOKEN_EOF
      · rw [if_pos he]
        refine ⟨by simp [hlt], ?_⟩
        intro e hmem
        simp only [List.mem_singleton] at hmem
        subst hmem
        exact ⟨fun h => absurd he h, fun _ => heq he, hle⟩
      · rw [if_neg he]
        have hl1 : l1 = Lexer.mk (String.mk text len) l1.pos := by
          cases l1
          simp only at hstr
          rw [hstr]
        obtain ⟨hchain, hall⟩ := ih l1.pos (hne he)
        rw [hl1]
        refine ⟨?_, ?_⟩
        · simp only [List.map_cons, List.chain_cons]
          exact ⟨hlt, hchain⟩
        · intro e hmem
          rcases List.mem_cons.1 hmem with rfl | hmem
          · exact ⟨fun _ => hne he, fun h => absurd h he, hle⟩
          · exact hall e hmem

/-- C16, witness: the calls on `"1 + 2"` from cursor 0. -/
theorem C16_cursor_advances_to_one_past_nul_witness :
    List.Chain (fun p q => p < q) 0
      ((lexTrace 6 (Lexer.mk (String.mk (cstr "1 + 2".toList) 5) 0)).map Prod.snd) ∧
    ∀ e ∈ lexTrace 6 (Lexer.mk (String.mk (cstr "1 + 2".toList) 5) 0),
      (e.1.type ≠ TokenType.TOKEN_EOF → e.2 ≤ 5) ∧
      (e.1.type = TokenType.TOKEN_EOF → e.2 = 5 + 1) ∧ e.2 ≤ 5 + 1 :=
  C16_cursor_advances_to_one_past_nul (cstr "1 + 2".toList) 5 5 ⟨by decide, by decide⟩ 6 0
    (by decide)

/-- C16, counterexample to the claim as stated: the input `"1"` has one byte
before its NUL; the first call returns `NUMBER 1` and leaves the cursor at 1,
the second returns `EOF` and leaves it at 2, beyond the length of the input. -/
theorem C16_claim_as_stated_fails :
    FirstNul (line "1".toList).text 1 ∧
    lexTrace 2 (Lexer.mk (line "1".toList) 0) = [(numberToken 1, 1), (switchToken 0, 2)] ∧
    (switchToken 0).type = TokenType.TOKEN_EOF ∧ ¬ (2 ≤ 1) :=
  ⟨⟨by decide, by decide⟩, rfl, rfl, by decide⟩

/-- C17 (as amended).  The `switch` of `generateNextToken` has no `default`: for a
byte `c` outside the recognised alphabet, met after any spaces, the function
returns the token as `Token token = {}` made it, which is a `NUMBER` token with
payload 0, and moves the cursor past the byte.  The parser takes it for a
number and goes on: in `d1 op d2 c d3` the tokens `d2`, 0, `d3` are one run of
numbers, and the tree is that of `d1 op d3`. -/
theorem C17_unknown_byte_is_number_zero {F D : Type} (A : Arith F D)
    (fresh : Nat → ASTNode F) (arena : Arena) (c : Nat) (text : List Nat) (len pos : Nat)
    (sp d1 d2 d3 : List Nat) (op : TokenType) (k1 k2 k3 k4 : Nat)
    (hc : UnknownByte c) (hseg : SegAt text pos (sp ++ [c])) (hsp : ∀ x ∈ sp, x = 32)
    (h1 : IsLiteral d1) (h2 : IsLiteral d2) (h3 : IsLiteral d3)
    (hop : op = TokenType.TOKEN_PLUS ∨ op = TokenType.TOKEN_MINUS ∨
      op = TokenType.TOKEN_STAR ∨ op = TokenType.TOKEN_SLASH)
    (hroom : Room arena 4) :
    generateNextToken (Lexer.mk (String.mk text len) pos)
      = Except.ok (Token.mk TokenType.TOKEN_NUMBER (TokenValue.number 0),
          Lexer.mk (String.mk text len) (pos + sp.length + 1)) ∧
    ∃ s, parseLine A fresh arena (lineOfBytes (sourceBytes
          [(0, Lexeme.literal d1), (k1, Lexeme.symbol (operatorByte op)),
            (k2, Lexeme.literal d2), (k3, Lexeme.symbol c), (k4, Lexeme.literal d3)]))
        = Except.ok (ASTNode.operation
            (ASTNode.number (A.intToFloat (Int.ofNat (decimalValue d1))))
            (ASTNode.number (A.intToFloat (Int.ofNat (decimalValue d3)))) op, s) := by
  refine ⟨?_, parseLine_unknown_byte A fresh arena c d1 d2 d3 op k1 k2 k3 k4 hc h1 h2 h3 hop
    hroom⟩
  obtain ⟨ha, hb⟩ := segAt_append text pos sp [c] hseg
  have hcc : charAt text (pos + sp.length) = c := by
    have := hb 0 (by simp)
    simpa using this
  have hgen := gen_single text len pos sp ha hsp (by rw [hcc]; exact hc.1)
    (by rw [hcc]; exact hc.2.1)
  rw [hcc, switchToken_unknown c hc] at hgen
  exact hgen

/-- C17, witness: the tab, alone at the start of a text and in `"1 + 2\t3"`. -/
theorem C17_unknown_byte_is_number_zero_witness :
    lineOfBytes (sourceBytes
      [(0, Lexeme.literal [49]), (1, Lexeme.symbol (operatorByte TokenType.TOKEN_PLUS)),
        (1, Lexeme.literal [50]), (0, Lexeme.symbol 9), (0, Lexeme.literal [51])])
      = line "1 + 2\t3".toList ∧
    (generateNextToken (Lexer.mk (String.mk [9, 0] 1) 0)
      = Except.ok (Token.mk TokenType.TOKEN_NUMBER (TokenValue.number 0),
          Lexer.mk (String.mk [9, 0] 1) (0 + ([] : List Nat).length + 1)) ∧
    ∃ s, parseLine exactArith zeroFresh (Arena.mk 4096 75 0 GB) (lineOfBytes (sourceBytes
          [(0, Lexeme.literal [49]), (1, Lexeme.symbol (operatorByte TokenType.TOKEN_PLUS)),
            (1, Lexeme.literal [50]), (0, Lexeme.symbol 9), (0, Lexeme.literal [51])]))
        = Except.ok (ASTNode.operation
            (ASTNode.number (exactArith.intToFloat (Int.ofNat (decimalValue [49]))))
            (ASTNode.number (exactArith.intToFloat (Int.ofNat (decimalValue [51]))))
            TokenType.TOKEN_PLUS, s)) :=
  ⟨rfl, C17_unknown_byte_is_number_zero exactArith zeroFresh (Arena.mk 4096 75 0 GB) 9 [9, 0] 1 0
    [] [49] [50] [51] TokenType.TOKEN_PLUS 1 1 0 0
    ⟨by decide, by decide, by decide, by decide, by decide, by decide, by decide, by decide,
      by decide⟩
    (by intro i hi; simp only [List.nil_append, List.length_singleton, Nat.lt_one_iff] at hi
        subst hi; rfl)
    (by intro x hx; simp at hx)
    ⟨by decide, by decide, by decide, by decide⟩ ⟨by decide, by decide, by decide, by decide⟩
    ⟨by decide, by decide, by decide, by decide⟩ (Or.inl rfl)
    ⟨by decide, by decide, by decide⟩⟩

/-- C17, counterexample to the claim as stated: at a tab the lexer returns a
token of type `TOKEN_NUMBER`, not an `EOF`-like one, and parsing does not stop
there: `"1 + 2\t3"` gives the tree of `1 + 3` and evaluates to 4, where the claim
has `1 + 2`, which is 3. -/
theorem C17_claim_as_stated_fails :
    (∃ l1, generateNextToken (Lexer.mk (line "\t".toList) 0) = Except.ok (numberToken 0, l1)) ∧
    (numberToken 0).type = TokenType.TOKEN_NUMBER ∧
    (∃ s, parseLine exactArith zeroFresh (Arena.mk 4096 75 0 GB) (line "1 + 2\t3".toList)
      = Except.ok (ASTNode.operation (ASTNode.number 1) (ASTNode.number 3)
          TokenType.TOKEN_PLUS, s)) ∧
    evaluateLine exactArith zeroFresh (Arena.mk 4096 75 0 GB) (line "1 + 2\t3".toList)
      = Except.ok 4 ∧
    (4 : ℚ) ≠ 1 + 2 := by
  have h1 : ∃ s, parseLine exactArith zeroFresh (Arena.mk 4096 75 0 GB)
      (line "1 + 2\t3".toList)
      = Except.ok (ASTNode.operation (ASTNode.number (floatOfInt 1))
          (ASTNode.number (floatOfInt 3)) TokenType.TOKEN_PLUS, s) := ⟨_, rfl⟩
  have h2 : evaluateLine exactArith zeroFresh (Arena.mk 4096 75 0 GB)
      (line "1 + 2\t3".toList) = Except.ok (floatOfInt 1 + floatOfInt 3) := rfl
  rw [floatOfInt_small 1 (by decide), floatOfInt_small 3 (by decide)] at h1 h2
  refine ⟨⟨_, rfl⟩, rfl, by simpa using h1, ?_, by norm_num⟩
  rw [h2]
  norm_num

/-- C18 (as amended).  For every token sequence `n0 op1 n1 ... opk nk EOF` with
every `op_i` one of `+ - * /`, `parseExpression`, started with `n0` as current
token on an arena with room for the `1 + 2 k` nodes, returns exactly the tree
the grammar defines for the sequence, with left-to-right association at both
levels, and leaves `EOF` as the current token.  The derivation that defines the
tree is a reading of the same tokens.  Function `evaluate` on that tree returns
the reference evaluation of the sequence in which the `double` of a number
token `n` is `n` converted to `float` and then to `double`, as the number node
stores it. -/
theorem C18_parseExpression_builds_grammar_tree {F D : Type} (A : Arith F D)
    (fresh : Nat → ASTNode F) (fuel : Nat) (s : Parser) (n0 : Int)
    (seq : List (TokenType × Int))
    (hops : ∀ p ∈ seq, p.1 = TokenType.TOKEN_PLUS ∨ p.1 = TokenType.TOKEN_MINUS ∨
      p.1 = TokenType.TOKEN_STAR ∨ p.1 = TokenType.TOKEN_SLASH)
    (hfeed : Feeds s (sequenceTokens n0 seq))
    (hroom : Room s.arena (1 + 2 * seq.length)) (hfuel : seq.length + 2 ≤ fuel) :
    (∃ s1, parseExpression A fresh fuel s = Except.ok (grammarTree A n0 seq, s1) ∧
      s1.token = switchToken 0 ∧ s1.token.type = TokenType.TOKEN_EOF) ∧
    sequenceTokens n0 seq = numberToken n0 ::
      (factorTokens (derivation seq).1 ++ (expressionTokens (derivation seq).2
        ++ [switchToken 0])) ∧
    evaluate A (grammarTree A n0 seq) = Except.ok (referenceValue A A.ofInt n0 seq) := by
  obtain ⟨hes, hefs⟩ := derivation_term_ops seq hops
  obtain ⟨hsz, hl1, hl3, hl2⟩ := derivation_size seq
  have htoks : sequenceTokens n0 seq = numberToken n0 ::
      (factorTokens (derivation seq).1 ++ (expressionTokens (derivation seq).2
        ++ [switchToken 0])) := by
    unfold sequenceTokens
    rw [← derivation_tokens seq, List.append_assoc]
  rw [htoks] at hfeed
  obtain ⟨s1, hparse, hfeed1, _⟩ := parseExpression_spec A fresh fuel s n0 (derivation seq).1
    (derivation seq).2 (switchToken 0) [] 0
    (by decide) (by decide) (by decide) (by decide) (by decide)
    (derivation_factor_ops seq) hes hefs hfeed
    (room_mono _ _ _ hroom (by omega)) (by omega)
    (fun e he => by have := hl2 e he; omega) (by omega) (by omega)
  have htok : s1.token = switchToken 0 := hfeed1.1
  refine ⟨⟨s1, hparse, htok, by rw [htok]; rfl⟩, htoks, ?_⟩
  unfold grammarTree referenceValue
  rw [reference_fold A A.ofInt seq hops]
  have h1 := evaluate_factorTree A (derivation seq).1 (ASTNode.number (A.intToFloat n0))
    (A.ofInt n0) rfl (derivation_factor_ops seq)
  exact evaluate_expressionTree A (derivation seq).2 _ _ h1 hes hefs

/-- C18, witness: the tokens of `"2 - 1 * 2 + 10"`, with `2` as current token and
the lexer after it; the tree is `(2 - (1 * 2)) + 10`. -/
theorem C18_parseExpression_builds_grammar_tree_witness :
    grammarTree exactArith 2
        [(TokenType.TOKEN_MINUS, 1), (TokenType.TOKEN_STAR, 2), (TokenType.TOKEN_PLUS, 10)]
      = ASTNode.operation
          (ASTNode.operation (ASTNode.number (floatOfInt 2))
            (ASTNode.operation (ASTNode.number (floatOfInt 1)) (ASTNode.number (floatOfInt 2))
              TokenType.TOKEN_STAR)
            TokenType.TOKEN_MINUS)
          (ASTNode.number (floatOfInt 10)) TokenType.TOKEN_PLUS ∧
    ((∃ s1, parseExpression exactArith zeroFresh 16
        (Parser.mk (Arena.mk 4096 75 0 GB) (Lexer.mk (line "2 - 1 * 2 + 10".toList) 1)
          (numberToken 2))
        = Except.ok (grammarTree exactArith 2
            [(TokenType.TOKEN_MINUS, 1), (TokenType.TOKEN_STAR, 2), (TokenType.TOKEN_PLUS, 10)],
            s1) ∧
      s1.token = switchToken 0 ∧ s1.token.type = TokenType.TOKEN_EOF) ∧
    sequenceTokens 2
        [(TokenType.TOKEN_MINUS, 1), (TokenType.TOKEN_STAR, 2), (TokenType.TOKEN_PLUS, 10)]
      = numberToken 2 ::
      (factorTokens (derivation
          [(TokenType.TOKEN_MINUS, 1), (TokenType.TOKEN_STAR, 2), (TokenType.TOKEN_PLUS, 10)]).1
        ++ (expressionTokens (derivation
          [(TokenType.TOKEN_MINUS, 1), (TokenType.TOKEN_STAR, 2), (TokenType.TOKEN_PLUS, 10)]).2
        ++ [switchToken 0])) ∧
    evaluate exactArith (grammarTree exactArith 2
        [(TokenType.TOKEN_MINUS, 1), (TokenType.TOKEN_STAR, 2), (TokenType.TOKEN_PLUS, 10)])
      = Except.ok (referenceValue exactArith exactArith.ofInt 2
        [(TokenType.TOKEN_MINUS, 1), (TokenType.TOKEN_STAR, 2),
          (TokenType.TOKEN_PLUS, 10)])) :=
  ⟨rfl, C18_parseExpression_builds_grammar_tree exactArith zeroFresh 16
    (Parser.mk (Arena.mk 4096 75 0 GB) (Lexer.mk (line "2 - 1 * 2 + 10".toList) 1)
      (numberToken 2)) 2
    [(TokenType.TOKEN_MINUS, 1), (TokenType.TOKEN_STAR, 2), (TokenType.TOKEN_PLUS, 10)]
    (by decide) ⟨rfl, lexes_of_lexRun 7 _ _ rfl⟩ ⟨by decide, by decide, by decide⟩
    (by decide)⟩

/-- C18, counterexample to the claim as stated: the tokens of `"16777217 * 1"`.
The tree is the one the grammar defines, but its left leaf holds 16777216, the
`float` nearest to the token payload, so `evaluate` returns 16777216 where the
reference evaluation of the sequence, on the payloads as they are, gives
16777217. -/
theorem C18_claim_as_stated_fails :
    (∃ s1, parseExpression exactArith zeroFresh 16
        (Parser.mk (Arena.mk 4096 75 0 GB) (Lexer.mk (line "16777217 * 1".toList) 8)
          (numberToken 16777217))
        = Except.ok (ASTNode.operation (ASTNode.number 16777216) (ASTNode.number 1)
            TokenType.TOKEN_STAR, s1)) ∧
    evaluate exactArith (ASTNode.operation (ASTNode.number 16777216) (ASTNode.number 1)
      TokenType.TOKEN_STAR) = Except.ok 16777216 ∧
    referenceValue exactArith (fun n => (n : ℚ)) 16777217 [(TokenType.TOKEN_STAR, 1)]
      = 16777217 ∧
    (16777216 : ℚ) ≠ 16777217 := by
  have h1 : ∃ s1, parseExpression exactArith zeroFresh 16
      (Parser.mk (Arena.mk 4096 75 0 GB) (Lexer.mk (line "16777217 * 1".toList) 8)
        (numberToken 16777217))
      = Except.ok (ASTNode.operation (ASTNode.number (floatOfInt 16777217))
          (ASTNode.number (floatOfInt 1)) TokenType.TOKEN_STAR, s1) := ⟨_, rfl⟩
  rw [floatOfInt_above, floatOfInt_small 1 (by decide)] at h1
  have h2 : evaluate exactArith (ASTNode.operation (ASTNode.number 16777216) (ASTNode.number 1)
      TokenType.TOKEN_STAR) = Except.ok ((16777216 : ℚ) * 1) := rfl
  have h3 : referenceValue exactArith (fun n => (n : ℚ)) 16777217 [(TokenType.TOKEN_STAR, 1)]
      = ((16777217 : Int) : ℚ) * ((1 : Int) : ℚ) := rfl
  refine ⟨by simpa using h1, ?_, ?_, by norm_num⟩
  · rw [h2]; norm_num
  · rw [h3]; norm_num

/-- C19 (as amended).  A run of `NUMBER` tokens in atom position makes one node,
and the last number wins.  For every run of accepted literals separated by one
or more spaces, `parseLine` on the run alone returns a single number node
holding the last literal, converted to `float`, having allocated the unused
root of `parseLine` and that one node; and on `run op run`, for `op` one of
`+ - * /` with any spacing around it, it returns the operation node whose
children are the number nodes of the last literal of each run, so that
`evaluate` applies `op` to those two numbers. -/
theorem C19_last_number_of_a_run_wins {F D : Type} (A : Arith F D) (fresh : Nat → ASTNode F)
    (arena : Arena) (d e : List Nat) (more more2 : List (Nat × List Nat))
    (op : TokenType) (k1 k2 : Nat)
    (hd : IsLiteral d) (hmore : ∀ m ∈ more, IsLiteral m.2)
    (he : IsLiteral e) (hmore2 : ∀ m ∈ more2, IsLiteral m.2)
    (hop : op = TokenType.TOKEN_PLUS ∨ op = TokenType.TOKEN_MINUS ∨
      op = TokenType.TOKEN_STAR ∨ op = TokenType.TOKEN_SLASH)
    (hroom : Room arena 4) :
    (∃ s, parseLine A fresh arena (lineOfBytes (sourceBytes (runLexemes 0 d more)))
        = Except.ok (ASTNode.number (A.intToFloat (atomValue (runAtom d more))), s) ∧
      s.arena = (arenaAlloc (arenaAlloc arena sizeofASTNode).2 sizeofASTNode).2) ∧
    (∃ s, parseLine A fresh arena (lineOfBytes (sourceBytes
          (runLexemes 0 d more ++ (k1, Lexeme.symbol (operatorByte op)) :: runLexemes k2 e more2)))
        = Except.ok (ASTNode.operation
            (ASTNode.number (A.intToFloat (atomValue (runAtom d more))))
            (ASTNode.number (A.intToFloat (atomValue (runAtom e more2)))) op, s)) ∧
    evaluateLine A fresh arena (lineOfBytes (sourceBytes
          (runLexemes 0 d more ++ (k1, Lexeme.symbol (operatorByte op)) :: runLexemes k2 e more2)))
      = Except.ok
          (if op = TokenType.TOKEN_PLUS then
            A.add (A.ofInt (atomValue (runAtom d more))) (A.ofInt (atomValue (runAtom e more2)))
          else if op = TokenType.TOKEN_MINUS then
            A.sub (A.ofInt (atomValue (runAtom d more))) (A.ofInt (atomValue (runAtom e more2)))
          else if op = TokenType.TOKEN_STAR then
            A.mul (A.ofInt (atomValue (runAtom d more))) (A.ofInt (atomValue (runAtom e more2)))
          else
            A.div (A.ofInt (atomValue (runAtom d more))) (A.ofInt (atomValue (runAtom e more2)))) := by
  obtain ⟨s, hs, harena, _⟩ := parseLine_single_run A fresh arena d more hd hmore
    (room_mono _ _ _ hroom (by omega))
  have h2 := parseLine_two_runs A fresh arena d e more more2 op k1 k2 hd hmore he hmore2 hop hroom
  refine ⟨⟨s, hs, harena⟩, h2, ?_⟩
  rw [evaluateLine_of_parse A fresh arena _ _ h2]
  rcases hop with h | h | h | h <;> subst h <;> rfl

/-- C19, witness: the lines `"1 2"` and `"1 2 + 3 4"`; the first gives the number
node 2, the second the tree of `2 + 4`. -/
theorem C19_last_number_of_a_run_wins_witness :
    lineOfBytes (sourceBytes (runLexemes 0 [49] [(0, [50])])) = line "1 2".toList ∧
    lineOfBytes (sourceBytes (runLexemes 0 [49] [(0, [50])] ++
        (1, Lexeme.symbol (operatorByte TokenType.TOKEN_PLUS)) :: runLexemes 1 [51] [(0, [52])]))
      = line "1 2 + 3 4".toList ∧
    atomValue (runAtom [49] [(0, [50])]) = 2 ∧ atomValue (runAtom [51] [(0, [52])]) = 4 ∧
    ((∃ s, parseLine exactArith zeroFresh (Arena.mk 4096 75 0 GB)
          (lineOfBytes (sourceBytes (runLexemes 0 [49] [(0, [50])])))
        = Except.ok (ASTNode.number (exactArith.intToFloat
            (atomValue (runAtom [49] [(0, [50])]))), s) ∧
      s.arena = (arenaAlloc (arenaAlloc (Arena.mk 4096 75 0 GB) sizeofASTNode).2
        sizeofASTNode).2) ∧
    (∃ s, parseLine exactArith zeroFresh (Arena.mk 4096 75 0 GB) (lineOfBytes (sourceBytes
          (runLexemes 0 [49] [(0, [50])] ++
            (1, Lexeme.symbol (operatorByte TokenType.TOKEN_PLUS)) ::
              runLexemes 1 [51] [(0, [52])])))
        = Except.ok (ASTNode.operation
            (ASTNode.number (exactArith.intToFloat (atomValue (runAtom [49] [(0, [50])]))))
            (ASTNode.number (exactArith.intToFloat (atomValue (runAtom [51] [(0, [52])]))))
            TokenType.TOKEN_PLUS, s)) ∧
    evaluateLine exactArith zeroFresh (Arena.mk 4096 75 0 GB) (lineOfBytes (sourceBytes
          (runLexemes 0 [49] [(0, [50])] ++
            (1, Lexeme.symbol (operatorByte TokenType.TOKEN_PLUS)) ::
              runLexemes 1 [51] [(0, [52])])))
      = Except.ok
          (if TokenType.TOKEN_PLUS = TokenType.TOKEN_PLUS then
            exactArith.add (exactArith.ofInt (atomValue (runAtom [49] [(0, [50])])))
              (exactArith.ofInt (atomValue (runAtom [51] [(0, [52])])))
          else if TokenType.TOKEN_PLUS = TokenType.TOKEN_MINUS then
            exactArith.sub (exactArith.ofInt (atomValue (runAtom [49] [(0, [50])])))
              (exactArith.ofInt (atomValue (runAtom [51] [(0, [52])])))
          else if TokenType.TOKEN_PLUS = TokenType.TOKEN_STAR then
            exactArith.mul (exactArith.ofInt (atomValue (runAtom [49] [(0, [50])])))
              (exactArith.ofInt (atomValue (runAtom [51] [(0, [52])])))
          else
            exactArith.div (exactArith.ofInt (atomValue (runAtom [49] [(0, [50])])))
              (exactArith.ofInt (atomValue (runAtom [51] [(0, [52])]))))) :=
  ⟨rfl, rfl, by decide, by decide,
    C19_last_number_of_a_run_wins exactArith zeroFresh (Arena.mk 4096 75 0 GB) [49] [51]
      [(0, [50])] [(0, [52])] TokenType.TOKEN_PLUS 1 1
      ⟨by decide, by decide, by decide, by decide⟩
      (by
        intro m hm
        simp only [List.mem_singleton] at hm
        subst hm
        exact ⟨by decide, by decide, by decide, by decide⟩)
      ⟨by decide, by decide, by decide, by decide⟩
      (by
        intro m hm
        simp only [List.mem_singleton] at hm
        subst hm
        exact ⟨by decide, by decide, by decide, by decide⟩)
      (Or.inl rfl) ⟨by decide, by decide, by decide⟩⟩

/-- C19, counterexample to the claim as stated: on `"1 2 3"` the node holds 3, the
last literal, but on `"1 16777217"` it holds 16777216: the field of the node is
a `float`, which has no 16777217. -/
theorem C19_claim_as_stated_fails :
    (∃ s, parseLine exactArith zeroFresh (Arena.mk 4096 75 0 GB) (line "1 2 3".toList)
      = Except.ok (ASTNode.number 3, s)) ∧
    (∃ s, parseLine exactArith zeroFresh (Arena.mk 4096 75 0 GB) (line "1 16777217".toList)
      = Except.ok (ASTNode.number 16777216, s)) ∧
    (16777216 : ℚ) ≠ 16777217 := by
  have h1 : ∃ s, parseLine exactArith zeroFresh (Arena.mk 4096 75 0 GB) (line "1 2 3".toList)
      = Except.ok (ASTNode.number (floatOfInt 3), s) := ⟨_, rfl⟩
  have h2 : ∃ s, parseLine exactArith zeroFresh (Arena.mk 4096 75 0 GB)
      (line "1 16777217".toList) = Except.ok (ASTNode.number (floatOfInt 16777217), s) :=
    ⟨_, rfl⟩
  rw [floatOfInt_small 3 (by decide)] at h1
  rw [floatOfInt_above] at h2
  exact ⟨by simpa using h1, h2, by norm_num⟩

end ArenaAllocator
